import Mathlib

/-!
# Cross-shard commitment utilities of `blockchain/shardutils.go`

A shallow embedding of the cross-shard helpers of the shard block producer:
the per-shard digest row (`getCrossShardDataHash`), the flattened Merkle
structure built over it (`CreateShardTxRoot`), the sibling walk
(`GetMerklePathCrossShard`) and the inclusion check (`VerifyMerkleTree`); and
of the instruction builders `GetAssignInstructionFromBeaconBlock`,
`CreateSwapAction` and `CreateShardInstructionsFromTransactionAndIns`; of the
range fetch `FetchBeaconBlockFromHeight` and of the destination list
`CreateCrossShardByteArray`.

Conventions of the embedding.

* Go slices are `List`s, Go `int`/`byte`/`uint64` values are `Nat`s.  The
  only arithmetic that can wrap is the `uint64` counter of
  `FetchBeaconBlockFromHeight`, whose increment is taken modulo `2^64`, and
  the conversion `byte(k)` of `CreateCrossShardByteArray`, taken modulo 256;
  elsewhere bytes are only compared and converted with `int(...)`, and the
  cursors are bounded by slice lengths.
* A run of a Go function is a `Run`: it either returns (`ok`), stops on a
  slice index that is out of range (`outOfRange`, a Go runtime failure), or
  exhausts the iteration budget that makes the `for` loops structurally
  recursive (`outOfFuel`).
* Code of packages that are not part of the sources at hand (`common`,
  `privacy`, `transaction`, `metadata`, `base58`) is collected in the records
  `Lib` and `InsLib` and taken as a parameter; collaborators of package
  `blockchain` whose code is not at hand (`SwapValidator`,
  `buildStabilityActions`) are function parameters; the storage interface
  and the decoder that `FetchBeaconBlockFromHeight` calls are the record
  `BeaconStore`, and the calls made to it are recorded in the result.
-/

namespace ShardUtils

/-! ## Outcome of a run -/

/-- Outcome of running a Go function: a returned value, a slice index out of
range, or an exhausted loop budget. -/
inductive Run (α : Type) where
  | ok (a : α) : Run α
  | outOfRange : Run α
  | outOfFuel : Run α
  deriving DecidableEq, Repr

/-- Sequencing of runs: the first failure is the failure of the whole run. -/
def Run.bind {α β : Type} (r : Run α) (f : α → Run β) : Run β :=
  match r with
  | .ok a => f a
  | .outOfRange => .outOfRange
  | .outOfFuel => .outOfFuel

/-- Reading `xs[i]`: out of range when `i` is not an index of `xs`. -/
def Run.index {α : Type} (xs : List α) (i : Nat) : Run α :=
  match xs[i]? with
  | some a => .ok a
  | none => .outOfRange

/-! ## Data model -/

/-- Modelled from the spec: an output coin of package `privacy`, reduced to
what `shardutils.go` reads of it: the result of
`CoinDetails.GetPubKeyLastByte()` and of `Bytes()`. -/
structure OutputCoin where
  PubKeyLastByte : Nat
  Bytes : List Nat
  deriving DecidableEq, Repr

/-- Modelled from the spec: an input coin, reduced to its compressed public
key `CoinDetails.PublicKey.Compress()`. -/
structure InputCoin where
  PublicKey : List Nat
  deriving DecidableEq, Repr

/-- Modelled from the spec: the payment proof returned by `GetProof()`, with
its `InputCoins` and `OutputCoins`. -/
structure PaymentProof where
  InputCoins : List InputCoin
  OutputCoins : List OutputCoin
  deriving DecidableEq, Repr

/-- Modelled from the spec: a token input of package `transaction`; nothing of
it is read by `shardutils.go`. -/
structure TxTokenVin where
  raw : List Nat
  deriving DecidableEq, Repr

/-- Modelled from the spec: a token output (vout) of package `transaction`:
its value and the bytes `PaymentAddress.Pk` of the receiver's public key. -/
structure TxTokenVout where
  Value : Nat
  Pk : List Nat
  deriving DecidableEq, Repr

/-- Modelled from the spec: `transaction.TxTokenData`, with the fields that
`cloneTxTokenDataForCrossShard` names.  The Go field `Type` is `Type_`. -/
structure TxTokenData (Hash : Type) where
  PropertyID : Hash
  PropertyName : String
  PropertySymbol : String
  Type_ : Nat
  Mintable : Bool
  Amount : Nat
  Vins : List TxTokenVin
  Vouts : List TxTokenVout
  deriving DecidableEq, Repr

/-- The transaction kinds `GetType()` can return, named as the constants of
package `common`. -/
inductive TxType where
  | TxNormalType
  | TxSalaryType
  | TxCustomTokenType
  | TxCustomTokenPrivacyType
  deriving DecidableEq, Repr

/-- Modelled from the spec: a `metadata.Transaction`, reduced to what
`shardutils.go` reads of it: `GetType()`, `GetProof()` (absent when `nil`),
`GetMetadataType()`, the `TxTokenData` of a custom-token transaction and the
proof `TxTokenPrivacyData.TxNormal.GetProof()` of a privacy-token
transaction. -/
structure Transaction (Hash : Type) where
  Type_ : TxType
  Proof : Option PaymentProof
  MetadataType : Nat
  TxTokenData : ShardUtils.TxTokenData Hash
  TxTokenPrivacyProof : Option PaymentProof
  deriving DecidableEq, Repr

/-- A Go `map[common.Hash]*transaction.TxTokenData`: its entries in insertion
order, keys distinct.  The `nil` map and the empty map are both `[]`. -/
abbrev TokenMap (Hash : Type) := List (Hash × TxTokenData Hash)

/-- The order in which a `for ... range` over a token map yields its values.
Go leaves it unspecified, so it is a parameter of every function that ranges
over a map. -/
abbrev MapOrder (Hash : Type) := TokenMap Hash → List (TxTokenData Hash)

/-- A map enumeration yields every value of the map exactly once. -/
def MapOrder.Valid {Hash : Type} (order : MapOrder Hash) : Prop :=
  ∀ m : TokenMap Hash, (order m).Perm (m.map Prod.snd)

/-! ## External collaborators -/

/-- Parameters of the embedding: the functions and constants of the packages
`common` and `transaction` that `shardutils.go` calls and whose source is not
available.  `HashH` is `common.HashH`, `GetBytes` and `hashString` are the
methods `GetBytes()` and `String()` of `common.Hash` (the digest's canonical
string encoding, a Go string being the sequence of its bytes),
`GetShardIDFromLastByte` is the shard router, `MAX_SHARD_NUMBER` the shard
count, `tokenDataHash` the method `Hash()` of `transaction.TxTokenData` and
`CustomTokenCrossShard` the token-data type constant of that name. -/
structure Lib (Hash : Type) where
  HashH : List Nat → Hash
  GetBytes : Hash → List Nat
  hashString : Hash → List Nat
  GetShardIDFromLastByte : Nat → Nat
  MAX_SHARD_NUMBER : Nat
  tokenDataHash : TxTokenData Hash → Hash
  CustomTokenCrossShard : Nat

/-- The expression `common.HashH(append(a.GetBytes(), b.GetBytes()...))`, which
the source uses for every inner node and for the leaf digest: `H(a || b)`. -/
def hashCat {Hash : Type} (lib : Lib Hash) (a b : Hash) : Hash :=
  lib.HashH (lib.GetBytes a ++ lib.GetBytes b)

/-! ## `getCrossShardDataHash`: the per-shard digest row -/

/-- `calHashOutCoinCrossShard`: the hash of the concatenated `Bytes()` of the
coins, or of the empty string when there is no coin. -/
def calHashOutCoinCrossShard {Hash : Type} (lib : Lib Hash) (outCoins : List OutputCoin) : Hash :=
  if outCoins.length ≠ 0 then
    lib.HashH (outCoins.foldl (fun tmpByte outCoin => tmpByte ++ outCoin.Bytes) [])
  else lib.HashH []

/-- `calHashTxTokenDataHashList`: the hash of the concatenated bytes of the
hashes of the token data, in list order. -/
def calHashTxTokenDataHashList {Hash : Type} (lib : Lib Hash)
    (txTokenDataList : List (TxTokenData Hash)) : Hash :=
  lib.HashH (txTokenDataList.foldl
    (fun tmpByte txTokenData => tmpByte ++ lib.GetBytes (lib.tokenDataHash txTokenData)) [])

/-- The call `sort.SliceStable(list, less)` with
`less(i, j) = list[i].PropertyID.String() < list[j].PropertyID.String()`:
a stable sort, here insertion sort with `a` before `b` unless `b` is less
than `a`. -/
def sortByPropertyID {Hash : Type} (lib : Lib Hash) (txTokenDataList : List (TxTokenData Hash)) :
    List (TxTokenData Hash) :=
  txTokenDataList.insertionSort
    fun a b => ¬ lib.hashString b.PropertyID < lib.hashString a.PropertyID

/-- `calHashTxTokenDataHashFromMap`: the hash of the empty string for an empty
map, otherwise the values of the map, in the order the `range` yields them,
sorted by the string of their `PropertyID` and hashed as a list. -/
def calHashTxTokenDataHashFromMap {Hash : Type} (lib : Lib Hash) (order : MapOrder Hash)
    (txTokenDataMap : TokenMap Hash) : Hash :=
  if txTokenDataMap.length = 0 then lib.HashH []
  else calHashTxTokenDataHashList lib (sortByPropertyID lib (order txTokenDataMap))

/-- `cloneTxTokenDataForCrossShard`: the identifying fields are copied, the
type is `CustomTokenCrossShard`, the vin and vout lists are empty. -/
def cloneTxTokenDataForCrossShard {Hash : Type} (lib : Lib Hash) (txTokenData : TxTokenData Hash) :
    TxTokenData Hash where
  PropertyID := txTokenData.PropertyID
  PropertyName := txTokenData.PropertyName
  PropertySymbol := txTokenData.PropertySymbol
  Mintable := txTokenData.Mintable
  Amount := txTokenData.Amount
  Type_ := lib.CustomTokenCrossShard
  Vins := []
  Vouts := []

/-- The body shared by `getCrossShardDataHash` (source lines 354-360) and
`getTxTokenDataCrossShard` (lines 447-453): if the map has no entry for the
`PropertyID` of `txTokenData`, enter a clone of it; then append `vout` to the
vout list of that entry. -/
def addVout {Hash : Type} [DecidableEq Hash] (lib : Lib Hash) (txTokenDataMap : TokenMap Hash)
    (txTokenData : TxTokenData Hash) (vout : TxTokenVout) : TokenMap Hash :=
  let withEntry :=
    if txTokenDataMap.any (fun e => decide (e.1 = txTokenData.PropertyID)) then txTokenDataMap
    else txTokenDataMap ++ [(txTokenData.PropertyID, cloneTxTokenDataForCrossShard lib txTokenData)]
  withEntry.map fun e =>
    if e.1 = txTokenData.PropertyID then (e.1, { e.2 with Vouts := e.2.Vouts ++ [vout] }) else e

/-- The loop over `tx.GetProof().OutputCoins` of `getCrossShardDataHash`
(source lines 328-332 and 341-345): each coin is appended to the list of the
shard its last public-key byte routes to. -/
def getCrossShardDataHash.coins {Hash : Type} (lib : Lib Hash) :
    List OutputCoin → List (List OutputCoin) → Run (List (List OutputCoin))
  | [], outCoinEachShard => .ok outCoinEachShard
  | outCoin :: rest, outCoinEachShard =>
    let shardID := lib.GetShardIDFromLastByte outCoin.PubKeyLastByte
    match outCoinEachShard[shardID]? with
    | none => .outOfRange
    | some list =>
      getCrossShardDataHash.coins lib rest (outCoinEachShard.set shardID (list ++ [outCoin]))

/-- The coins of an optional proof (`if tx.GetProof() != nil`). -/
def getCrossShardDataHash.proofCoins {Hash : Type} (lib : Lib Hash) (proof : Option PaymentProof)
    (outCoinEachShard : List (List OutputCoin)) : Run (List (List OutputCoin)) :=
  match proof with
  | some p => getCrossShardDataHash.coins lib p.OutputCoins outCoinEachShard
  | none => .ok outCoinEachShard

/-- The loop over `customTokenTx.TxTokenData.Vouts` of `getCrossShardDataHash`
(source lines 348-361): the last byte of the receiver's `Pk` is routed, and
the vout is added to the token map of that shard. -/
def getCrossShardDataHash.vouts {Hash : Type} [DecidableEq Hash] (lib : Lib Hash)
    (txTokenData : TxTokenData Hash) :
    List TxTokenVout → List (TokenMap Hash) → Run (List (TokenMap Hash))
  | [], txTokenDataEachShard => .ok txTokenDataEachShard
  | vout :: rest, txTokenDataEachShard =>
    match vout.Pk.getLast? with
    | none => .outOfRange
    | some lastByte =>
      let shardID := lib.GetShardIDFromLastByte lastByte
      match txTokenDataEachShard[shardID]? with
      | none => .outOfRange
      | some m =>
        getCrossShardDataHash.vouts lib txTokenData rest
          (txTokenDataEachShard.set shardID (addVout lib m txTokenData vout))

/-- The loop over `txList` of `getCrossShardDataHash` (source lines 321-376):
normal and salary transactions contribute the output coins of their proof,
custom-token transactions their output coins and their token vouts, and
privacy-token transactions nothing. -/
def getCrossShardDataHash.group {Hash : Type} [DecidableEq Hash] (lib : Lib Hash) :
    List (Transaction Hash) → List (List OutputCoin) → List (TokenMap Hash) →
      Run (List (List OutputCoin) × List (TokenMap Hash))
  | [], outCoinEachShard, txTokenDataEachShard => .ok (outCoinEachShard, txTokenDataEachShard)
  | tx :: rest, outCoinEachShard, txTokenDataEachShard =>
    match tx.Type_ with
    | .TxNormalType | .TxSalaryType =>
      match getCrossShardDataHash.proofCoins lib tx.Proof outCoinEachShard with
      | .ok oc => getCrossShardDataHash.group lib rest oc txTokenDataEachShard
      | .outOfRange => .outOfRange
      | .outOfFuel => .outOfFuel
    | .TxCustomTokenType =>
      match getCrossShardDataHash.proofCoins lib tx.Proof outCoinEachShard with
      | .ok oc =>
        match getCrossShardDataHash.vouts lib tx.TxTokenData tx.TxTokenData.Vouts
            txTokenDataEachShard with
        | .ok tm => getCrossShardDataHash.group lib rest oc tm
        | .outOfRange => .outOfRange
        | .outOfFuel => .outOfFuel
      | .outOfRange => .outOfRange
      | .outOfFuel => .outOfFuel
    | .TxCustomTokenPrivacyType =>
      getCrossShardDataHash.group lib rest outCoinEachShard txTokenDataEachShard

/-- The first half of `getCrossShardDataHash` (source lines 319-376): the
output coins and the token maps of every shard, starting from
`MAX_SHARD_NUMBER` empty lists and maps. -/
def getCrossShardDataHash.grouped {Hash : Type} [DecidableEq Hash] (lib : Lib Hash)
    (txList : List (Transaction Hash)) : Run (List (List OutputCoin) × List (TokenMap Hash)) :=
  getCrossShardDataHash.group lib txList
    (List.replicate lib.MAX_SHARD_NUMBER []) (List.replicate lib.MAX_SHARD_NUMBER [])

/-- A loop `for i := 0; i < n; i++ { out[i] = f(i) }`. -/
def Run.forRange {α : Type} (f : Nat → Run α) : Nat → Run (List α)
  | 0 => .ok []
  | n + 1 =>
    (Run.forRange f n).bind fun out => (f n).bind fun a => .ok (out ++ [a])

/-- `getCrossShardDataHash`: group the effects of `txList` by shard, then hash
the coins of each shard, the token map of each shard, and the two hashes of
each shard together (source lines 378-409). -/
def getCrossShardDataHash {Hash : Type} [DecidableEq Hash] (lib : Lib Hash)
    (order : MapOrder Hash) (txList : List (Transaction Hash)) : Run (List Hash) :=
  (getCrossShardDataHash.grouped lib txList).bind fun g =>
    (Run.forRange (fun i => (Run.index g.1 i).bind fun coins =>
        .ok (calHashOutCoinCrossShard lib coins)) lib.MAX_SHARD_NUMBER).bind fun outputCoinHash =>
    (Run.forRange (fun i => (Run.index g.2 i).bind fun m =>
        .ok (calHashTxTokenDataHashFromMap lib order m)) lib.MAX_SHARD_NUMBER).bind
      fun txTokenOutHash =>
    Run.forRange (fun i => (Run.index outputCoinHash i).bind fun a =>
        (Run.index txTokenOutHash i).bind fun b => .ok (hashCat lib a b)) lib.MAX_SHARD_NUMBER

/-! ## The cross-shard payload of one shard -/

/-- `getOutCoinCrossShard`: the output coins, over all transactions that have a
proof, whose last public-key byte equals `shardID`. -/
def getOutCoinCrossShard {Hash : Type} (txList : List (Transaction Hash)) (shardID : Nat) :
    List OutputCoin :=
  txList.foldl (fun coinList tx =>
    match tx.Proof with
    | some p =>
      p.OutputCoins.foldl (fun coinList outCoin =>
        if outCoin.PubKeyLastByte = shardID then coinList ++ [outCoin] else coinList) coinList
    | none => coinList) []

/-- The loop over the vouts of one custom-token transaction in
`getTxTokenDataCrossShard` (source lines 444-455). -/
def getTxTokenDataCrossShard.vouts {Hash : Type} [DecidableEq Hash] (lib : Lib Hash)
    (txTokenData : TxTokenData Hash) (shardID : Nat) :
    List TxTokenVout → TokenMap Hash → Run (TokenMap Hash)
  | [], txTokenDataMap => .ok txTokenDataMap
  | vout :: rest, txTokenDataMap =>
    match vout.Pk.getLast? with
    | none => .outOfRange
    | some b =>
      let lastByte := lib.GetShardIDFromLastByte b
      if lastByte = shardID then
        getTxTokenDataCrossShard.vouts lib txTokenData shardID rest
          (addVout lib txTokenDataMap txTokenData vout)
      else getTxTokenDataCrossShard.vouts lib txTokenData shardID rest txTokenDataMap

/-- The loop over `txList` of `getTxTokenDataCrossShard` (source lines
441-457): only custom-token transactions are looked at. -/
def getTxTokenDataCrossShard.txs {Hash : Type} [DecidableEq Hash] (lib : Lib Hash)
    (shardID : Nat) : List (Transaction Hash) → TokenMap Hash → Run (TokenMap Hash)
  | [], txTokenDataMap => .ok txTokenDataMap
  | tx :: rest, txTokenDataMap =>
    if tx.Type_ = .TxCustomTokenType then
      match getTxTokenDataCrossShard.vouts lib tx.TxTokenData shardID tx.TxTokenData.Vouts
          txTokenDataMap with
      | .ok m => getTxTokenDataCrossShard.txs lib shardID rest m
      | .outOfRange => .outOfRange
      | .outOfFuel => .outOfFuel
    else getTxTokenDataCrossShard.txs lib shardID rest txTokenDataMap

/-- `getTxTokenDataCrossShard`: the token map of `shardID`, and, when it is not
empty, its values in `range` order sorted by the string of their
`PropertyID`; the `nil` list otherwise. -/
def getTxTokenDataCrossShard {Hash : Type} [DecidableEq Hash] (lib : Lib Hash)
    (order : MapOrder Hash) (txList : List (Transaction Hash)) (shardID : Nat) :
    Run (List (TxTokenData Hash)) :=
  (getTxTokenDataCrossShard.txs lib shardID txList []).bind fun txTokenDataMap =>
    .ok (if txTokenDataMap.length ≠ 0 then sortByPropertyID lib (order txTokenDataMap) else [])

/-! ## `CreateShardTxRoot`: the flattened Merkle structure -/

/-- The `for` loop of `CreateShardTxRoot` (source lines 186-194), one
iteration per unit of fuel.  `merkleData[cursor]` and `merkleData[cursor+1]`
are read, their combined hash is appended, the cursor advances by two, and
the loop stops when `cursor >= len(merkleData)-1`. -/
def CreateShardTxRoot.loop {Hash : Type} (lib : Lib Hash) :
    Nat → List Hash → Nat → Run (List Hash)
  | 0, _, _ => .outOfFuel
  | fuel + 1, merkleData, cursor =>
    match merkleData[cursor]?, merkleData[cursor + 1]? with
    | some v1, some v2 =>
      let merkleData1 := merkleData ++ [hashCat lib v1 v2]
      let cursor1 := cursor + 2
      if cursor1 + 1 ≥ merkleData1.length then .ok merkleData1
      else CreateShardTxRoot.loop lib fuel merkleData1 cursor1
    | _, _ => .outOfRange

/-- `CreateShardTxRoot` from the point where the digest row
`crossShardDataHash` is known (source lines 184-195): returns the row and the
flattened Merkle data built over it.  The loop budget is one more than the
row length; the loop appends one element per iteration and needs fewer
iterations than the row has elements. -/
def CreateShardTxRoot.fromRow {Hash : Type} (lib : Lib Hash)
    (crossShardDataHash : List Hash) : Run (List Hash × List Hash) :=
  (CreateShardTxRoot.loop lib (crossShardDataHash.length + 1) crossShardDataHash 0).bind
    fun merkleData => .ok (crossShardDataHash, merkleData)

/-- `CreateShardTxRoot`: the digest row of `txList` and the Merkle data built
over it. -/
def CreateShardTxRoot {Hash : Type} [DecidableEq Hash] (lib : Lib Hash) (order : MapOrder Hash)
    (txList : List (Transaction Hash)) : Run (List Hash × List Hash) :=
  (getCrossShardDataHash lib order txList).bind (CreateShardTxRoot.fromRow lib)

/-! ## `GetMerklePathCrossShard`: the sibling walk -/

/-- The `for` loop of `GetMerklePathCrossShard` (source lines 207-226), one
iteration per unit of fuel.  `rowLen` is `len(crossShardDataHash)`; the state
is `cursor`, `lastCursor`, `i`, `time` and the path collected so far. -/
def GetMerklePathCrossShard.loop {Hash : Type} (merkleData : List Hash) (rowLen : Nat) :
    Nat → Nat → Nat → Nat → Nat → List Hash → Run (List Hash)
  | 0, _, _, _, _, _ => .outOfFuel
  | fuel + 1, cursor, lastCursor, i, time, merklePathShard =>
    if cursor + 2 ≥ merkleData.length then .ok merklePathShard
    else
      match (if i % 2 = 0 then merkleData[cursor + i + 1]? else merkleData[cursor + i - 1]?) with
      | none => .outOfRange
      | some sibling =>
        if time = 0 then
          GetMerklePathCrossShard.loop merkleData rowLen fuel
            (cursor + rowLen) lastCursor (i / 2) (time + 1) (merklePathShard ++ [sibling])
        else
          GetMerklePathCrossShard.loop merkleData rowLen fuel
            (cursor + (cursor - lastCursor) / 2) cursor (i / 2) (time + 1)
            (merklePathShard ++ [sibling])

/-- `GetMerklePathCrossShard` from the point where `CreateShardTxRoot` has
returned `crossShardDataHash` and `merkleData` (source lines 202-228): the
sibling list and `merkleData[len(merkleData)-1]`.  The loop budget is one more
than the length of `merkleData`: a run that returns moves the cursor forward
in every iteration and stops before the cursor reaches that length. -/
def GetMerklePathCrossShard.walk {Hash : Type} (crossShardDataHash merkleData : List Hash)
    (shardID : Nat) : Run (List Hash × Hash) :=
  (GetMerklePathCrossShard.loop merkleData crossShardDataHash.length (merkleData.length + 1)
      0 0 shardID 0 []).bind fun merklePathShard =>
    (Run.index merkleData (merkleData.length - 1)).bind fun merkleShardRoot =>
      .ok (merklePathShard, merkleShardRoot)

/-- `GetMerklePathCrossShard` on a digest row: build the Merkle data with
`CreateShardTxRoot`, then walk it for `shardID`. -/
def GetMerklePathCrossShard.fromRow {Hash : Type} (lib : Lib Hash)
    (crossShardDataHash : List Hash) (shardID : Nat) : Run (List Hash × Hash) :=
  (CreateShardTxRoot.fromRow lib crossShardDataHash).bind fun r =>
    GetMerklePathCrossShard.walk r.1 r.2 shardID

/-- `GetMerklePathCrossShard`: the sibling list of `shardID` and the root, for
the Merkle data of `txList`. -/
def GetMerklePathCrossShard {Hash : Type} [DecidableEq Hash] (lib : Lib Hash)
    (order : MapOrder Hash) (txList : List (Transaction Hash)) (shardID : Nat) :
    Run (List Hash × Hash) :=
  (CreateShardTxRoot lib order txList).bind fun r =>
    GetMerklePathCrossShard.walk r.1 r.2 shardID

/-! ## `VerifyMerkleTree`: the inclusion check -/

/-- The `for ... range merklePath` loop of `VerifyMerkleTree`: fold the
siblings into `finalHash`, on the right when `i` is even and on the left when
it is odd, halving `i` at each step. -/
def VerifyMerkleTree.loop {Hash : Type} (lib : Lib Hash) : Hash → Nat → List Hash → Hash
  | finalHash, _, [] => finalHash
  | finalHash, i, hashPath :: rest =>
    VerifyMerkleTree.loop lib
      (if i % 2 = 0 then hashCat lib finalHash hashPath else hashCat lib hashPath finalHash)
      (i / 2) rest

/-- `VerifyMerkleTree`: replay the path from `finalHash` and compare the
string encodings of the result and of `merkleRoot`. -/
def VerifyMerkleTree {Hash : Type} (lib : Lib Hash) (finalHash : Hash)
    (merklePath : List Hash) (merkleRoot : Hash) (receiverShardID : Nat) : Bool :=
  if lib.hashString (VerifyMerkleTree.loop lib finalHash receiverShardID merklePath)
      ≠ lib.hashString merkleRoot then false else true

/-- `VerifyCrossShardBlockUTXO`, on the fields of the cross-shard block it
reads: the leaf digest is recomputed from `CrossOutputCoin` and
`CrossTxTokenData` and checked against `Header.ShardTxRoot` for `ToShardID`. -/
def VerifyCrossShardBlockUTXO {Hash : Type} (lib : Lib Hash)
    (CrossOutputCoin : List OutputCoin) (CrossTxTokenData : List (TxTokenData Hash))
    (ShardTxRoot : Hash) (ToShardID : Nat) (merklePathShard : List Hash) : Bool :=
  let outputCoinHash := calHashOutCoinCrossShard lib CrossOutputCoin
  let txTokenDataHash := calHashTxTokenDataHashList lib CrossTxTokenData
  let finalHash := hashCat lib outputCoinHash txTokenDataHash
  VerifyMerkleTree lib finalHash merklePathShard ShardTxRoot ToShardID

/-! ## Shard block instructions -/

/-- The Go call `strconv.Itoa(int(shardID))` on a byte: its decimal string. -/
def Itoa (n : Nat) : String := toString n

/-- Modelled from the spec: the constant `StakeAction` of package `blockchain`,
whose declaration is not in the sources at hand; the action tag of a stake
instruction is `"stake"`. -/
def StakeAction : String := "stake"

/-- Modelled from the spec: a `BeaconBlock`, reduced to `Body.Instructions`,
the only part `shardutils.go` reads. -/
structure BeaconBlock where
  Instructions : List (List String)
  deriving DecidableEq, Repr

/-- Parameters of the instruction builders: the constants `common.OFFSET`,
`metadata.ShardStakingMeta`, `metadata.BeaconStakingMeta`, `common.ZeroByte`
and the function `base58.Base58Check{}.Encode`, none of which is declared in
the sources at hand. -/
structure InsLib where
  OFFSET : Int
  ShardStakingMeta : Nat
  BeaconStakingMeta : Nat
  ZeroByte : Nat
  Base58CheckEncode : List Nat → Nat → String

/-- The inner loop of `GetAssignInstructionFromBeaconBlock` (source lines
23-29) over the instructions of one block.  `l[0]` is always read, `l[2]`
only when `l[0] == "assign"`, `l[3]` only when also `l[2] == "shard"`; an
instruction too short for a read stops the run. -/
def GetAssignInstructionFromBeaconBlock.instructions (shardID : Nat) :
    List (List String) → List (List String) → Run (List (List String))
  | [], assignInstruction => .ok assignInstruction
  | l :: rest, assignInstruction =>
    match l[0]? with
    | none => .outOfRange
    | some l0 =>
      if l0 = "assign" then
        match l[2]? with
        | none => .outOfRange
        | some l2 =>
          if l2 = "shard" then
            match l[3]? with
            | none => .outOfRange
            | some l3 =>
              if l3 = Itoa shardID then
                GetAssignInstructionFromBeaconBlock.instructions shardID rest
                  (assignInstruction ++ [l])
              else GetAssignInstructionFromBeaconBlock.instructions shardID rest assignInstruction
          else GetAssignInstructionFromBeaconBlock.instructions shardID rest assignInstruction
      else GetAssignInstructionFromBeaconBlock.instructions shardID rest assignInstruction

/-- The outer loop of `GetAssignInstructionFromBeaconBlock` over the beacon
blocks. -/
def GetAssignInstructionFromBeaconBlock.blocks (shardID : Nat) :
    List BeaconBlock → List (List String) → Run (List (List String))
  | [], assignInstruction => .ok assignInstruction
  | beaconBlock :: rest, assignInstruction =>
    match GetAssignInstructionFromBeaconBlock.instructions shardID beaconBlock.Instructions
        assignInstruction with
    | .ok acc => GetAssignInstructionFromBeaconBlock.blocks shardID rest acc
    | .outOfRange => .outOfRange
    | .outOfFuel => .outOfFuel

/-- `GetAssignInstructionFromBeaconBlock`: the assign instructions of
`shardID` in `beaconBlocks`. -/
def GetAssignInstructionFromBeaconBlock (beaconBlocks : List BeaconBlock) (shardID : Nat) :
    Run (List (List String)) :=
  GetAssignInstructionFromBeaconBlock.blocks shardID beaconBlocks []

/-- The test `GetAssignInstructionFromBeaconBlock` applies to an instruction:
first field `"assign"`, third field `"shard"`, fourth field the decimal
string of the shard id. -/
def isAssignFor (shardID : Nat) (l : List String) : Bool :=
  decide (l[0]? = some "assign" ∧ l[2]? = some "shard" ∧ l[3]? = some (Itoa shardID))

/-- `CreateSwapAction`.  `SwapValidator` is the swap-selection collaborator,
which returns the new pending queue, the new committee, the swapped-out
members, the new members and an error (`none` for `nil`); it is called with
`common.OFFSET`.  The result is the instruction, the new pending queue, the
new committee and the error; a `nil` slice is `[]`.  The two `fmt.Println`
calls have no effect on the result. -/
def CreateSwapAction {Err : Type} (ins : InsLib)
    (SwapValidator : List String → List String → Int → Int →
      List String × List String × List String × List String × Option Err)
    (pendingValidator commitees : List String) (committeeSize : Int) (shardID : Nat) :
    List String × List String × List String × Option Err :=
  match SwapValidator pendingValidator commitees committeeSize ins.OFFSET with
  | (newPendingValidator, newShardCommittees, shardSwapedCommittees, shardNewCommittees, err) =>
    match err with
    | some e => ([], [], [], some e)
    | none =>
      (["swap", String.intercalate "," shardNewCommittees,
          String.intercalate "," shardSwapedCommittees, "shard", Itoa shardID],
        newPendingValidator, newShardCommittees, none)

/-- Modelled from the spec: the postcondition of the swap-selection
collaborator `SwapValidator`, whose code is not in the sources at hand: when
it succeeds, the committee it returns has `committeeSize` members. -/
def SwapValidatorKeepsSize {Err : Type}
    (SwapValidator : List String → List String → Int → Int →
      List String × List String × List String × List String × Option Err) : Prop :=
  ∀ pending committee committeeSize offset newPending newCommittee swapped added,
    SwapValidator pending committee committeeSize offset
        = (newPending, newCommittee, swapped, added, none) →
      (newCommittee.length : Int) = committeeSize

/-- The expression `tx.GetProof().InputCoins[0].CoinDetails.PublicKey.Compress()`:
absent when the proof is `nil` or has no input coin, in which case the Go
code stops with a runtime failure. -/
def firstInputCoinKey {Hash : Type} (tx : Transaction Hash) : Option (List Nat) :=
  match tx.Proof with
  | none => none
  | some p =>
    match p.InputCoins[0]? with
    | none => none
    | some c => some c.PublicKey

/-- The loop over `transactions` of `CreateShardInstructionsFromTransactionAndIns`
(source lines 139-152): the encoded key of the first input coin of every
shard-staking transaction is appended to the first list, that of every
beacon-staking transaction to the second.  A staking transaction without a
first input coin stops the run (outcome `outOfRange`). -/
def CreateShardInstructionsFromTransactionAndIns.keys {Hash : Type} (ins : InsLib) :
    List (Transaction Hash) → List String → List String → Run (List String × List String)
  | [], stakeShardPubKey, stakeBeaconPubKey => .ok (stakeShardPubKey, stakeBeaconPubKey)
  | tx :: rest, stakeShardPubKey, stakeBeaconPubKey =>
    if tx.MetadataType = ins.ShardStakingMeta then
      match firstInputCoinKey tx with
      | none => .outOfRange
      | some pk =>
        CreateShardInstructionsFromTransactionAndIns.keys ins rest
          (stakeShardPubKey ++ [ins.Base58CheckEncode pk ins.ZeroByte]) stakeBeaconPubKey
    else if tx.MetadataType = ins.BeaconStakingMeta then
      match firstInputCoinKey tx with
      | none => .outOfRange
      | some pk =>
        CreateShardInstructionsFromTransactionAndIns.keys ins rest
          stakeShardPubKey (stakeBeaconPubKey ++ [ins.Base58CheckEncode pk ins.ZeroByte])
    else
      CreateShardInstructionsFromTransactionAndIns.keys ins rest stakeShardPubKey stakeBeaconPubKey

/-- `CreateShardInstructionsFromTransactionAndIns`.  `buildStabilityActions`
is the delegated builder, applied to the transactions, the shard id, the
block height and the beacon blocks (the blockchain handle and the producer
address are part of the function).  A stake instruction is appended for
each of the two key lists that is not empty, the shard one first. -/
def CreateShardInstructionsFromTransactionAndIns {Hash : Type} (ins : InsLib)
    (buildStabilityActions : List (Transaction Hash) → Nat → Nat → List BeaconBlock →
      List (List String))
    (transactions : List (Transaction Hash)) (shardID : Nat) (shardBlockHeight : Nat)
    (beaconBlocks : List BeaconBlock) : Run (List (List String)) :=
  let instructions := buildStabilityActions transactions shardID shardBlockHeight beaconBlocks
  (CreateShardInstructionsFromTransactionAndIns.keys ins transactions [] []).bind fun keys =>
    let withShard :=
      if keys.1 ≠ [] then instructions ++ [[StakeAction, String.intercalate "," keys.1, "shard"]]
      else instructions
    let withBeacon :=
      if keys.2 ≠ [] then withShard ++ [[StakeAction, String.intercalate "," keys.2, "beacon"]]
      else withShard
    .ok withBeacon

/-! ## Reference description of the flattened tree -/

/-- Node `i` of level `j` of the binary hash tree over `row`: level 0 is the
row itself, node `i` of level `j+1` is `H(left || right)` of nodes `2i` and
`2i+1` of level `j`.  Absent when the row is too short. -/
def node {Hash : Type} (lib : Lib Hash) (row : List Hash) : Nat → Nat → Option Hash
  | 0, i => row[i]?
  | j + 1, i =>
    match node lib row j (2 * i), node lib row j (2 * i + 1) with
    | some a, some b => some (hashCat lib a b)
    | _, _ => none

/-- Absolute position of the first element of level `j` in the flattened
sequence over a row of `N` leaves: `offset 0 = 0` and
`offset (j+1) = offset j + N / 2^j`. -/
def levelOffset (N : Nat) : Nat → Nat
  | 0 => 0
  | j + 1 => levelOffset N j + N / 2 ^ j

/-- The recursively defined Merkle root of a row of `2^k` digests:
`root [x] = x` and `root (l ++ r) = H(root l || root r)` for the two halves
`l`, `r` of equal length. -/
def merkleRootSpec {Hash : Type} (lib : Lib Hash) : Nat → List Hash → Option Hash
  | 0, [x] => some x
  | 0, _ => none
  | k + 1, row =>
    match merkleRootSpec lib k (row.take (2 ^ k)), merkleRootSpec lib k (row.drop (2 ^ k)) with
    | some a, some b => some (hashCat lib a b)
    | _, _ => none

/-- The layout of the flattened sequence `d` over `row`: `2N - 1` elements,
the row first, and element `N + u` the hash of elements `2u` and `2u + 1`. -/
def Layout {Hash : Type} (lib : Lib Hash) (row d : List Hash) : Prop :=
  d.length = 2 * row.length - 1 ∧
  (∀ i, i < row.length → d[i]? = row[i]?) ∧
  (∀ u, u + 1 < row.length →
    ∃ a b, d[2 * u]? = some a ∧ d[2 * u + 1]? = some b ∧
      d[row.length + u]? = some (hashCat lib a b))

/-- The invariant of a token map: its keys are distinct and every value
carries its key as `PropertyID`. -/
def MapInv {Hash : Type} (m : TokenMap Hash) : Prop :=
  (m.map Prod.fst).Nodup ∧ ∀ e ∈ m, e.2.PropertyID = e.1

/-! ## Keys of the staking transactions -/

/-- The encoded key a staking transaction contributes: the encoding of the
compressed public key of its first input coin, if it has one. -/
def stakeKeyOf {Hash : Type} (ins : InsLib) (tx : Transaction Hash) : Option String :=
  (firstInputCoinKey tx).map fun pk => ins.Base58CheckEncode pk ins.ZeroByte

/-- The encoded keys of the shard-staking transactions of a list, in order. -/
def shardStakeKeys {Hash : Type} (ins : InsLib) (txs : List (Transaction Hash)) : List String :=
  txs.filterMap fun tx => if tx.MetadataType = ins.ShardStakingMeta then stakeKeyOf ins tx else none

/-- The encoded keys of the beacon-staking transactions of a list, in order. -/
def beaconStakeKeys {Hash : Type} (ins : InsLib) (txs : List (Transaction Hash)) : List String :=
  txs.filterMap fun tx => if tx.MetadataType = ins.BeaconStakingMeta then stakeKeyOf ins tx else none

/-! ## Buckets of a batch with distinct tokens -/

/-- The vouts of a list that are routed to shard `s`, in order. -/
def routedVouts {Hash : Type} (lib : Lib Hash) (s : Nat) (vs : List TxTokenVout) :
    List TxTokenVout :=
  vs.filter fun v => decide (v.Pk.getLast?.map lib.GetShardIDFromLastByte = some s)

/-- The bucket that a custom-token transaction alone contributes to shard `s`:
a clone of its token data holding its vouts routed to `s`, if there is one. -/
def bucketFor {Hash : Type} (lib : Lib Hash) (s : Nat) (tx : Transaction Hash) :
    Option (Hash × TxTokenData Hash) :=
  if tx.Type_ = .TxCustomTokenType ∧ routedVouts lib s tx.TxTokenData.Vouts ≠ [] then
    some (tx.TxTokenData.PropertyID,
      { cloneTxTokenDataForCrossShard lib tx.TxTokenData with
        Vouts := routedVouts lib s tx.TxTokenData.Vouts })
  else none

/-- The token identifiers of the custom-token transactions of a batch. -/
def customTokenIDs {Hash : Type} (txList : List (Transaction Hash)) : List Hash :=
  (txList.filter fun tx => decide (tx.Type_ = .TxCustomTokenType)).map
    fun tx => tx.TxTokenData.PropertyID

/-! ## `FetchBeaconBlockFromHeight`: the range fetch -/

/-- Modelled from the spec: the collaborators of `FetchBeaconBlockFromHeight`,
whose code is not in the sources at hand: the two calls of
`database.DatabaseInterface` it makes and `json.Unmarshal` into a
`BeaconBlock`.  `E` is the type of storage errors, `J` of decode errors. -/
structure BeaconStore (Hash E J : Type) where
  GetBeaconBlockHashByIndex : Nat → Except E Hash
  FetchBeaconBlock : Hash → Except E (List Nat)
  Unmarshal : List Nat → Except J BeaconBlock

/-- The error `FetchBeaconBlockFromHeight` returns: a storage error as it is,
or a decode error wrapped by
`NewBlockChainError(UnmashallJsonBlockError, err)`. -/
inductive FetchError (E J : Type) where
  | storage (err : E) : FetchError E J
  | UnmashallJsonBlockError (err : J) : FetchError E J
  deriving DecidableEq, Repr

/-- A call of the storage collaborator. -/
inductive StoreAccess (Hash : Type) where
  | GetBeaconBlockHashByIndex (i : Nat) : StoreAccess Hash
  | FetchBeaconBlock (hash : Hash) : StoreAccess Hash
  deriving DecidableEq, Repr

/-- One iteration of the loop of `FetchBeaconBlockFromHeight` (source lines
37-50) at height `i`: the decoded block when the lookup, the fetch and the
decode succeed, the returned error otherwise; in both cases with the storage
calls the iteration makes, in order. -/
def FetchBeaconBlockFromHeight.body {Hash E J : Type} (db : BeaconStore Hash E J) (i : Nat) :
    Except (FetchError E J × List (StoreAccess Hash)) (BeaconBlock × List (StoreAccess Hash)) :=
  match db.GetBeaconBlockHashByIndex i with
  | .error err => .error (.storage err, [.GetBeaconBlockHashByIndex i])
  | .ok hash =>
    match db.FetchBeaconBlock hash with
    | .error err => .error (.storage err, [.GetBeaconBlockHashByIndex i, .FetchBeaconBlock hash])
    | .ok beaconBlockByte =>
      match db.Unmarshal beaconBlockByte with
      | .error err =>
        .error (.UnmashallJsonBlockError err,
          [.GetBeaconBlockHashByIndex i, .FetchBeaconBlock hash])
      | .ok beaconBlock => .ok (beaconBlock, [.GetBeaconBlockHashByIndex i, .FetchBeaconBlock hash])

/-- The `for i := from; i <= to; i++` loop of `FetchBeaconBlockFromHeight`
(source lines 36-52), one iteration per unit of fuel.  `i` is a `uint64`, so
`i++` is taken modulo `2^64`.  The state is `i`, the blocks collected so far
and the storage calls made so far; the result is the blocks, the error
(`none` for `nil`) and the storage calls. -/
def FetchBeaconBlockFromHeight.loop {Hash E J : Type} (db : BeaconStore Hash E J) (to_ : Nat) :
    Nat → Nat → List BeaconBlock → List (StoreAccess Hash) →
      Run (List BeaconBlock × Option (FetchError E J) × List (StoreAccess Hash))
  | 0, _, _, _ => .outOfFuel
  | fuel + 1, i, beaconBlocks, calls =>
    if i ≤ to_ then
      match FetchBeaconBlockFromHeight.body db i with
      | .error (err, made) => .ok (beaconBlocks, some err, calls ++ made)
      | .ok (beaconBlock, made) =>
        FetchBeaconBlockFromHeight.loop db to_ fuel ((i + 1) % 2 ^ 64)
          (beaconBlocks ++ [beaconBlock]) (calls ++ made)
    else .ok (beaconBlocks, none, calls)

/-- `FetchBeaconBlockFromHeight` on the `uint64` heights `from_` and `to_`.  The
loop budget is `2^64 + 1`: the counter takes at most `2^64` values, and the
collaborators answer the same on the same height. -/
def FetchBeaconBlockFromHeight {Hash E J : Type} (db : BeaconStore Hash E J) (from_ to_ : Nat) :
    Run (List BeaconBlock × Option (FetchError E J) × List (StoreAccess Hash)) :=
  FetchBeaconBlockFromHeight.loop db to_ (2 ^ 64 + 1) from_ [] []

/-- The block one iteration decodes at height `i`, if its three steps
succeed. -/
def decodedBlock {Hash E J : Type} (db : BeaconStore Hash E J) (i : Nat) : Option BeaconBlock :=
  match FetchBeaconBlockFromHeight.body db i with
  | .ok (beaconBlock, _) => some beaconBlock
  | .error _ => none

/-- The storage calls one iteration makes at height `i`. -/
def callsAt {Hash E J : Type} (db : BeaconStore Hash E J) (i : Nat) : List (StoreAccess Hash) :=
  match FetchBeaconBlockFromHeight.body db i with
  | .ok (_, made) => made
  | .error (_, made) => made

/-- The height a storage call looks up, for a call of
`GetBeaconBlockHashByIndex`. -/
def lookedUpHeight {Hash : Type} : StoreAccess Hash → Option Nat
  | .GetBeaconBlockHashByIndex i => some i
  | .FetchBeaconBlock _ => none

/-- A store in which the lookup, the fetch and the decode succeed at every
`uint64` height. -/
def BeaconStore.AllSucceed {Hash E J : Type} (db : BeaconStore Hash E J) : Prop :=
  ∀ i, i < 2 ^ 64 → ∃ r, FetchBeaconBlockFromHeight.body db i = .ok r

/-! ## `CreateCrossShardByteArray`: the destination shards -/

/-- The loop over output coins of `CreateCrossShardByteArray` (source lines
63-67 and 83-87): the last public-key byte is routed, the result is routed
again, and that entry of `byteMap` is set to 1. -/
def CreateCrossShardByteArray.coins {Hash : Type} (lib : Lib Hash) :
    List OutputCoin → List Nat → Run (List Nat)
  | [], byteMap => .ok byteMap
  | outCoin :: rest, byteMap =>
    let lastByte := outCoin.PubKeyLastByte
    let shardID := lib.GetShardIDFromLastByte lastByte
    if lib.GetShardIDFromLastByte shardID < byteMap.length then
      CreateCrossShardByteArray.coins lib rest
        (byteMap.set (lib.GetShardIDFromLastByte shardID) 1)
    else .outOfRange

/-- The coins of an optional proof (`if ...GetProof() != nil`). -/
def CreateCrossShardByteArray.proofCoins {Hash : Type} (lib : Lib Hash)
    (proof : Option PaymentProof) (byteMap : List Nat) : Run (List Nat) :=
  match proof with
  | some p => CreateCrossShardByteArray.coins lib p.OutputCoins byteMap
  | none => .ok byteMap

/-- The loop over token vouts of `CreateCrossShardByteArray` (source lines
73-77). -/
def CreateCrossShardByteArray.vouts {Hash : Type} (lib : Lib Hash) :
    List TxTokenVout → List Nat → Run (List Nat)
  | [], byteMap => .ok byteMap
  | out :: rest, byteMap =>
    match out.Pk.getLast? with
    | none => .outOfRange
    | some lastByte =>
      let shardID := lib.GetShardIDFromLastByte lastByte
      if lib.GetShardIDFromLastByte shardID < byteMap.length then
        CreateCrossShardByteArray.vouts lib rest
          (byteMap.set (lib.GetShardIDFromLastByte shardID) 1)
      else .outOfRange

/-- The loop over `txList` of `CreateCrossShardByteArray` (source lines
58-91): normal and salary transactions mark the coins of their proof,
custom-token transactions their token vouts, privacy-token transactions the
coins of the proof of `TxTokenPrivacyData.TxNormal`. -/
def CreateCrossShardByteArray.txs {Hash : Type} (lib : Lib Hash) :
    List (Transaction Hash) → List Nat → Run (List Nat)
  | [], byteMap => .ok byteMap
  | tx :: rest, byteMap =>
    match tx.Type_ with
    | .TxNormalType | .TxSalaryType =>
      match CreateCrossShardByteArray.proofCoins lib tx.Proof byteMap with
      | .ok bm => CreateCrossShardByteArray.txs lib rest bm
      | .outOfRange => .outOfRange
      | .outOfFuel => .outOfFuel
    | .TxCustomTokenType =>
      match CreateCrossShardByteArray.vouts lib tx.TxTokenData.Vouts byteMap with
      | .ok bm => CreateCrossShardByteArray.txs lib rest bm
      | .outOfRange => .outOfRange
      | .outOfFuel => .outOfFuel
    | .TxCustomTokenPrivacyType =>
      match CreateCrossShardByteArray.proofCoins lib tx.TxTokenPrivacyProof byteMap with
      | .ok bm => CreateCrossShardByteArray.txs lib rest bm
      | .outOfRange => .outOfRange
      | .outOfFuel => .outOfFuel

/-- The loop `for k := range byteMap` of `CreateCrossShardByteArray` (source
lines 93-97): the indices `k` with `byteMap[k] == 1` other than
`fromShardID`, in ascending order, each converted with `byte(k)`. -/
def CreateCrossShardByteArray.collect (byteMap : List Nat) (fromShardID : Nat) : List Nat :=
  (List.range byteMap.length).filterMap fun k =>
    if byteMap[k]? = some 1 ∧ k ≠ fromShardID then some (k % 256) else none

/-- `CreateCrossShardByteArray`: mark the destination shards of `txList` in a
byte map of `MAX_SHARD_NUMBER` zeros, then collect the marked shards other
than `fromShardID`. -/
def CreateCrossShardByteArray {Hash : Type} (lib : Lib Hash) (txList : List (Transaction Hash))
    (fromShardID : Nat) : Run (List Nat) :=
  (CreateCrossShardByteArray.txs lib txList (List.replicate lib.MAX_SHARD_NUMBER 0)).bind
    fun byteMap => .ok (CreateCrossShardByteArray.collect byteMap fromShardID)

/-- The router applied twice to a byte, as `CreateCrossShardByteArray` does. -/
def routeTwice {Hash : Type} (lib : Lib Hash) (lastByte : Nat) : Nat :=
  lib.GetShardIDFromLastByte (lib.GetShardIDFromLastByte lastByte)

/-- The output coins of an optional proof. -/
def proofOutputCoins (proof : Option PaymentProof) : List OutputCoin :=
  match proof with
  | some p => p.OutputCoins
  | none => []

/-- The destinations `CreateCrossShardByteArray` is to list: the router applied
twice to the last byte of every output coin of a normal, salary or
privacy-token transaction that has a proof, and of every token vout of a
custom-token transaction. -/
def crossShardDestinations {Hash : Type} (lib : Lib Hash) (txList : List (Transaction Hash)) :
    List Nat :=
  txList.flatMap fun tx =>
    match tx.Type_ with
    | .TxNormalType | .TxSalaryType =>
      (proofOutputCoins tx.Proof).map fun c => routeTwice lib c.PubKeyLastByte
    | .TxCustomTokenType =>
      tx.TxTokenData.Vouts.filterMap fun v => v.Pk.getLast?.map (routeTwice lib)
    | .TxCustomTokenPrivacyType =>
      (proofOutputCoins tx.TxTokenPrivacyProof).map fun c => routeTwice lib c.PubKeyLastByte

/-! ## Contents of the token buckets -/

/-- The bucket a token map holds for token `t`, if any. -/
def bucketAt {Hash : Type} [DecidableEq Hash] (m : TokenMap Hash) (t : Hash) :
    Option (TxTokenData Hash) :=
  (m.find? fun e => decide (e.1 = t)).map Prod.snd

/-- All vouts routed to shard `s` of the custom-token transactions with token
`t`, in encounter order. -/
def allRoutedVouts {Hash : Type} [DecidableEq Hash] (lib : Lib Hash) (s : Nat) (t : Hash)
    (txList : List (Transaction Hash)) : List TxTokenVout :=
  (txList.filter fun tx =>
      decide (tx.Type_ = .TxCustomTokenType ∧ tx.TxTokenData.PropertyID = t)).flatMap
    fun tx => routedVouts lib s tx.TxTokenData.Vouts

/-- The custom-token transactions with token `t` that have a vout routed to
shard `s`, in order. -/
def contributingTxs {Hash : Type} [DecidableEq Hash] (lib : Lib Hash) (s : Nat) (t : Hash)
    (txList : List (Transaction Hash)) : List (Transaction Hash) :=
  txList.filter fun tx =>
    decide (tx.Type_ = .TxCustomTokenType ∧ tx.TxTokenData.PropertyID = t ∧
      routedVouts lib s tx.TxTokenData.Vouts ≠ [])

/-- The bucket of token `t` in shard `s` as the claim describes it: absent
when no transaction contributes, otherwise the identifying fields of the
first contributing transaction, type `CustomTokenCrossShard`, no vin, and all
vouts of token `t` routed to `s`. -/
def expectedBucket {Hash : Type} [DecidableEq Hash] (lib : Lib Hash) (s : Nat) (t : Hash)
    (txList : List (Transaction Hash)) : Option (TxTokenData Hash) :=
  match (contributingTxs lib s t txList).head? with
  | none => none
  | some first =>
    some {
      PropertyID := first.TxTokenData.PropertyID
      PropertyName := first.TxTokenData.PropertyName
      PropertySymbol := first.TxTokenData.PropertySymbol
      Mintable := first.TxTokenData.Mintable
      Amount := first.TxTokenData.Amount
      Type_ := lib.CustomTokenCrossShard
      Vins := []
      Vouts := allRoutedVouts lib s t txList }

/-- The condition under which `GetAssignInstructionFromBeaconBlock` can read an
instruction: it is not empty, it has at least three fields when its first
field is `"assign"`, and at least four when also its third field is
`"shard"`. -/
def readableInstruction (l : List String) : Prop :=
  l ≠ [] ∧ (l[0]? = some "assign" → 3 ≤ l.length) ∧
    (l[0]? = some "assign" → l[2]? = some "shard" → 4 ≤ l.length)

/-- The bucket of a token after more of its vouts have been added: the vouts
are appended to the bucket when there is one, and to a fresh clone of the
token data of the transaction otherwise. -/
def extendBucket {Hash : Type} (lib : Lib Hash) (bucket : Option (TxTokenData Hash))
    (txTokenData : TxTokenData Hash) (vs : List TxTokenVout) : TxTokenData Hash :=
  match bucket with
  | some e => { e with Vouts := e.Vouts ++ vs }
  | none => { cloneTxTokenDataForCrossShard lib txTokenData with Vouts := vs }

/-- The effect of one transaction on the bucket of token `t` in shard `s`: a
custom-token transaction of token `t` with vouts routed to `s` extends the
bucket by them, any other transaction leaves it as it is. -/
def bucketStep {Hash : Type} [DecidableEq Hash] (lib : Lib Hash) (s : Nat) (t : Hash)
    (bucket : Option (TxTokenData Hash)) (tx : Transaction Hash) : Option (TxTokenData Hash) :=
  if tx.Type_ = .TxCustomTokenType ∧ tx.TxTokenData.PropertyID = t ∧
      routedVouts lib s tx.TxTokenData.Vouts ≠ [] then
    some (extendBucket lib bucket tx.TxTokenData (routedVouts lib s tx.TxTokenData.Vouts))
  else bucket

/-! ## A concrete library for evaluation -/

/-- A toy instance of `Lib` in which digests are byte strings, `HashH` keeps
its input and `GetBytes` prefixes the digest with its length, so that
`H(a || b)` determines `a` and `b`.  The router is `b % 4` with four shards. -/
def toyLib : Lib (List Nat) where
  HashH := fun bs => bs
  GetBytes := fun h => h.length :: h
  hashString := fun h => h
  GetShardIDFromLastByte := fun b => b % 4
  MAX_SHARD_NUMBER := 4
  tokenDataHash := fun td => td.PropertyID ++ td.Amount :: td.Vouts.map fun v => v.Value
  CustomTokenCrossShard := 2

/-! ## Sample inputs -/

/-- A map enumeration in insertion order. -/
def insertionOrder : MapOrder (List Nat) := fun m => m.map Prod.snd

/-- A map enumeration in reverse insertion order. -/
def reverseOrder : MapOrder (List Nat) := fun m => (m.map Prod.snd).reverse

/-- Token data of token `[7]` with three vouts, to the last bytes 1, 5 and 2. -/
def sampleTokenA : TxTokenData (List Nat) where
  PropertyID := [7]
  PropertyName := "a"
  PropertySymbol := "A"
  Type_ := 0
  Mintable := false
  Amount := 10
  Vins := [⟨[1]⟩]
  Vouts := [⟨3, [9, 1]⟩, ⟨4, [9, 5]⟩, ⟨5, [2]⟩]

/-- Token data of token `[3]` with two vouts, to the last bytes 1 and 6. -/
def sampleTokenB : TxTokenData (List Nat) where
  PropertyID := [3]
  PropertyName := "b"
  PropertySymbol := "B"
  Type_ := 0
  Mintable := false
  Amount := 20
  Vins := []
  Vouts := [⟨3, [9, 1]⟩, ⟨4, [9, 6]⟩]

/-- A custom-token transaction carrying `sampleTokenA` and a proof with two
output coins. -/
def sampleTxA : Transaction (List Nat) where
  Type_ := .TxCustomTokenType
  Proof := some ⟨[], [⟨5, [1, 2]⟩, ⟨1, [3]⟩]⟩
  MetadataType := 0
  TxTokenData := sampleTokenA
  TxTokenPrivacyProof := none

/-- A custom-token transaction carrying `sampleTokenB` and no proof. -/
def sampleTxB : Transaction (List Nat) where
  Type_ := .TxCustomTokenType
  Proof := none
  MetadataType := 0
  TxTokenData := sampleTokenB
  TxTokenPrivacyProof := none

/-- A privacy-token transaction whose `GetProof()` has one output coin with
last public-key byte 1. -/
def samplePrivacyTx : Transaction (List Nat) where
  Type_ := .TxCustomTokenPrivacyType
  Proof := some ⟨[], [⟨1, [9]⟩]⟩
  MetadataType := 0
  TxTokenData := { sampleTokenB with Vouts := [] }
  TxTokenPrivacyProof := none

/-- A normal transaction with one output coin with last public-key byte 5,
which the router `b % 4` sends to shard 1. -/
def sampleNormalTx : Transaction (List Nat) where
  Type_ := .TxNormalType
  Proof := some ⟨[], [⟨5, [9]⟩]⟩
  MetadataType := 0
  TxTokenData := { sampleTokenB with Vouts := [] }
  TxTokenPrivacyProof := none

/-- Sample parameters of the instruction builders: the keys are encoded as
the decimal strings of their bytes. -/
def sampleIns : InsLib where
  OFFSET := 1
  ShardStakingMeta := 63
  BeaconStakingMeta := 64
  ZeroByte := 0
  Base58CheckEncode := fun pk _ => String.intercalate "." (pk.map toString)

/-- A sample swap-selection collaborator: it swaps `offset` members when the
committee is full and both lists are long enough, and fails otherwise. -/
def sampleSwapValidator (pending committee : List String) (committeeSize offset : Int) :
    List String × List String × List String × List String × Option String :=
  if 0 < offset ∧ offset.toNat ≤ pending.length ∧ offset.toNat ≤ committee.length
      ∧ (committee.length : Int) = committeeSize then
    (pending.drop offset.toNat, committee.drop offset.toNat ++ pending.take offset.toNat,
      committee.take offset.toNat, pending.take offset.toNat, none)
  else (pending, committee, [], [], some "cannot swap")

/-- A sample delegated builder: one fixed instruction. -/
def sampleStability (_ : List (Transaction (List Nat))) (_ _ : Nat) (_ : List BeaconBlock) :
    List (List String) :=
  [["set", "param"]]

/-- A shard-staking transaction whose first input coin has the key `[1, 2]`. -/
def sampleShardStakeTx : Transaction (List Nat) where
  Type_ := .TxNormalType
  Proof := some ⟨[⟨[1, 2]⟩], []⟩
  MetadataType := 63
  TxTokenData := { sampleTokenB with Vouts := [] }
  TxTokenPrivacyProof := none

/-- A beacon-staking transaction whose first input coin has the key `[3]`. -/
def sampleBeaconStakeTx : Transaction (List Nat) where
  Type_ := .TxNormalType
  Proof := some ⟨[⟨[3]⟩, ⟨[4]⟩], []⟩
  MetadataType := 64
  TxTokenData := { sampleTokenB with Vouts := [] }
  TxTokenPrivacyProof := none

/-- A shard-staking transaction without a proof. -/
def sampleStakeTxNoProof : Transaction (List Nat) where
  Type_ := .TxNormalType
  Proof := none
  MetadataType := 63
  TxTokenData := { sampleTokenB with Vouts := [] }
  TxTokenPrivacyProof := none

/-- Two custom-token transactions of the same token `[7]`, each with one vout
to shard 1, of values 3 and 4. -/
def sampleSameTokenTx (value : Nat) : Transaction (List Nat) where
  Type_ := .TxCustomTokenType
  Proof := none
  MetadataType := 0
  TxTokenData := { sampleTokenA with Vouts := [⟨value, [9, 1]⟩] }
  TxTokenPrivacyProof := none

/-- A sample store: heights 0 to 4 are stored, the block of height `i` has the
single instruction `["h", i]`; the bytes of height 3 do not decode. -/
def sampleStore : BeaconStore Nat String String where
  GetBeaconBlockHashByIndex := fun i => if i < 5 then .ok (100 + i) else .error "no such height"
  FetchBeaconBlock := fun h => if 100 ≤ h ∧ h < 105 then .ok [h - 100] else .error "no such block"
  Unmarshal := fun bs =>
    match bs with
    | [3] => .error "bad json"
    | [i] => .ok ⟨[["h", toString i]]⟩
    | _ => .error "bad json"

/-- A sample store in which every lookup, fetch and decode succeeds. -/
def totalStore : BeaconStore Nat String String where
  GetBeaconBlockHashByIndex := fun i => .ok i
  FetchBeaconBlock := fun _ => .ok []
  Unmarshal := fun _ => .ok ⟨[]⟩

/-- A custom-token transaction without token vouts whose proof has one output
coin with last public-key byte 3. -/
def sampleCustomCoinTx : Transaction (List Nat) where
  Type_ := .TxCustomTokenType
  Proof := some ⟨[], [⟨3, [8]⟩]⟩
  MetadataType := 0
  TxTokenData := { sampleTokenB with Vouts := [] }
  TxTokenPrivacyProof := none

/-- A privacy-token transaction whose token proof has one output coin with
last public-key byte 7. -/
def samplePrivacyTokenTx : Transaction (List Nat) where
  Type_ := .TxCustomTokenPrivacyType
  Proof := none
  MetadataType := 0
  TxTokenData := { sampleTokenB with Vouts := [] }
  TxTokenPrivacyProof := some ⟨[], [⟨7, [8]⟩]⟩

/-- A custom-token transaction of token `[7]` with one vout of the given
value to the given last byte. -/
def sampleTokenTxTo (value lastByte : Nat) : Transaction (List Nat) where
  Type_ := .TxCustomTokenType
  Proof := none
  MetadataType := 0
  TxTokenData := { sampleTokenA with Vouts := [⟨value, [9, lastByte]⟩] }
  TxTokenPrivacyProof := none

/-- A normal transaction with one output coin with last public-key byte 1,
which the router `b % 4` sends to shard 1. -/
def sampleNormalTx2 : Transaction (List Nat) where
  Type_ := .TxNormalType
  Proof := some ⟨[], [⟨1, [7]⟩]⟩
  MetadataType := 0
  TxTokenData := { sampleTokenB with Vouts := [] }
  TxTokenPrivacyProof := none

/-! ## Arithmetic of indices -/

/-- XOR with 1 turns an even number into its successor. -/
theorem xor_one_two_mul (m : Nat) : (2 * m) ^^^ 1 = 2 * m + 1 := by
  have h := Nat.xor_bit false m true 0
  simpa [Nat.bit_val] using h

/-- XOR with 1 turns an odd number into its predecessor. -/
theorem xor_one_two_mul_add_one (m : Nat) : (2 * m + 1) ^^^ 1 = 2 * m := by
  have h := Nat.xor_bit true m true 0
  simpa [Nat.bit_val] using h

/-- The sibling index of an even index is the next index. -/
theorem xor_one_even (i : Nat) (h : i % 2 = 0) : i ^^^ 1 = i + 1 := by
  have h2 : i = 2 * (i / 2) := by omega
  rw [h2, xor_one_two_mul]

/-- The sibling index of an odd index is the previous index. -/
theorem xor_one_odd (i : Nat) (h : i % 2 ≠ 0) : i ^^^ 1 = i - 1 := by
  have h2 : i = 2 * (i / 2) + 1 := by omega
  rw [h2, xor_one_two_mul_add_one]; rfl

/-! ## The build loop -/

/-- Invariant of the build loop: entered after `t` iterations on a row of
`N` elements (cursor `2t`, `N + t` elements), with enough budget, it returns
a sequence of `2N - 1` elements that extends the current one and whose
element `N + u` is the hash of elements `2u` and `2u + 1`. -/
theorem loop_inv {Hash : Type} (lib : Lib Hash) (N : Nat) :
    ∀ (fuel t : Nat) (d : List Hash), t + 1 < N → d.length = N + t → N ≤ fuel + t + 1 →
      ∃ d1, CreateShardTxRoot.loop lib fuel d (2 * t) = .ok d1 ∧
        d1.length = 2 * N - 1 ∧
        (∀ i, i < d.length → d1[i]? = d[i]?) ∧
        (∀ u, t ≤ u → u + 1 < N →
          ∃ a b, d1[2 * u]? = some a ∧ d1[2 * u + 1]? = some b ∧
            d1[N + u]? = some (hashCat lib a b)) := by
  intro fuel
  induction fuel with
  | zero => intro t d h1 h2 h3; omega
  | succ fuel ih =>
    intro t d h1 h2 h3
    have ha : 2 * t < d.length := by omega
    have hb : 2 * t + 1 < d.length := by omega
    obtain ⟨a, hav⟩ : ∃ a, d[2 * t]? = some a := ⟨d[2 * t], List.getElem?_eq_getElem ha⟩
    obtain ⟨b, hbv⟩ : ∃ b, d[2 * t + 1]? = some b := ⟨d[2 * t + 1], List.getElem?_eq_getElem hb⟩
    have hlen : (d ++ [hashCat lib a b]).length = N + (t + 1) := by simp; omega
    have hnew : (d ++ [hashCat lib a b])[N + t]? = some (hashCat lib a b) := by
      rw [List.getElem?_append_right (by omega)]
      simp [h2]
    have hold : ∀ i, i < d.length → (d ++ [hashCat lib a b])[i]? = d[i]? :=
      fun i hi => List.getElem?_append_left hi
    unfold CreateShardTxRoot.loop
    simp only [hav, hbv]
    by_cases hstop : 2 * t + 2 + 1 ≥ (d ++ [hashCat lib a b]).length
    · rw [if_pos hstop]
      refine ⟨_, rfl, by omega, hold, ?_⟩
      intro u hu1 hu2
      have : u = t := by omega
      subst this
      exact ⟨a, b, by rw [hold _ ha]; exact hav, by rw [hold _ hb]; exact hbv, hnew⟩
    · rw [if_neg hstop]
      obtain ⟨d1, hrun, hl1, hpre, hnode⟩ :=
        ih (t + 1) (d ++ [hashCat lib a b]) (by omega) hlen (by omega)
      have e : 2 * t + 2 = 2 * (t + 1) := by ring
      refine ⟨d1, by rw [e]; exact hrun, hl1, ?_, ?_⟩
      · intro i hi
        rw [hpre i (by omega), hold i hi]
      · intro u hu1 hu2
        by_cases hut : u = t
        · subst hut
          refine ⟨a, b, ?_, ?_, ?_⟩
          · rw [hpre _ (by omega), hold _ ha]; exact hav
          · rw [hpre _ (by omega), hold _ hb]; exact hbv
          · rw [hpre _ (by omega)]; exact hnew
        · exact hnode u (by omega) hu2

/-- On a row of at least two digests the build loop returns a sequence with
the layout `Layout`. -/
theorem build_layout {Hash : Type} (lib : Lib Hash) (row : List Hash) (hN : 2 ≤ row.length) :
    ∃ d, CreateShardTxRoot.loop lib (row.length + 1) row 0 = .ok d ∧ Layout lib row d := by
  obtain ⟨d, h1, h2, h3, h4⟩ :=
    loop_inv lib row.length (row.length + 1) 0 row (by omega) rfl (by omega)
  exact ⟨d, h1, h2, h3, fun u hu => h4 u (Nat.zero_le _) hu⟩

/-! ## Levels of the flattened tree -/

/-- Width of a level in terms of the width of the next one. -/
theorem pow_split (k j : Nat) (h : j < k) :
    2 ^ (k - j) = 2 * 2 ^ (k - (j + 1)) ∧ 2 * 2 ^ (k - (j + 1)) ≤ 2 ^ k ∧ 1 ≤ 2 ^ (k - (j + 1)) := by
  have e : k - j = (k - (j + 1)) + 1 := by omega
  have h1 : 2 ^ (k - j) = 2 * 2 ^ (k - (j + 1)) := by rw [e, pow_succ]; ring
  have h2 : 2 ^ (k - j) ≤ 2 ^ k := Nat.pow_le_pow_right (by norm_num) (Nat.sub_le k j)
  exact ⟨h1, by omega, Nat.one_le_two_pow⟩

/-- The width `N / 2^j` of level `j` when `N = 2^k`. -/
theorem div_pow_eq (k j : Nat) (h : j ≤ k) : 2 ^ k / 2 ^ j = 2 ^ (k - j) :=
  Nat.pow_div h (by norm_num)

/-- Closed form of `levelOffset` for `N = 2^k`: level `j` starts
`2 * 2^(k-j)` elements before position `2N`. -/
theorem levelOffset_closed (k : Nat) :
    ∀ j, j ≤ k → levelOffset (2 ^ k) j + 2 * 2 ^ (k - j) = 2 * 2 ^ k := by
  intro j
  induction j with
  | zero => intro _; simp [levelOffset]
  | succ j ih =>
    intro h
    have h1 := ih (by omega)
    obtain ⟨p1, _, _⟩ := pow_split k j (by omega)
    have h2 := div_pow_eq k j (by omega)
    simp only [levelOffset]
    omega

/-- Node `i` of level `j` exists when the row covers its leaves. -/
theorem node_some {Hash : Type} (lib : Lib Hash) (row : List Hash) :
    ∀ j i, (i + 1) * 2 ^ j ≤ row.length → ∃ h, node lib row j i = some h := by
  intro j
  induction j with
  | zero =>
    intro i hi
    have : i < row.length := by simpa using hi
    exact ⟨row[i], by simp [node, List.getElem?_eq_getElem this]⟩
  | succ j ih =>
    intro i hi
    have e : (i + 1) * 2 ^ (j + 1) = (2 * i + 1 + 1) * 2 ^ j := by rw [pow_succ]; ring
    have h1 : (2 * i + 1) * 2 ^ j ≤ (2 * i + 1 + 1) * 2 ^ j :=
      Nat.mul_le_mul_right _ (by omega)
    obtain ⟨a, ha⟩ := ih (2 * i) (by omega)
    obtain ⟨b, hb⟩ := ih (2 * i + 1) (by omega)
    exact ⟨hashCat lib a b, by simp [node, ha, hb]⟩

/-- In a sequence with the layout `Layout` over a row of `2^k` digests, the
element at `levelOffset j + i` is node `i` of level `j`. -/
theorem level_eq_node {Hash : Type} (lib : Lib Hash) (row d : List Hash) (k : Nat)
    (hk : row.length = 2 ^ k) (hd : Layout lib row d) :
    ∀ j, j ≤ k → ∀ i, i < 2 ^ (k - j) →
      ∃ h, d[levelOffset (2 ^ k) j + i]? = some h ∧ node lib row j i = some h := by
  obtain ⟨hlen, hrow, hpair⟩ := hd
  intro j
  induction j with
  | zero =>
    intro _ i hi
    have hi2 : i < row.length := by simpa [hk] using hi
    refine ⟨row[i], ?_, ?_⟩
    · simp only [levelOffset, Nat.zero_add]
      rw [hrow i hi2]; exact List.getElem?_eq_getElem hi2
    · simp [node, List.getElem?_eq_getElem hi2]
  | succ j ih =>
    intro hj i hi
    obtain ⟨p1, p2, p3⟩ := pow_split k j (by omega)
    have c0 := levelOffset_closed k j (by omega)
    have c1 := levelOffset_closed k (j + 1) hj
    obtain ⟨a, ha1, ha2⟩ := ih (by omega) (2 * i) (by omega)
    obtain ⟨b, hb1, hb2⟩ := ih (by omega) (2 * i + 1) (by omega)
    have hu : levelOffset (2 ^ k) (j + 1) + i - 2 ^ k + 1 < row.length := by omega
    obtain ⟨a1, b1, q1, q2, q3⟩ := hpair (levelOffset (2 ^ k) (j + 1) + i - 2 ^ k) hu
    have e1 : 2 * (levelOffset (2 ^ k) (j + 1) + i - 2 ^ k) = levelOffset (2 ^ k) j + 2 * i := by
      omega
    have e2 : row.length + (levelOffset (2 ^ k) (j + 1) + i - 2 ^ k)
        = levelOffset (2 ^ k) (j + 1) + i := by omega
    rw [e1] at q1 q2
    rw [e2] at q3
    rw [ha1] at q1
    rw [Nat.add_assoc, hb1] at q2
    cases q1; cases q2
    exact ⟨_, q3, by simp [node, ha2, hb2]⟩

/-! ## The sibling walk and the inclusion check -/

/-- The ancestor index of `s` at level `j` lies inside level `j`. -/
theorem div_pow_lt (k j s : Nat) (hj : j ≤ k) (hs : s < 2 ^ k) : s / 2 ^ j < 2 ^ (k - j) := by
  rw [Nat.div_lt_iff_lt_mul (by positivity), ← pow_add]
  have : k - j + j = k := by omega
  rwa [this]

/-- Halving the ancestor index gives the ancestor index one level up. -/
theorem div_pow_succ (s j : Nat) : s / 2 ^ j / 2 = s / 2 ^ (j + 1) := by
  rw [Nat.div_div_eq_div_mul, pow_succ]

/-- Reading `cursor + i - 1` for odd `i` is reading `cursor + (i - 1)`. -/
theorem add_odd_sub_one (a q : Nat) (h : q % 2 ≠ 0) : a + q - 1 = a + (q - 1) := by
  omega

/-- Invariant of the sibling walk: entered at level `j` with the cursor on the
first element of that level, the previous cursor on the first element of the
level below, and `r = k - j` levels to go, it returns after appending the `r`
siblings of the ancestors of `s` at the levels `j, ..., k - 1`. -/
theorem walk_loop {Hash : Type} (lib : Lib Hash) (row d : List Hash) (k : Nat)
    (hk : row.length = 2 ^ k) (hd : Layout lib row d) (s : Nat) (hs : s < 2 ^ k) :
    ∀ (r j fuel : Nat) (pre : List Hash), j + r = k → r < fuel →
      ∃ path, GetMerklePathCrossShard.loop d row.length fuel (levelOffset (2 ^ k) j)
          (levelOffset (2 ^ k) (j - 1)) (s / 2 ^ j) j pre = .ok (pre ++ path) ∧
        path.length = r ∧
        ∀ l, l < r → ∃ h, path[l]? = some h ∧
          d[levelOffset (2 ^ k) (j + l) + ((s / 2 ^ (j + l)) ^^^ 1)]? = some h ∧
          node lib row (j + l) ((s / 2 ^ (j + l)) ^^^ 1) = some h := by
  have hlen := hd.1
  intro r
  induction r with
  | zero =>
    intro j fuel pre hj hf
    obtain ⟨f, rfl⟩ : ∃ f, fuel = f + 1 := ⟨fuel - 1, by omega⟩
    have hjk : j = k := by omega
    subst hjk
    have c := levelOffset_closed j j (le_refl _)
    simp only [Nat.sub_self, pow_zero] at c
    refine ⟨[], ?_, rfl, fun l hl => absurd hl (Nat.not_lt_zero _)⟩
    unfold GetMerklePathCrossShard.loop
    rw [if_pos (by omega)]
    simp
  | succ r ih =>
    intro j fuel pre hj hf
    obtain ⟨f, rfl⟩ : ∃ f, fuel = f + 1 := ⟨fuel - 1, by omega⟩
    obtain ⟨p1, p2, p3⟩ := pow_split k j (by omega)
    have c0 := levelOffset_closed k j (by omega)
    have c1 := levelOffset_closed k (j + 1) (by omega)
    have hi := div_pow_lt k j s (by omega) hs
    have hx : (s / 2 ^ j) ^^^ 1 < 2 ^ (k - j) := by
      by_cases hpar : s / 2 ^ j % 2 = 0
      · rw [xor_one_even _ hpar]; omega
      · rw [xor_one_odd _ hpar]; omega
    obtain ⟨h, hh1, hh2⟩ := level_eq_node lib row d k hk hd j (by omega) _ hx
    have hread : (if s / 2 ^ j % 2 = 0 then d[levelOffset (2 ^ k) j + s / 2 ^ j + 1]?
        else d[levelOffset (2 ^ k) j + s / 2 ^ j - 1]?) = some h := by
      by_cases hpar : s / 2 ^ j % 2 = 0
      · rw [if_pos hpar, ← hh1, xor_one_even _ hpar, Nat.add_assoc]
      · rw [if_neg hpar, ← hh1, xor_one_odd _ hpar]
        rw [add_odd_sub_one _ _ hpar]
    have hnext : (if j = 0 then
          GetMerklePathCrossShard.loop d row.length f (levelOffset (2 ^ k) j + row.length)
            (levelOffset (2 ^ k) (j - 1)) (s / 2 ^ j / 2) (j + 1) (pre ++ [h])
        else
          GetMerklePathCrossShard.loop d row.length f
            (levelOffset (2 ^ k) j + (levelOffset (2 ^ k) j - levelOffset (2 ^ k) (j - 1)) / 2)
            (levelOffset (2 ^ k) j) (s / 2 ^ j / 2) (j + 1) (pre ++ [h]))
        = GetMerklePathCrossShard.loop d row.length f (levelOffset (2 ^ k) (j + 1))
            (levelOffset (2 ^ k) (j + 1 - 1)) (s / 2 ^ (j + 1)) (j + 1) (pre ++ [h]) := by
      rw [div_pow_succ]
      by_cases hj0 : j = 0
      · subst hj0
        simp [levelOffset, hk]
      · rw [if_neg hj0]
        obtain ⟨q1, _, _⟩ := pow_split k (j - 1) (by omega)
        have c2 := levelOffset_closed k (j - 1) (by omega)
        have ej : j - 1 + 1 = j := by omega
        rw [ej] at q1
        have e : levelOffset (2 ^ k) j + (levelOffset (2 ^ k) j - levelOffset (2 ^ k) (j - 1)) / 2
            = levelOffset (2 ^ k) (j + 1) := by omega
        rw [e, Nat.add_sub_cancel]
    obtain ⟨path, hrun, hpl, hpath⟩ := ih (j + 1) f (pre ++ [h]) (by omega) (by omega)
    refine ⟨h :: path, ?_, by simp [hpl], ?_⟩
    · unfold GetMerklePathCrossShard.loop
      rw [if_neg (by omega)]
      simp only [hread]
      rw [hnext, hrun]
      simp
    · intro l hl
      cases l with
      | zero => exact ⟨h, by simp, by simpa using hh1, by simpa using hh2⟩
      | succ l =>
        obtain ⟨h2, a1, a2, a3⟩ := hpath l (by omega)
        have e : j + (l + 1) = j + 1 + l := by omega
        rw [e]
        exact ⟨h2, by simpa using a1, a2, a3⟩

/-- Replaying siblings from the ancestor of `s` at level `j` gives the ancestor
of `s` at the level the path ends at. -/
theorem verify_loop {Hash : Type} (lib : Lib Hash) (row : List Hash) (s : Nat) :
    ∀ (path : List Hash) (j : Nat) (x : Hash), node lib row j (s / 2 ^ j) = some x →
      (∀ l, l < path.length → path[l]? = node lib row (j + l) ((s / 2 ^ (j + l)) ^^^ 1)) →
      node lib row (j + path.length) (s / 2 ^ (j + path.length))
        = some (VerifyMerkleTree.loop lib x (s / 2 ^ j) path) := by
  intro path
  induction path with
  | nil => intro j x hx _; simpa [VerifyMerkleTree.loop] using hx
  | cons h t ih =>
    intro j x hx hp
    have h0 := hp 0 (by simp)
    simp only [List.getElem?_cons_zero, Nat.add_zero] at h0
    have hstep : node lib row (j + 1) (s / 2 ^ (j + 1)) =
        some (if s / 2 ^ j % 2 = 0 then hashCat lib x h else hashCat lib h x) := by
      rw [← div_pow_succ]
      by_cases hpar : s / 2 ^ j % 2 = 0
      · have e1 : 2 * (s / 2 ^ j / 2) = s / 2 ^ j := by omega
        rw [xor_one_even _ hpar] at h0
        simp only [node, e1, hx, ← h0, if_pos hpar]
      · have e1 : 2 * (s / 2 ^ j / 2) + 1 = s / 2 ^ j := by omega
        have e2 : 2 * (s / 2 ^ j / 2) = s / 2 ^ j - 1 := by omega
        rw [xor_one_odd _ hpar] at h0
        have hx2 : node lib row j (2 * (s / 2 ^ j / 2) + 1) = some x := by rw [e1]; exact hx
        have h02 : node lib row j (2 * (s / 2 ^ j / 2)) = some h := by rw [e2]; exact h0.symm
        simp only [node, hx2, h02, if_neg hpar]
    have hrec := ih (j + 1) _ hstep (by
      intro l hl
      have := hp (l + 1) (by simpa using hl)
      have e : j + (l + 1) = j + 1 + l := by omega
      rw [e] at this
      simpa using this)
    have e : j + (h :: t).length = j + 1 + t.length := by simp; omega
    rw [e, hrec]
    simp only [VerifyMerkleTree.loop, div_pow_succ]

/-- With an injective node hash the replay is injective in the leaf digest. -/
theorem verify_loop_inj {Hash : Type} (lib : Lib Hash)
    (hH : ∀ a b c e, hashCat lib a b = hashCat lib c e → a = c ∧ b = e) :
    ∀ (path : List Hash) (i : Nat) (x y : Hash),
      VerifyMerkleTree.loop lib x i path = VerifyMerkleTree.loop lib y i path → x = y := by
  intro path
  induction path with
  | nil => intro i x y h; simpa [VerifyMerkleTree.loop] using h
  | cons p t ih =>
    intro i x y h
    simp only [VerifyMerkleTree.loop] at h
    have h2 := ih _ _ _ h
    by_cases hpar : i % 2 = 0
    · rw [if_pos hpar, if_pos hpar] at h2
      exact (hH _ _ _ _ h2).1
    · rw [if_neg hpar, if_neg hpar] at h2
      exact (hH _ _ _ _ h2).2

/-- The node hash of the toy library is injective. -/
theorem toyLib_hashCat_inj (a b c e : List Nat)
    (h : hashCat toyLib a b = hashCat toyLib c e) : a = c ∧ b = e := by
  simp only [hashCat, toyLib, List.cons_append, List.cons.injEq] at h
  obtain ⟨hl, h2⟩ := h
  obtain ⟨h3, h4⟩ := List.append_inj h2 hl
  simp only [List.cons.injEq] at h4
  exact ⟨h3, h4.2⟩

/-- The one-element window of a list at index `i`. -/
theorem take_one_drop {α : Type} (l : List α) (i : Nat) (hi : i < l.length) :
    (l.drop i).take 1 = [l[i]] := by
  rw [List.drop_eq_getElem_cons hi]
  rfl

/-- Node `i` of level `j` is the recursive Merkle root of the `i`-th block of
`2^j` leaves. -/
theorem node_eq_spec {Hash : Type} (lib : Lib Hash) (row : List Hash) :
    ∀ j i, (i + 1) * 2 ^ j ≤ row.length →
      node lib row j i = merkleRootSpec lib j ((row.drop (i * 2 ^ j)).take (2 ^ j)) := by
  intro j
  induction j with
  | zero =>
    intro i hi
    have hi2 : i < row.length := by simpa using hi
    simp only [pow_zero, Nat.mul_one, node]
    rw [take_one_drop row i hi2, List.getElem?_eq_getElem hi2]
    rfl
  | succ j ih =>
    intro i hi
    have e : (i + 1) * 2 ^ (j + 1) = (2 * i + 1 + 1) * 2 ^ j := by rw [pow_succ]; ring
    have h1 : (2 * i + 1) * 2 ^ j ≤ (2 * i + 1 + 1) * 2 ^ j :=
      Nat.mul_le_mul_right _ (by omega)
    have ea : ((row.drop (i * 2 ^ (j + 1))).take (2 ^ (j + 1))).take (2 ^ j)
        = (row.drop (2 * i * 2 ^ j)).take (2 ^ j) := by
      rw [List.take_take]
      have : min (2 ^ j) (2 ^ (j + 1)) = 2 ^ j := by
        rw [pow_succ]; omega
      rw [this]
      congr 2
      rw [pow_succ]; ring
    have eb : ((row.drop (i * 2 ^ (j + 1))).take (2 ^ (j + 1))).drop (2 ^ j)
        = (row.drop ((2 * i + 1) * 2 ^ j)).take (2 ^ j) := by
      rw [List.drop_take, List.drop_drop]
      have e1 : 2 ^ (j + 1) - 2 ^ j = 2 ^ j := by rw [pow_succ]; omega
      have e2 : 2 ^ j + i * 2 ^ (j + 1) = (2 * i + 1) * 2 ^ j := by rw [pow_succ]; ring
      have e3 : i * 2 ^ (j + 1) + 2 ^ j = (2 * i + 1) * 2 ^ j := by rw [pow_succ]; ring
      first
        | rw [e1, e2]
        | rw [e1, e3]
    simp only [node, merkleRootSpec]
    rw [ea, eb, ← ih (2 * i) (by omega), ← ih (2 * i + 1) (by omega)]

/-- A node depends only on the leaves below it. -/
theorem node_congr {Hash : Type} (lib : Lib Hash) (row1 row2 : List Hash) :
    ∀ j i, (∀ x, x / 2 ^ j = i → row1[x]? = row2[x]?) →
      node lib row1 j i = node lib row2 j i := by
  intro j
  induction j with
  | zero =>
    intro i h
    simpa [node] using h i (by simp)
  | succ j ih =>
    intro i h
    have ha := ih (2 * i) (fun x hx => h x (by rw [← div_pow_succ, hx]; omega))
    have hb := ih (2 * i + 1) (fun x hx => h x (by rw [← div_pow_succ, hx]; omega))
    simp only [node, ha, hb]

/-- Summary of a run on a row of `2^k` digests, `k ≥ 1`: the build returns a
sequence with the layout `Layout`, the walk returns `k` siblings, the `l`-th
one at `levelOffset l + (s / 2^l XOR 1)`, and the root is the last element
and node 0 of level `k`. -/
theorem fromRow_spec {Hash : Type} (lib : Lib Hash) (row : List Hash) (k : Nat)
    (hk : row.length = 2 ^ k) (hk1 : 1 ≤ k) (s : Nat) (hs : s < 2 ^ k) :
    ∃ d path root, CreateShardTxRoot.fromRow lib row = .ok (row, d) ∧ Layout lib row d ∧
      GetMerklePathCrossShard.fromRow lib row s = .ok (path, root) ∧
      path.length = k ∧
      (∀ l, l < k → ∃ h, path[l]? = some h ∧
        d[levelOffset (2 ^ k) l + ((s / 2 ^ l) ^^^ 1)]? = some h ∧
        node lib row l ((s / 2 ^ l) ^^^ 1) = some h) ∧
      d[d.length - 1]? = some root ∧ node lib row k 0 = some root := by
  have h2k : 2 ≤ 2 ^ k := by
    calc 2 = 2 ^ 1 := by norm_num
      _ ≤ 2 ^ k := Nat.pow_le_pow_right (by norm_num) hk1
  obtain ⟨d, hrun, hd⟩ := build_layout lib row (by omega)
  have hfuel : k < d.length := by
    have := Nat.lt_two_pow k
    rw [hd.1]; omega
  obtain ⟨path, hwalk, hpl, hpath⟩ :=
    walk_loop lib row d k hk hd s hs k 0 (d.length + 1) [] (by omega) (by omega)
  obtain ⟨root, hr1, hr2⟩ := level_eq_node lib row d k hk hd k (le_refl _) 0 (by simp)
  have c := levelOffset_closed k k (le_refl _)
  simp only [Nat.sub_self, pow_zero] at c
  rw [Nat.add_zero] at hr1
  have elast : d.length - 1 = levelOffset (2 ^ k) k := by rw [hd.1]; omega
  have hcreate : CreateShardTxRoot.fromRow lib row = .ok (row, d) := by
    simp [CreateShardTxRoot.fromRow, hrun, Run.bind]
  refine ⟨d, path, root, hcreate, hd, ?_, hpl, ?_, by rw [elast]; exact hr1, hr2⟩
  · simp only [pow_zero, Nat.div_one, Nat.zero_sub, List.nil_append] at hwalk
    have hw0 : levelOffset (2 ^ k) 0 = 0 := rfl
    rw [hw0] at hwalk
    simp [GetMerklePathCrossShard.fromRow, hcreate, Run.bind, GetMerklePathCrossShard.walk,
      hwalk, Run.index, elast, hr1]
  · intro l hl
    obtain ⟨h, a1, a2, a3⟩ := hpath l hl
    simp only [Nat.zero_add] at a2 a3
    exact ⟨h, a1, a2, a3⟩

/-- The replay of the siblings of `s` from `row[s]` ends in the root. -/
theorem verify_of_path {Hash : Type} (lib : Lib Hash) (row : List Hash) (k s : Nat)
    (path : List Hash) (root leaf : Hash) (hpl : path.length = k)
    (hpath : ∀ l, l < k → ∃ h, path[l]? = some h ∧ node lib row l ((s / 2 ^ l) ^^^ 1) = some h)
    (hs : s < 2 ^ k) (hroot : node lib row k 0 = some root) (hleaf : row[s]? = some leaf) :
    VerifyMerkleTree.loop lib leaf s path = root := by
  have h := verify_loop lib row s path 0 leaf (by simpa [node] using hleaf) (by
    intro l hl
    obtain ⟨h, a1, a2⟩ := hpath l (by omega)
    simp only [Nat.zero_add]
    rw [a1, a2])
  simp only [Nat.zero_add, pow_zero, Nat.div_one, hpl] at h
  have e : s / 2 ^ k = 0 := Nat.div_eq_of_lt hs
  rw [e, hroot] at h
  exact (Option.some.inj h).symm

/-- `GetMerklePathCrossShard` on a transaction list is the row-level run on
the digest row of the list. -/
theorem GetMerklePathCrossShard_eq {Hash : Type} [DecidableEq Hash] (lib : Lib Hash)
    (order : MapOrder Hash) (txList : List (Transaction Hash)) (shardID : Nat) :
    GetMerklePathCrossShard lib order txList shardID =
      (getCrossShardDataHash lib order txList).bind fun row =>
        GetMerklePathCrossShard.fromRow lib row shardID := by
  unfold GetMerklePathCrossShard CreateShardTxRoot GetMerklePathCrossShard.fromRow
  cases getCrossShardDataHash lib order txList <;> rfl

/-! ## Token maps and their canonical order -/

/-- Two permutations of one another with the same duplicate-free image under
`f` are equal. -/
theorem perm_eq_of_map_eq {α β : Type} (f : α → β) :
    ∀ (l1 l2 : List α), l1.Perm l2 → l1.map f = l2.map f → (l1.map f).Nodup → l1 = l2 := by
  intro l1
  induction l1 with
  | nil => intro l2 hp _ _; exact hp.nil_eq
  | cons a t ih =>
    intro l2 hp hm hn
    cases l2 with
    | nil => exact absurd hp.symm.nil_eq (by simp)
    | cons b t2 =>
      simp only [List.map_cons, List.cons.injEq] at hm
      obtain ⟨hab, hm2⟩ := hm
      have hab2 : a = b := by
        have hmem : a ∈ b :: t2 := hp.subset (List.mem_cons_self a t)
        rcases List.mem_cons.1 hmem with h | h
        · exact h
        · exfalso
          have h1 : f a ∈ t2.map f := List.mem_map_of_mem f h
          rw [← hm2] at h1
          simp only [List.map_cons, List.nodup_cons] at hn
          exact hn.1 h1
      subst hab2
      have hp2 : t.Perm t2 := List.Perm.cons_inv hp
      simp only [List.map_cons, List.nodup_cons] at hn
      rw [ih t2 hp2 hm2 hn.2]

/-- Sorting by the string of `PropertyID` does not depend on the order of the
input when these strings are pairwise distinct. -/
theorem sort_unique {Hash : Type} (lib : Lib Hash) (l1 l2 : List (TxTokenData Hash))
    (hp : l1.Perm l2) (hn : (l1.map fun td => lib.hashString td.PropertyID).Nodup) :
    sortByPropertyID lib l1 = sortByPropertyID lib l2 := by
  let key : TxTokenData Hash → List Nat := fun td => lib.hashString td.PropertyID
  let r : TxTokenData Hash → TxTokenData Hash → Prop := fun a b => ¬ key b < key a
  haveI : IsTotal (TxTokenData Hash) r := ⟨fun a b => by
    simp only [r, not_lt]; exact le_total _ _⟩
  haveI : IsTrans (TxTokenData Hash) r := ⟨fun a b c hab hbc => by
    simp only [r, not_lt] at *; exact le_trans hab hbc⟩
  have s1 : List.Sorted r (sortByPropertyID lib l1) := List.sorted_insertionSort r l1
  have s2 : List.Sorted r (sortByPropertyID lib l2) := List.sorted_insertionSort r l2
  have p1 : (sortByPropertyID lib l1).Perm l1 := List.perm_insertionSort r l1
  have p2 : (sortByPropertyID lib l2).Perm l2 := List.perm_insertionSort r l2
  have pp : (sortByPropertyID lib l1).Perm (sortByPropertyID lib l2) :=
    p1.trans (hp.trans p2.symm)
  have k1 : List.Sorted (· ≤ ·) ((sortByPropertyID lib l1).map key) := by
    rw [List.Sorted, List.pairwise_map]
    exact s1.imp (fun h => not_lt.1 h)
  have k2 : List.Sorted (· ≤ ·) ((sortByPropertyID lib l2).map key) := by
    rw [List.Sorted, List.pairwise_map]
    exact s2.imp (fun h => not_lt.1 h)
  have hk : (sortByPropertyID lib l1).map key = (sortByPropertyID lib l2).map key :=
    List.eq_of_perm_of_sorted (pp.map key) k1 k2
  have hn1 : ((sortByPropertyID lib l1).map key).Nodup := (p1.map key).nodup_iff.2 hn
  exact perm_eq_of_map_eq key _ _ pp hk hn1

/-- Adding a vout preserves the invariant of a token map. -/
theorem addVout_inv {Hash : Type} [DecidableEq Hash] (lib : Lib Hash) (m : TokenMap Hash)
    (td : TxTokenData Hash) (vout : TxTokenVout) (h : MapInv m) : MapInv (addVout lib m td vout) := by
  obtain ⟨h1, h2⟩ := h
  have hw : MapInv (if m.any (fun e => decide (e.1 = td.PropertyID)) then m
      else m ++ [(td.PropertyID, cloneTxTokenDataForCrossShard lib td)]) := by
    by_cases hany : m.any (fun e => decide (e.1 = td.PropertyID)) = true
    · rw [if_pos hany]; exact ⟨h1, h2⟩
    · rw [if_neg hany]
      have hnot : td.PropertyID ∉ m.map Prod.fst := by
        intro hc
        obtain ⟨e, he, hee⟩ := List.mem_map.1 hc
        exact hany (List.any_eq_true.2 ⟨e, he, by simp [hee]⟩)
      constructor
      · rw [List.map_append, List.nodup_append]
        refine ⟨h1, by simp, ?_⟩
        intro a ha hb
        simp only [List.map_cons, List.map_nil, List.mem_singleton] at hb
        subst hb
        exact hnot ha
      · intro e he
        rcases List.mem_append.1 he with h | h
        · exact h2 e h
        · simp only [List.mem_singleton] at h
          subst h
          rfl
  obtain ⟨w1, w2⟩ := hw
  unfold addVout
  simp only
  constructor
  · rw [List.map_map]
    have : (Prod.fst ∘ fun e : Hash × TxTokenData Hash =>
        if e.1 = td.PropertyID then (e.1, { e.2 with Vouts := e.2.Vouts ++ [vout] }) else e)
        = Prod.fst := by
      funext e
      by_cases he : e.1 = td.PropertyID <;> simp [he]
    rw [this]; exact w1
  · intro e he
    obtain ⟨e0, he0, rfl⟩ := List.mem_map.1 he
    by_cases hc : e0.1 = td.PropertyID
    · simp only [if_pos hc]; exact w2 e0 he0
    · simp only [if_neg hc]; exact w2 e0 he0

/-- The vout loop of `getTxTokenDataCrossShard` preserves the map invariant. -/
theorem single_vouts_inv {Hash : Type} [DecidableEq Hash] (lib : Lib Hash)
    (td : TxTokenData Hash) (s : Nat) :
    ∀ (vs : List TxTokenVout) (m m1 : TokenMap Hash), MapInv m →
      getTxTokenDataCrossShard.vouts lib td s vs m = .ok m1 → MapInv m1 := by
  intro vs
  induction vs with
  | nil =>
    intro m m1 hm h
    simp only [getTxTokenDataCrossShard.vouts, Run.ok.injEq] at h
    subst h; exact hm
  | cons v rest ih =>
    intro m m1 hm h
    unfold getTxTokenDataCrossShard.vouts at h
    cases hl : v.Pk.getLast? with
    | none => simp [hl] at h
    | some b =>
      simp only [hl] at h
      by_cases hr : lib.GetShardIDFromLastByte b = s
      · rw [if_pos hr] at h
        exact ih _ _ (addVout_inv lib m td v hm) h
      · rw [if_neg hr] at h
        exact ih _ _ hm h

/-- The transaction loop of `getTxTokenDataCrossShard` preserves the map
invariant. -/
theorem single_txs_inv {Hash : Type} [DecidableEq Hash] (lib : Lib Hash) (s : Nat) :
    ∀ (txs : List (Transaction Hash)) (m m1 : TokenMap Hash), MapInv m →
      getTxTokenDataCrossShard.txs lib s txs m = .ok m1 → MapInv m1 := by
  intro txs
  induction txs with
  | nil =>
    intro m m1 hm h
    simp only [getTxTokenDataCrossShard.txs, Run.ok.injEq] at h
    subst h; exact hm
  | cons tx rest ih =>
    intro m m1 hm h
    unfold getTxTokenDataCrossShard.txs at h
    by_cases ht : tx.Type_ = .TxCustomTokenType
    · rw [if_pos ht] at h
      cases hv : getTxTokenDataCrossShard.vouts lib tx.TxTokenData s tx.TxTokenData.Vouts m with
      | ok m2 =>
        simp only [hv] at h
        exact ih _ _ (single_vouts_inv lib _ s _ _ _ hm hv) h
      | outOfRange => simp [hv] at h
      | outOfFuel => simp [hv] at h
    · rw [if_neg ht] at h
      exact ih _ _ hm h

/-- Grouping coins keeps the number of shards. -/
theorem coins_length {Hash : Type} (lib : Lib Hash) :
    ∀ (cs : List OutputCoin) (oc oc1 : List (List OutputCoin)),
      getCrossShardDataHash.coins lib cs oc = .ok oc1 → oc1.length = oc.length := by
  intro cs
  induction cs with
  | nil =>
    intro oc oc1 h
    simp only [getCrossShardDataHash.coins, Run.ok.injEq] at h
    subst h; rfl
  | cons c rest ih =>
    intro oc oc1 h
    unfold getCrossShardDataHash.coins at h
    cases hl : oc[lib.GetShardIDFromLastByte c.PubKeyLastByte]? with
    | none => simp [hl] at h
    | some l =>
      simp only [hl] at h
      rw [ih _ _ h, List.length_set]

/-- Grouping coins returns when the router stays below the number of shards. -/
theorem coins_ok {Hash : Type} (lib : Lib Hash) (n : Nat)
    (hroute : ∀ b, lib.GetShardIDFromLastByte b < n) :
    ∀ (cs : List OutputCoin) (oc : List (List OutputCoin)), oc.length = n →
      ∃ oc1, getCrossShardDataHash.coins lib cs oc = .ok oc1 := by
  intro cs
  induction cs with
  | nil => intro oc _; exact ⟨oc, rfl⟩
  | cons c rest ih =>
    intro oc hlen
    have hi : lib.GetShardIDFromLastByte c.PubKeyLastByte < oc.length := by
      rw [hlen]; exact hroute _
    unfold getCrossShardDataHash.coins
    simp only [List.getElem?_eq_getElem hi]
    exact ih _ (by rw [List.length_set]; exact hlen)

/-- Grouping the coins of an optional proof returns and keeps the number of
shards. -/
theorem proofCoins_ok {Hash : Type} (lib : Lib Hash) (n : Nat)
    (hroute : ∀ b, lib.GetShardIDFromLastByte b < n) (p : Option PaymentProof)
    (oc : List (List OutputCoin)) (hlen : oc.length = n) :
    ∃ oc1, getCrossShardDataHash.proofCoins lib p oc = .ok oc1 ∧ oc1.length = n := by
  cases p with
  | none => exact ⟨oc, rfl, hlen⟩
  | some p =>
    obtain ⟨oc1, h⟩ := coins_ok lib n hroute p.OutputCoins oc hlen
    exact ⟨oc1, h, by rw [coins_length lib _ _ _ h, hlen]⟩

/-- The vout loop of `getCrossShardDataHash`, seen from shard `s`, is the vout
loop of `getTxTokenDataCrossShard` for `s`. -/
theorem vouts_sim {Hash : Type} [DecidableEq Hash] (lib : Lib Hash)
    (td : TxTokenData Hash) (s : Nat) :
    ∀ (vs : List TxTokenVout) (tm tm1 : List (TokenMap Hash)),
      getCrossShardDataHash.vouts lib td vs tm = .ok tm1 →
      tm1.length = tm.length ∧
      ∀ m, tm[s]? = some m →
        ∃ m1, getTxTokenDataCrossShard.vouts lib td s vs m = .ok m1 ∧ tm1[s]? = some m1 := by
  intro vs
  induction vs with
  | nil =>
    intro tm tm1 h
    simp only [getCrossShardDataHash.vouts, Run.ok.injEq] at h
    subst h
    exact ⟨rfl, fun m hm => ⟨m, rfl, hm⟩⟩
  | cons v rest ih =>
    intro tm tm1 h
    unfold getCrossShardDataHash.vouts at h
    cases hl : v.Pk.getLast? with
    | none => simp [hl] at h
    | some b =>
      simp only [hl] at h
      cases hm0 : tm[lib.GetShardIDFromLastByte b]? with
      | none => simp [hm0] at h
      | some m0 =>
        simp only [hm0] at h
        obtain ⟨hlen, hsim⟩ := ih _ _ h
        refine ⟨by rw [hlen, List.length_set], ?_⟩
        intro m hm
        unfold getTxTokenDataCrossShard.vouts
        simp only [hl]
        by_cases hr : lib.GetShardIDFromLastByte b = s
        · rw [if_pos hr]
          rw [hr, hm] at hm0
          cases hm0
          apply hsim
          rw [hr]
          have hs : s < tm.length := by
            rcases Nat.lt_or_ge s tm.length with h1 | h1
            · exact h1
            · rw [List.getElem?_eq_none h1] at hm; cases hm
          rw [List.getElem?_set_self hs]
        · rw [if_neg hr]
          apply hsim
          rw [List.getElem?_set_ne hr]
          exact hm

/-- The vout loop of `getCrossShardDataHash` returns when the router stays
below the number of shards and every `Pk` is non-empty. -/
theorem vouts_ok {Hash : Type} [DecidableEq Hash] (lib : Lib Hash) (n : Nat)
    (hroute : ∀ b, lib.GetShardIDFromLastByte b < n) (td : TxTokenData Hash) :
    ∀ (vs : List TxTokenVout), (∀ v ∈ vs, v.Pk ≠ []) →
      ∀ (tm : List (TokenMap Hash)), tm.length = n →
      ∃ tm1, getCrossShardDataHash.vouts lib td vs tm = .ok tm1 := by
  intro vs
  induction vs with
  | nil => intro _ tm _; exact ⟨tm, rfl⟩
  | cons v rest ih =>
    intro hpk tm hlen
    obtain ⟨b, hb⟩ : ∃ b, v.Pk.getLast? = some b := by
      cases hc : v.Pk.getLast? with
      | none => exact absurd (List.getLast?_eq_none_iff.1 hc) (hpk v (List.mem_cons_self _ _))
      | some b => exact ⟨b, rfl⟩
    have hi : lib.GetShardIDFromLastByte b < tm.length := by rw [hlen]; exact hroute _
    unfold getCrossShardDataHash.vouts
    simp only [hb, List.getElem?_eq_getElem hi]
    exact ih (fun w hw => hpk w (List.mem_cons_of_mem _ hw)) _ (by rw [List.length_set]; exact hlen)

/-- The transaction loop of `getCrossShardDataHash`, seen from shard `s`, is
the transaction loop of `getTxTokenDataCrossShard` for `s`. -/
theorem group_sim {Hash : Type} [DecidableEq Hash] (lib : Lib Hash) (s : Nat) :
    ∀ (txs : List (Transaction Hash)) (oc : List (List OutputCoin)) (tm : List (TokenMap Hash))
      (g : List (List OutputCoin) × List (TokenMap Hash)),
      getCrossShardDataHash.group lib txs oc tm = .ok g →
      ∀ m, tm[s]? = some m →
        ∃ m1, getTxTokenDataCrossShard.txs lib s txs m = .ok m1 ∧ g.2[s]? = some m1 := by
  intro txs
  induction txs with
  | nil =>
    intro oc tm g h m hm
    simp only [getCrossShardDataHash.group, Run.ok.injEq] at h
    subst h
    exact ⟨m, rfl, hm⟩
  | cons tx rest ih =>
    intro oc tm g h m hm
    unfold getCrossShardDataHash.group at h
    unfold getTxTokenDataCrossShard.txs
    cases ht : tx.Type_ with
    | TxNormalType =>
      simp only [ht] at h
      rw [if_neg (by simp)]
      cases hc : getCrossShardDataHash.proofCoins lib tx.Proof oc with
      | ok oc1 => simp only [hc] at h; exact ih _ _ _ h m hm
      | outOfRange => simp [hc] at h
      | outOfFuel => simp [hc] at h
    | TxSalaryType =>
      simp only [ht] at h
      rw [if_neg (by simp)]
      cases hc : getCrossShardDataHash.proofCoins lib tx.Proof oc with
      | ok oc1 => simp only [hc] at h; exact ih _ _ _ h m hm
      | outOfRange => simp [hc] at h
      | outOfFuel => simp [hc] at h
    | TxCustomTokenType =>
      simp only [ht] at h
      rw [if_pos rfl]
      cases hc : getCrossShardDataHash.proofCoins lib tx.Proof oc with
      | ok oc1 =>
        simp only [hc] at h
        cases hv : getCrossShardDataHash.vouts lib tx.TxTokenData tx.TxTokenData.Vouts tm with
        | ok tm1 =>
          simp only [hv] at h
          obtain ⟨_, hsim⟩ := vouts_sim lib tx.TxTokenData s _ _ _ hv
          obtain ⟨m1, hm1, hm2⟩ := hsim m hm
          simp only [hm1]
          exact ih _ _ _ h m1 hm2
        | outOfRange => simp [hv] at h
        | outOfFuel => simp [hv] at h
      | outOfRange => simp [hc] at h
      | outOfFuel => simp [hc] at h
    | TxCustomTokenPrivacyType =>
      simp only [ht] at h
      rw [if_neg (by simp)]
      exact ih _ _ _ h m hm

/-- The transaction loop of `getCrossShardDataHash` returns when the router
stays below the number of shards and every token vout has a non-empty `Pk`. -/
theorem group_ok {Hash : Type} [DecidableEq Hash] (lib : Lib Hash) (n : Nat)
    (hroute : ∀ b, lib.GetShardIDFromLastByte b < n) :
    ∀ (txs : List (Transaction Hash)),
      (∀ tx ∈ txs, tx.Type_ = .TxCustomTokenType → ∀ v ∈ tx.TxTokenData.Vouts, v.Pk ≠ []) →
      ∀ (oc : List (List OutputCoin)) (tm : List (TokenMap Hash)), oc.length = n → tm.length = n →
      ∃ g, getCrossShardDataHash.group lib txs oc tm = .ok g ∧ g.1.length = n ∧ g.2.length = n := by
  intro txs
  induction txs with
  | nil => intro _ oc tm h1 h2; exact ⟨(oc, tm), rfl, h1, h2⟩
  | cons tx rest ih =>
    intro hpk oc tm h1 h2
    have hrest : ∀ tx ∈ rest, tx.Type_ = .TxCustomTokenType →
        ∀ v ∈ tx.TxTokenData.Vouts, v.Pk ≠ [] :=
      fun t ht => hpk t (List.mem_cons_of_mem _ ht)
    obtain ⟨oc1, hc, hc2⟩ := proofCoins_ok lib n hroute tx.Proof oc h1
    unfold getCrossShardDataHash.group
    cases ht : tx.Type_ with
    | TxNormalType => simp only [hc]; exact ih hrest _ _ hc2 h2
    | TxSalaryType => simp only [hc]; exact ih hrest _ _ hc2 h2
    | TxCustomTokenType =>
      obtain ⟨tm1, hv⟩ := vouts_ok lib n hroute tx.TxTokenData tx.TxTokenData.Vouts
        (hpk tx (List.mem_cons_self _ _) ht) tm h2
      have hl := (vouts_sim lib tx.TxTokenData 0 _ _ _ hv).1
      simp only [hc, hv]
      exact ih hrest _ _ hc2 (by rw [hl]; exact h2)
    | TxCustomTokenPrivacyType => simp only; exact ih hrest _ _ h1 h2

/-! ## The digest row -/

/-- Sequencing after a run that returned. -/
theorem bind_ok {α β : Type} (a : α) (f : α → Run β) : (Run.ok a).bind f = f a := rfl

/-- A counting loop whose body returns `g i` at every index returns the list
of these values. -/
theorem forRange_ok {α : Type} (f : Nat → Run α) (g : Nat → α) :
    ∀ n, (∀ i, i < n → f i = .ok (g i)) → Run.forRange f n = .ok ((List.range n).map g) := by
  intro n
  induction n with
  | zero => intro _; rfl
  | succ n ih =>
    intro h
    have h1 := ih (fun i hi => h i (by omega))
    simp only [Run.forRange, h1, Run.bind, h n (by omega), List.range_succ, List.map_append,
      List.map_cons, List.map_nil]

/-- A counting loop that returns has returned at every index. -/
theorem forRange_length {α : Type} (f : Nat → Run α) :
    ∀ n out, Run.forRange f n = .ok out →
      out.length = n ∧ ∀ i, i < n → ∃ a, f i = .ok a ∧ out[i]? = some a := by
  intro n
  induction n with
  | zero =>
    intro out h
    simp only [Run.forRange, Run.ok.injEq] at h
    subst h
    exact ⟨rfl, fun i hi => absurd hi (Nat.not_lt_zero _)⟩
  | succ n ih =>
    intro out h
    simp only [Run.forRange] at h
    cases h1 : Run.forRange f n with
    | ok o1 =>
      cases h2 : f n with
      | ok a =>
        simp only [h1, h2, Run.bind, Run.ok.injEq] at h
        subst h
        obtain ⟨hl, hi⟩ := ih o1 h1
        refine ⟨by simp [hl], ?_⟩
        intro i hlt
        by_cases hin : i < n
        · obtain ⟨b, hb1, hb2⟩ := hi i hin
          exact ⟨b, hb1, by rw [List.getElem?_append_left (by omega)]; exact hb2⟩
        · have : i = n := by omega
          subst this
          exact ⟨a, h2, by rw [List.getElem?_append_right (by omega)]; simp [hl]⟩
      | outOfRange => simp [h1, h2, Run.bind] at h
      | outOfFuel => simp [h1, h2, Run.bind] at h
    | outOfRange => simp [h1, Run.bind] at h
    | outOfFuel => simp [h1, Run.bind] at h

/-- Reading inside a list returns. -/
theorem index_ok {α : Type} (xs : List α) (i : Nat) (a : α) (h : xs[i]? = some a) :
    Run.index xs i = .ok a := by
  simp [Run.index, h]

/-- A read that returns has read an element of the list. -/
theorem index_eq_ok {α : Type} (xs : List α) (i : Nat) (a : α) (h : Run.index xs i = .ok a) :
    xs[i]? = some a := by
  unfold Run.index at h
  cases hx : xs[i]? with
  | none => simp [hx] at h
  | some b => simp only [hx, Run.ok.injEq] at h; rw [h]

/-- The transaction loop of `getCrossShardDataHash` keeps the number of
shards of both tables. -/
theorem group_length {Hash : Type} [DecidableEq Hash] (lib : Lib Hash) :
    ∀ (txs : List (Transaction Hash)) (oc : List (List OutputCoin)) (tm : List (TokenMap Hash))
      (g : List (List OutputCoin) × List (TokenMap Hash)),
      getCrossShardDataHash.group lib txs oc tm = .ok g →
      g.1.length = oc.length ∧ g.2.length = tm.length := by
  intro txs
  induction txs with
  | nil =>
    intro oc tm g h
    simp only [getCrossShardDataHash.group, Run.ok.injEq] at h
    subst h
    exact ⟨rfl, rfl⟩
  | cons tx rest ih =>
    intro oc tm g h
    unfold getCrossShardDataHash.group at h
    have hcoins : ∀ oc1, getCrossShardDataHash.proofCoins lib tx.Proof oc = .ok oc1 →
        oc1.length = oc.length := by
      intro oc1 hc
      unfold getCrossShardDataHash.proofCoins at hc
      cases hp : tx.Proof with
      | none => simp only [hp, Run.ok.injEq] at hc; rw [← hc]
      | some p => simp only [hp] at hc; exact coins_length lib _ _ _ hc
    cases ht : tx.Type_ with
    | TxNormalType =>
      simp only [ht] at h
      cases hc : getCrossShardDataHash.proofCoins lib tx.Proof oc with
      | ok oc1 =>
        simp only [hc] at h
        obtain ⟨a, b⟩ := ih _ _ _ h
        exact ⟨by rw [a, hcoins oc1 hc], b⟩
      | outOfRange => simp [hc] at h
      | outOfFuel => simp [hc] at h
    | TxSalaryType =>
      simp only [ht] at h
      cases hc : getCrossShardDataHash.proofCoins lib tx.Proof oc with
      | ok oc1 =>
        simp only [hc] at h
        obtain ⟨a, b⟩ := ih _ _ _ h
        exact ⟨by rw [a, hcoins oc1 hc], b⟩
      | outOfRange => simp [hc] at h
      | outOfFuel => simp [hc] at h
    | TxCustomTokenType =>
      simp only [ht] at h
      cases hc : getCrossShardDataHash.proofCoins lib tx.Proof oc with
      | ok oc1 =>
        simp only [hc] at h
        cases hv : getCrossShardDataHash.vouts lib tx.TxTokenData tx.TxTokenData.Vouts tm with
        | ok tm1 =>
          simp only [hv] at h
          obtain ⟨a, b⟩ := ih _ _ _ h
          exact ⟨by rw [a, hcoins oc1 hc], by rw [b, (vouts_sim lib _ 0 _ _ _ hv).1]⟩
        | outOfRange => simp [hv] at h
        | outOfFuel => simp [hv] at h
      | outOfRange => simp [hc] at h
      | outOfFuel => simp [hc] at h
    | TxCustomTokenPrivacyType =>
      simp only [ht] at h
      exact ih _ _ _ h

/-- The row `getCrossShardDataHash` returns, in terms of the two tables of the
grouping pass: it has `MAX_SHARD_NUMBER` entries and entry `i` is
`H(outputDigest i || tokenDigest i)`. -/
theorem row_of_grouped {Hash : Type} [DecidableEq Hash] (lib : Lib Hash) (order : MapOrder Hash)
    (txList : List (Transaction Hash)) (g : List (List OutputCoin) × List (TokenMap Hash))
    (hg : getCrossShardDataHash.grouped lib txList = .ok g) :
    ∃ row, getCrossShardDataHash lib order txList = .ok row ∧
      row.length = lib.MAX_SHARD_NUMBER ∧
      ∀ i, i < lib.MAX_SHARD_NUMBER →
        ∃ coins m, g.1[i]? = some coins ∧ g.2[i]? = some m ∧
          row[i]? = some (hashCat lib (calHashOutCoinCrossShard lib coins)
            (calHashTxTokenDataHashFromMap lib order m)) := by
  obtain ⟨hl1, hl2⟩ := group_length lib txList _ _ g hg
  rw [List.length_replicate] at hl1 hl2
  have e1 := forRange_ok
    (fun i => (Run.index g.1 i).bind fun coins => .ok (calHashOutCoinCrossShard lib coins))
    (fun i => calHashOutCoinCrossShard lib (g.1.getD i [])) lib.MAX_SHARD_NUMBER
    (fun i hi => by
      have hi2 : i < g.1.length := by omega
      simp [Run.index, Run.bind, List.getElem?_eq_getElem hi2, List.getD_eq_getElem?_getD])
  have e2 := forRange_ok
    (fun i => (Run.index g.2 i).bind fun m => .ok (calHashTxTokenDataHashFromMap lib order m))
    (fun i => calHashTxTokenDataHashFromMap lib order (g.2.getD i [])) lib.MAX_SHARD_NUMBER
    (fun i hi => by
      have hi2 : i < g.2.length := by omega
      simp [Run.index, Run.bind, List.getElem?_eq_getElem hi2, List.getD_eq_getElem?_getD])
  have e3 := forRange_ok
    (fun i => (Run.index ((List.range lib.MAX_SHARD_NUMBER).map
        fun i => calHashOutCoinCrossShard lib (g.1.getD i [])) i).bind fun a =>
      (Run.index ((List.range lib.MAX_SHARD_NUMBER).map
        fun i => calHashTxTokenDataHashFromMap lib order (g.2.getD i [])) i).bind fun b =>
        .ok (hashCat lib a b))
    (fun i => hashCat lib (calHashOutCoinCrossShard lib (g.1.getD i []))
      (calHashTxTokenDataHashFromMap lib order (g.2.getD i []))) lib.MAX_SHARD_NUMBER
    (fun i hi => by
      simp [Run.index, Run.bind, List.getElem?_map, List.getElem?_range hi])
  refine ⟨(List.range lib.MAX_SHARD_NUMBER).map fun i =>
    hashCat lib (calHashOutCoinCrossShard lib (g.1.getD i []))
      (calHashTxTokenDataHashFromMap lib order (g.2.getD i [])), ?_, ?_, ?_⟩
  · unfold getCrossShardDataHash
    rw [hg, bind_ok, e1, bind_ok, e2, bind_ok]
    exact e3
  · simp
  · intro i hi
    have hi1 : i < g.1.length := by omega
    have hi2 : i < g.2.length := by omega
    refine ⟨g.1[i], g.2[i], List.getElem?_eq_getElem hi1, List.getElem?_eq_getElem hi2, ?_⟩
    simp [List.getElem?_map, List.getElem?_range hi, List.getD_eq_getElem?_getD,
      List.getElem?_eq_getElem hi1, List.getElem?_eq_getElem hi2]
/-- Grouping coins none of which is routed to `s` leaves the list of `s`
unchanged. -/
theorem coins_keep {Hash : Type} (lib : Lib Hash) (s : Nat) :
    ∀ (cs : List OutputCoin) (oc oc1 : List (List OutputCoin)),
      getCrossShardDataHash.coins lib cs oc = .ok oc1 →
      (∀ c ∈ cs, lib.GetShardIDFromLastByte c.PubKeyLastByte ≠ s) → oc1[s]? = oc[s]? := by
  intro cs
  induction cs with
  | nil =>
    intro oc oc1 h _
    simp only [getCrossShardDataHash.coins, Run.ok.injEq] at h
    rw [h]
  | cons c rest ih =>
    intro oc oc1 h hs
    unfold getCrossShardDataHash.coins at h
    cases hl : oc[lib.GetShardIDFromLastByte c.PubKeyLastByte]? with
    | none => simp [hl] at h
    | some l =>
      simp only [hl] at h
      rw [ih _ _ h (fun d hd => hs d (List.mem_cons_of_mem _ hd)),
        List.getElem?_set_ne (hs c (List.mem_cons_self _ _))]

/-- Grouping vouts none of which is routed to `s` leaves the token map of `s`
unchanged. -/
theorem vouts_keep {Hash : Type} [DecidableEq Hash] (lib : Lib Hash)
    (td : TxTokenData Hash) (s : Nat) :
    ∀ (vs : List TxTokenVout) (tm tm1 : List (TokenMap Hash)),
      getCrossShardDataHash.vouts lib td vs tm = .ok tm1 →
      (∀ v ∈ vs, ∀ b, v.Pk.getLast? = some b → lib.GetShardIDFromLastByte b ≠ s) →
      tm1[s]? = tm[s]? := by
  intro vs
  induction vs with
  | nil =>
    intro tm tm1 h _
    simp only [getCrossShardDataHash.vouts, Run.ok.injEq] at h
    rw [h]
  | cons v rest ih =>
    intro tm tm1 h hs
    unfold getCrossShardDataHash.vouts at h
    cases hl : v.Pk.getLast? with
    | none => simp [hl] at h
    | some b =>
      simp only [hl] at h
      cases hm0 : tm[lib.GetShardIDFromLastByte b]? with
      | none => simp [hm0] at h
      | some m0 =>
        simp only [hm0] at h
        rw [ih _ _ h (fun w hw => hs w (List.mem_cons_of_mem _ hw)),
          List.getElem?_set_ne (hs v (List.mem_cons_self _ _) b hl)]

/-- The transaction loop of `getCrossShardDataHash` leaves the tables of a
shard unchanged when no grouped coin and no token vout is routed to it. -/
theorem group_keep {Hash : Type} [DecidableEq Hash] (lib : Lib Hash) (s : Nat) :
    ∀ (txs : List (Transaction Hash)) (oc : List (List OutputCoin)) (tm : List (TokenMap Hash))
      (g : List (List OutputCoin) × List (TokenMap Hash)),
      getCrossShardDataHash.group lib txs oc tm = .ok g →
      (∀ tx ∈ txs, tx.Type_ ≠ .TxCustomTokenPrivacyType → ∀ p, tx.Proof = some p →
        ∀ c ∈ p.OutputCoins, lib.GetShardIDFromLastByte c.PubKeyLastByte ≠ s) →
      (∀ tx ∈ txs, tx.Type_ = .TxCustomTokenType → ∀ v ∈ tx.TxTokenData.Vouts,
        ∀ b, v.Pk.getLast? = some b → lib.GetShardIDFromLastByte b ≠ s) →
      g.1[s]? = oc[s]? ∧ g.2[s]? = tm[s]? := by
  intro txs
  induction txs with
  | nil =>
    intro oc tm g h _ _
    simp only [getCrossShardDataHash.group, Run.ok.injEq] at h
    subst h
    exact ⟨rfl, rfl⟩
  | cons tx rest ih =>
    intro oc tm g h hc hv
    have hc2 : ∀ t ∈ rest, t.Type_ ≠ .TxCustomTokenPrivacyType → ∀ p, t.Proof = some p →
        ∀ c ∈ p.OutputCoins, lib.GetShardIDFromLastByte c.PubKeyLastByte ≠ s :=
      fun t ht => hc t (List.mem_cons_of_mem _ ht)
    have hv2 : ∀ t ∈ rest, t.Type_ = .TxCustomTokenType → ∀ v ∈ t.TxTokenData.Vouts,
        ∀ b, v.Pk.getLast? = some b → lib.GetShardIDFromLastByte b ≠ s :=
      fun t ht => hv t (List.mem_cons_of_mem _ ht)
    have hcoins : tx.Type_ ≠ .TxCustomTokenPrivacyType →
        ∀ oc1, getCrossShardDataHash.proofCoins lib tx.Proof oc = .ok oc1 → oc1[s]? = oc[s]? := by
      intro hty oc1 hp
      unfold getCrossShardDataHash.proofCoins at hp
      cases hpr : tx.Proof with
      | none => simp only [hpr, Run.ok.injEq] at hp; rw [← hp]
      | some p =>
        simp only [hpr] at hp
        exact coins_keep lib s _ _ _ hp (hc tx (List.mem_cons_self _ _) hty p hpr)
    unfold getCrossShardDataHash.group at h
    cases ht : tx.Type_ with
    | TxNormalType =>
      simp only [ht] at h
      cases hp : getCrossShardDataHash.proofCoins lib tx.Proof oc with
      | ok oc1 =>
        simp only [hp] at h
        obtain ⟨a, b⟩ := ih _ _ _ h hc2 hv2
        exact ⟨by rw [a, hcoins (by simp [ht]) oc1 hp], b⟩
      | outOfRange => simp [hp] at h
      | outOfFuel => simp [hp] at h
    | TxSalaryType =>
      simp only [ht] at h
      cases hp : getCrossShardDataHash.proofCoins lib tx.Proof oc with
      | ok oc1 =>
        simp only [hp] at h
        obtain ⟨a, b⟩ := ih _ _ _ h hc2 hv2
        exact ⟨by rw [a, hcoins (by simp [ht]) oc1 hp], b⟩
      | outOfRange => simp [hp] at h
      | outOfFuel => simp [hp] at h
    | TxCustomTokenType =>
      simp only [ht] at h
      cases hp : getCrossShardDataHash.proofCoins lib tx.Proof oc with
      | ok oc1 =>
        simp only [hp] at h
        cases hvo : getCrossShardDataHash.vouts lib tx.TxTokenData tx.TxTokenData.Vouts tm with
        | ok tm1 =>
          simp only [hvo] at h
          obtain ⟨a, b⟩ := ih _ _ _ h hc2 hv2
          exact ⟨by rw [a, hcoins (by simp [ht]) oc1 hp],
            by rw [b, vouts_keep lib _ s _ _ _ hvo (hv tx (List.mem_cons_self _ _) ht)]⟩
        | outOfRange => simp [hvo] at h
        | outOfFuel => simp [hvo] at h
      | outOfRange => simp [hp] at h
      | outOfFuel => simp [hp] at h
    | TxCustomTokenPrivacyType =>
      simp only [ht] at h
      exact ih _ _ _ h hc2 hv2

/-- Privacy-token transactions do not take part in the grouping pass. -/
theorem group_filter {Hash : Type} [DecidableEq Hash] (lib : Lib Hash) :
    ∀ (txs : List (Transaction Hash)) (oc : List (List OutputCoin)) (tm : List (TokenMap Hash)),
      getCrossShardDataHash.group lib
          (txs.filter fun tx => decide (tx.Type_ ≠ .TxCustomTokenPrivacyType)) oc tm
        = getCrossShardDataHash.group lib txs oc tm := by
  intro txs
  induction txs with
  | nil => intro oc tm; rfl
  | cons tx rest ih =>
    intro oc tm
    cases ht : tx.Type_ with
    | TxNormalType =>
      rw [List.filter_cons_of_pos (by simp [ht])]
      unfold getCrossShardDataHash.group
      simp only [ht, ih]
    | TxSalaryType =>
      rw [List.filter_cons_of_pos (by simp [ht])]
      unfold getCrossShardDataHash.group
      simp only [ht, ih]
    | TxCustomTokenType =>
      rw [List.filter_cons_of_pos (by simp [ht])]
      unfold getCrossShardDataHash.group
      simp only [ht, ih]
    | TxCustomTokenPrivacyType =>
      rw [List.filter_cons_of_neg (by simp [ht]), ih]
      conv_rhs => unfold getCrossShardDataHash.group
      simp only [ht]

/-! ## Token digests and the order of transactions -/

/-- Concatenating in a left fold is flattening the list of the pieces. -/
theorem foldl_append_eq_flatten {α β : Type} (f : α → List β) :
    ∀ (l : List α) (init : List β),
      l.foldl (fun acc x => acc ++ f x) init = init ++ (l.map f).flatten := by
  intro l
  induction l with
  | nil => intro init; simp
  | cons a t ih => intro init; simp [ih, List.append_assoc]

/-- The strings of the `PropertyID`s of the values of a token map are pairwise
distinct when the string encoding is injective. -/
theorem map_keys_nodup {Hash : Type} (lib : Lib Hash) (m : TokenMap Hash) (hinv : MapInv m)
    (hstr : Function.Injective lib.hashString) :
    ((m.map Prod.snd).map fun td => lib.hashString td.PropertyID).Nodup := by
  have e : ((m.map Prod.snd).map fun td => lib.hashString td.PropertyID)
      = (m.map Prod.fst).map lib.hashString := by
    rw [List.map_map, List.map_map]
    apply List.map_congr_left
    intro e he
    simp only [Function.comp]
    rw [hinv.2 e he]
  rw [e]
  exact hinv.1.map hstr

/-- Sorting by the string of `PropertyID` gives a permutation in strictly
ascending order when these strings are pairwise distinct. -/
theorem sort_strict {Hash : Type} (lib : Lib Hash) (l : List (TxTokenData Hash))
    (hn : (l.map fun td => lib.hashString td.PropertyID).Nodup) :
    (sortByPropertyID lib l).Perm l ∧
    List.Pairwise (fun a b => lib.hashString a.PropertyID < lib.hashString b.PropertyID)
      (sortByPropertyID lib l) := by
  let key : TxTokenData Hash → List Nat := fun td => lib.hashString td.PropertyID
  let r : TxTokenData Hash → TxTokenData Hash → Prop := fun a b => ¬ key b < key a
  haveI : IsTotal (TxTokenData Hash) r := ⟨fun a b => by
    simp only [r, not_lt]; exact le_total _ _⟩
  haveI : IsTrans (TxTokenData Hash) r := ⟨fun a b c hab hbc => by
    simp only [r, not_lt] at *; exact le_trans hab hbc⟩
  have s1 : List.Pairwise r (sortByPropertyID lib l) := List.sorted_insertionSort r l
  have p1 : (sortByPropertyID lib l).Perm l := List.perm_insertionSort r l
  have hn1 : ((sortByPropertyID lib l).map key).Nodup := (p1.map key).nodup_iff.2 hn
  have hne : List.Pairwise (fun a b => key a ≠ key b) (sortByPropertyID lib l) := by
    have := List.pairwise_map.1 hn1
    exact this
  refine ⟨p1, ?_⟩
  exact (s1.and hne).imp (fun h => lt_of_le_of_ne (not_lt.1 h.1) h.2)
/-- Updating the entries of a key that is not in the map changes nothing. -/
theorem map_update_absent {Hash : Type} [DecidableEq Hash] (m : TokenMap Hash) (pid : Hash)
    (f : Hash × TxTokenData Hash → Hash × TxTokenData Hash) (h : pid ∉ m.map Prod.fst) :
    m.map (fun e => if e.1 = pid then f e else e) = m := by
  have : ∀ e ∈ m, (fun e : Hash × TxTokenData Hash => if e.1 = pid then f e else e) e = id e := by
    intro e he
    have hne : e.1 ≠ pid := fun hc => h (hc ▸ List.mem_map_of_mem Prod.fst he)
    simp [hne]
  rw [List.map_congr_left this, List.map_id]

/-- No entry of the map has a key that is not in the map. -/
theorem any_key_absent {Hash : Type} [DecidableEq Hash] (m : TokenMap Hash) (pid : Hash)
    (h : pid ∉ m.map Prod.fst) : m.any (fun e => decide (e.1 = pid)) = false := by
  rw [List.any_eq_false]
  intro e he
  have hne : e.1 ≠ pid := fun hc => h (hc ▸ List.mem_map_of_mem Prod.fst he)
  simp [hne]

/-- Adding the first vout of a token that has no bucket yet appends a bucket
with that vout. -/
theorem addVout_new {Hash : Type} [DecidableEq Hash] (lib : Lib Hash) (m : TokenMap Hash)
    (td : TxTokenData Hash) (v : TxTokenVout) (h : td.PropertyID ∉ m.map Prod.fst) :
    addVout lib m td v = m ++ [(td.PropertyID,
      { cloneTxTokenDataForCrossShard lib td with Vouts := [v] })] := by
  unfold addVout
  simp only [any_key_absent m _ h]
  rw [if_neg (by simp), List.map_append, map_update_absent m td.PropertyID _ h]
  simp [cloneTxTokenDataForCrossShard]

/-- Adding a vout of the token whose bucket is the last one appends the vout to
that bucket. -/
theorem addVout_last {Hash : Type} [DecidableEq Hash] (lib : Lib Hash) (m : TokenMap Hash)
    (td e : TxTokenData Hash) (v : TxTokenVout) (h : td.PropertyID ∉ m.map Prod.fst) :
    addVout lib (m ++ [(td.PropertyID, e)]) td v
      = m ++ [(td.PropertyID, { e with Vouts := e.Vouts ++ [v] })] := by
  unfold addVout
  have hany : (m ++ [(td.PropertyID, e)]).any (fun x => decide (x.1 = td.PropertyID)) = true := by
    simp
  simp only [hany]
  rw [if_pos trivial, List.map_append, map_update_absent m td.PropertyID _ h]
  simp

/-- The vout loop of `getTxTokenDataCrossShard` on a map whose last bucket is
the token's: the vouts routed to `s` are appended to that bucket. -/
theorem single_vouts_last {Hash : Type} [DecidableEq Hash] (lib : Lib Hash)
    (td : TxTokenData Hash) (s : Nat) (m : TokenMap Hash) (h : td.PropertyID ∉ m.map Prod.fst) :
    ∀ (vs : List TxTokenVout) (e : TxTokenData Hash) (r : TokenMap Hash),
      getTxTokenDataCrossShard.vouts lib td s vs (m ++ [(td.PropertyID, e)]) = .ok r →
      r = m ++ [(td.PropertyID, { e with Vouts := e.Vouts ++ routedVouts lib s vs })] := by
  intro vs
  induction vs with
  | nil =>
    intro e r hr
    simp only [getTxTokenDataCrossShard.vouts, Run.ok.injEq] at hr
    subst hr
    simp [routedVouts]
  | cons v rest ih =>
    intro e r hr
    unfold getTxTokenDataCrossShard.vouts at hr
    cases hl : v.Pk.getLast? with
    | none => simp [hl] at hr
    | some b =>
      simp only [hl] at hr
      by_cases hb : lib.GetShardIDFromLastByte b = s
      · rw [if_pos hb, addVout_last lib m td e v h] at hr
        rw [ih _ _ hr]
        have : routedVouts lib s (v :: rest) = v :: routedVouts lib s rest := by
          simp [routedVouts, hl, hb]
        rw [this]
        simp
      · rw [if_neg hb] at hr
        rw [ih _ _ hr]
        have : routedVouts lib s (v :: rest) = routedVouts lib s rest := by
          simp [routedVouts, hl, hb]
        rw [this]

/-- The vout loop of `getTxTokenDataCrossShard` on a map without a bucket of
the token: nothing changes when no vout is routed to `s`, otherwise one bucket
with the routed vouts is appended. -/
theorem single_vouts_new {Hash : Type} [DecidableEq Hash] (lib : Lib Hash)
    (td : TxTokenData Hash) (s : Nat) (m : TokenMap Hash) (h : td.PropertyID ∉ m.map Prod.fst) :
    ∀ (vs : List TxTokenVout) (r : TokenMap Hash),
      getTxTokenDataCrossShard.vouts lib td s vs m = .ok r →
      r = if routedVouts lib s vs = [] then m
        else m ++ [(td.PropertyID,
          { cloneTxTokenDataForCrossShard lib td with Vouts := routedVouts lib s vs })] := by
  intro vs
  induction vs with
  | nil =>
    intro r hr
    simp only [getTxTokenDataCrossShard.vouts, Run.ok.injEq] at hr
    subst hr
    simp [routedVouts]
  | cons v rest ih =>
    intro r hr
    unfold getTxTokenDataCrossShard.vouts at hr
    cases hl : v.Pk.getLast? with
    | none => simp [hl] at hr
    | some b =>
      simp only [hl] at hr
      by_cases hb : lib.GetShardIDFromLastByte b = s
      · rw [if_pos hb, addVout_new lib m td v h] at hr
        have h2 := single_vouts_last lib td s m h rest _ r hr
        have : routedVouts lib s (v :: rest) = v :: routedVouts lib s rest := by
          simp [routedVouts, hl, hb]
        rw [this, if_neg (by simp), h2]
        simp
      · rw [if_neg hb] at hr
        have : routedVouts lib s (v :: rest) = routedVouts lib s rest := by
          simp [routedVouts, hl, hb]
        rw [this]
        exact ih r hr

/-- The transaction loop of `getTxTokenDataCrossShard` on a batch whose
custom-token transactions carry pairwise distinct token identifiers, none of
them in the map yet: the buckets of the transactions are appended in order. -/
theorem single_txs_buckets {Hash : Type} [DecidableEq Hash] (lib : Lib Hash) (s : Nat) :
    ∀ (txs : List (Transaction Hash)) (m r : TokenMap Hash),
      (customTokenIDs txs).Nodup → (∀ p ∈ customTokenIDs txs, p ∉ m.map Prod.fst) →
      getTxTokenDataCrossShard.txs lib s txs m = .ok r →
      r = m ++ txs.filterMap (bucketFor lib s) := by
  intro txs
  induction txs with
  | nil =>
    intro m r _ _ hr
    simp only [getTxTokenDataCrossShard.txs, Run.ok.injEq] at hr
    subst hr
    simp
  | cons tx rest ih =>
    intro m r hnd hnot hr
    unfold getTxTokenDataCrossShard.txs at hr
    by_cases ht : tx.Type_ = .TxCustomTokenType
    · have hids : customTokenIDs (tx :: rest) = tx.TxTokenData.PropertyID :: customTokenIDs rest := by
        simp [customTokenIDs, ht]
      rw [hids] at hnd hnot
      obtain ⟨hn1, hn2⟩ := List.nodup_cons.1 hnd
      have hpid : tx.TxTokenData.PropertyID ∉ m.map Prod.fst :=
        hnot _ (List.mem_cons_self _ _)
      rw [if_pos ht] at hr
      cases hv : getTxTokenDataCrossShard.vouts lib tx.TxTokenData s tx.TxTokenData.Vouts m with
      | ok m1 =>
        simp only [hv] at hr
        have hm1 := single_vouts_new lib tx.TxTokenData s m hpid _ m1 hv
        by_cases hrv : routedVouts lib s tx.TxTokenData.Vouts = []
        · rw [if_pos hrv] at hm1
          subst hm1
          have hb : bucketFor lib s tx = none := by simp [bucketFor, hrv]
          rw [ih _ _ hn2 (fun p hp => hnot p (List.mem_cons_of_mem _ hp)) hr]
          simp [List.filterMap_cons, hb]
        · rw [if_neg hrv] at hm1
          have hb : bucketFor lib s tx = some (tx.TxTokenData.PropertyID,
              { cloneTxTokenDataForCrossShard lib tx.TxTokenData with
                Vouts := routedVouts lib s tx.TxTokenData.Vouts }) := by
            simp [bucketFor, ht, hrv]
          have hnot2 : ∀ p ∈ customTokenIDs rest, p ∉ m1.map Prod.fst := by
            intro p hp hc
            rw [hm1, List.map_append, List.mem_append] at hc
            rcases hc with hc | hc
            · exact hnot p (List.mem_cons_of_mem _ hp) hc
            · simp only [List.map_cons, List.map_nil, List.mem_singleton] at hc
              exact hn1 (hc ▸ hp)
          rw [ih _ _ hn2 hnot2 hr, hm1]
          simp [List.filterMap_cons, hb]
      | outOfRange => simp [hv] at hr
      | outOfFuel => simp [hv] at hr
    · have hids : customTokenIDs (tx :: rest) = customTokenIDs rest := by
        simp [customTokenIDs, ht]
      rw [hids] at hnd hnot
      rw [if_neg ht] at hr
      have hb : bucketFor lib s tx = none := by simp [bucketFor, ht]
      rw [ih _ _ hnd hnot hr]
      simp [List.filterMap_cons, hb]

/-! ## Instruction builders -/

/-- The inner loop of `GetAssignInstructionFromBeaconBlock` on instructions of
at least four fields appends those that pass the test, in order. -/
theorem assign_instructions_loop (shardID : Nat) :
    ∀ (ls acc : List (List String)), (∀ l ∈ ls, 4 ≤ l.length) →
      GetAssignInstructionFromBeaconBlock.instructions shardID ls acc
        = .ok (acc ++ ls.filter (isAssignFor shardID)) := by
  intro ls
  induction ls with
  | nil => intro acc _; simp [GetAssignInstructionFromBeaconBlock.instructions]
  | cons l rest ih =>
    intro acc h
    have hl : 4 ≤ l.length := h l (List.mem_cons_self _ _)
    have hrest : ∀ x ∈ rest, 4 ≤ x.length := fun x hx => h x (List.mem_cons_of_mem _ hx)
    have h0 : l[0]? = some l[0] := List.getElem?_eq_getElem (by omega)
    have h2 : l[2]? = some l[2] := List.getElem?_eq_getElem (by omega)
    have h3 : l[3]? = some l[3] := List.getElem?_eq_getElem (by omega)
    unfold GetAssignInstructionFromBeaconBlock.instructions
    simp only [h0, h2, h3]
    by_cases c0 : l[0] = "assign"
    · rw [if_pos c0]
      by_cases c2 : l[2] = "shard"
      · rw [if_pos c2]
        by_cases c3 : l[3] = Itoa shardID
        · rw [if_pos c3, ih _ hrest]
          have : isAssignFor shardID l = true := by simp [isAssignFor, h0, h2, h3, c0, c2, c3]
          rw [List.filter_cons_of_pos this, List.append_assoc]
          rfl
        · rw [if_neg c3, ih _ hrest]
          have : ¬ isAssignFor shardID l = true := by simp [isAssignFor, h0, h2, h3, c3]
          rw [List.filter_cons_of_neg this]
      · rw [if_neg c2, ih _ hrest]
        have : ¬ isAssignFor shardID l = true := by simp [isAssignFor, h0, h2, h3, c2]
        rw [List.filter_cons_of_neg this]
    · rw [if_neg c0, ih _ hrest]
      have : ¬ isAssignFor shardID l = true := by simp [isAssignFor, h0, h2, h3, c0]
      rw [List.filter_cons_of_neg this]

/-- The outer loop of `GetAssignInstructionFromBeaconBlock` on blocks whose
instructions have at least four fields. -/
theorem assign_blocks_loop (shardID : Nat) :
    ∀ (bs : List BeaconBlock) (acc : List (List String)),
      (∀ b ∈ bs, ∀ l ∈ b.Instructions, 4 ≤ l.length) →
      GetAssignInstructionFromBeaconBlock.blocks shardID bs acc
        = .ok (acc ++ (bs.flatMap fun b => b.Instructions).filter (isAssignFor shardID)) := by
  intro bs
  induction bs with
  | nil => intro acc _; simp [GetAssignInstructionFromBeaconBlock.blocks]
  | cons b rest ih =>
    intro acc h
    unfold GetAssignInstructionFromBeaconBlock.blocks
    rw [assign_instructions_loop shardID _ _ (h b (List.mem_cons_self _ _))]
    simp only
    rw [ih _ (fun x hx => h x (List.mem_cons_of_mem _ hx))]
    simp [List.flatMap_cons, List.filter_append, List.append_assoc]

/-- The first input coin key of a transaction whose proof has an input coin. -/
theorem firstInputCoinKey_some {Hash : Type} (tx : Transaction Hash) (p : PaymentProof)
    (c : InputCoin) (cs : List InputCoin) (hp : tx.Proof = some p) (hc : p.InputCoins = c :: cs) :
    firstInputCoinKey tx = some c.PublicKey := by
  simp [firstInputCoinKey, hp, hc]

/-- The key loop of `CreateShardInstructionsFromTransactionAndIns` on a list
whose staking transactions all have a first input coin: it returns the two
key lists, extended by the keys of the shard-staking and of the
beacon-staking transactions in order. -/
theorem stake_keys_loop {Hash : Type} (ins : InsLib)
    (hne : ins.ShardStakingMeta ≠ ins.BeaconStakingMeta) :
    ∀ (txs : List (Transaction Hash)) (s b : List String),
      (∀ tx ∈ txs, tx.MetadataType = ins.ShardStakingMeta ∨
          tx.MetadataType = ins.BeaconStakingMeta →
        ∃ p c cs, tx.Proof = some p ∧ p.InputCoins = c :: cs) →
      CreateShardInstructionsFromTransactionAndIns.keys ins txs s b
        = .ok (s ++ shardStakeKeys ins txs, b ++ beaconStakeKeys ins txs) := by
  intro txs
  induction txs with
  | nil =>
    intro s b _
    simp [CreateShardInstructionsFromTransactionAndIns.keys, shardStakeKeys, beaconStakeKeys]
  | cons tx rest ih =>
    intro s b h
    have hrest : ∀ t ∈ rest, t.MetadataType = ins.ShardStakingMeta ∨
        t.MetadataType = ins.BeaconStakingMeta →
        ∃ p c cs, t.Proof = some p ∧ p.InputCoins = c :: cs :=
      fun t ht => h t (List.mem_cons_of_mem _ ht)
    unfold CreateShardInstructionsFromTransactionAndIns.keys
    by_cases hs : tx.MetadataType = ins.ShardStakingMeta
    · obtain ⟨p, c, cs, hp, hc⟩ := h tx (List.mem_cons_self _ _) (Or.inl hs)
      have hk := firstInputCoinKey_some tx p c cs hp hc
      have hnb : tx.MetadataType ≠ ins.BeaconStakingMeta := fun e => hne (hs ▸ e)
      rw [if_pos hs]
      simp only [hk]
      rw [ih _ _ hrest]
      simp [shardStakeKeys, beaconStakeKeys, List.filterMap_cons, hs, hne, stakeKeyOf, hk]
    · rw [if_neg hs]
      by_cases hb : tx.MetadataType = ins.BeaconStakingMeta
      · obtain ⟨p, c, cs, hp, hc⟩ := h tx (List.mem_cons_self _ _) (Or.inr hb)
        have hk := firstInputCoinKey_some tx p c cs hp hc
        rw [if_pos hb]
        simp only [hk]
        rw [ih _ _ hrest]
        simp [shardStakeKeys, beaconStakeKeys, List.filterMap_cons, hb, Ne.symm hne, stakeKeyOf, hk]
      · rw [if_neg hb, ih _ _ hrest]
        simp [shardStakeKeys, beaconStakeKeys, List.filterMap_cons, hs, hb]

/-- Every staking transaction with a first input coin contributes one key, so
the key list of a kind is empty exactly when no transaction is of that kind. -/
theorem stake_keys_empty_iff {Hash : Type} (ins : InsLib) (kind : Nat) :
    ∀ (txs : List (Transaction Hash)),
      (∀ tx ∈ txs, tx.MetadataType = kind → ∃ p c cs, tx.Proof = some p ∧ p.InputCoins = c :: cs) →
      ((txs.filterMap fun tx => if tx.MetadataType = kind then stakeKeyOf ins tx else none) ≠ []
        ↔ txs.any (fun tx => decide (tx.MetadataType = kind)) = true) := by
  intro txs
  induction txs with
  | nil => intro _; simp
  | cons tx rest ih =>
    intro h
    have hrest := ih (fun t ht => h t (List.mem_cons_of_mem _ ht))
    by_cases hm : tx.MetadataType = kind
    · obtain ⟨p, c, cs, hp, hc⟩ := h tx (List.mem_cons_self _ _) hm
      have hk := firstInputCoinKey_some tx p c cs hp hc
      simp [List.filterMap_cons, hm, stakeKeyOf, hk]
    · simp only [List.filterMap_cons, hm, if_false, List.any_cons, decide_False, Bool.false_or]
      exact hrest

/-- The sample collaborator keeps the committee size. -/
theorem sampleSwapValidator_keeps_size : SwapValidatorKeepsSize sampleSwapValidator := by
  intro pending committee committeeSize offset np nc sw ad h
  unfold sampleSwapValidator at h
  split at h
  · rename_i hc
    obtain ⟨h1, h2, h3, h4⟩ := hc
    simp only [Prod.mk.injEq] at h
    obtain ⟨_, hnc, _⟩ := h
    rw [← hnc, ← h4]
    simp only [List.length_append, List.length_drop, List.length_take]
    omega
  · simp at h

/-- An instruction is read without failure exactly when it is readable: the
three reads of `GetAssignInstructionFromBeaconBlock` on one instruction. -/
theorem readableInstruction_iff (l : List String) :
    readableInstruction l ↔
      ∃ l0, l[0]? = some l0 ∧
        (l0 = "assign" → ∃ l2, l[2]? = some l2 ∧ (l2 = "shard" → ∃ l3, l[3]? = some l3)) := by
  constructor
  · rintro ⟨hne, h3, h4⟩
    have hpos : 0 < l.length := List.length_pos.mpr hne
    refine ⟨l[0], List.getElem?_eq_getElem hpos, ?_⟩
    intro h0
    have e0 : l[0]? = some "assign" := by rw [List.getElem?_eq_getElem hpos, h0]
    have hl3 := h3 e0
    refine ⟨l[2], List.getElem?_eq_getElem (by omega), ?_⟩
    intro h2
    have e2 : l[2]? = some "shard" := by rw [List.getElem?_eq_getElem (by omega), h2]
    have hl4 := h4 e0 e2
    exact ⟨l[3], List.getElem?_eq_getElem (by omega)⟩
  · rintro ⟨l0, h0, h⟩
    refine ⟨?_, ?_, ?_⟩
    · intro hnil
      subst hnil
      simp at h0
    · intro e0
      rw [h0] at e0
      obtain ⟨l2, h2, _⟩ := h (Option.some.inj e0)
      have := (List.getElem?_eq_some_iff.mp h2).1
      omega
    · intro e0 e2
      rw [h0] at e0
      obtain ⟨l2, h2, h3⟩ := h (Option.some.inj e0)
      rw [h2] at e2
      obtain ⟨l3, h3⟩ := h3 (Option.some.inj e2)
      have := (List.getElem?_eq_some_iff.mp h3).1
      omega

/-- The inner loop of `GetAssignInstructionFromBeaconBlock` returns when every
instruction is readable and stops with an index out of range otherwise. -/
theorem assign_instructions_run (shardID : Nat) :
    ∀ (ls acc : List (List String)),
      ((∀ l ∈ ls, readableInstruction l) ∧
        ∃ r, GetAssignInstructionFromBeaconBlock.instructions shardID ls acc = .ok r) ∨
      (¬ (∀ l ∈ ls, readableInstruction l) ∧
        GetAssignInstructionFromBeaconBlock.instructions shardID ls acc = .outOfRange) := by
  intro ls
  induction ls with
  | nil =>
    intro acc
    exact Or.inl ⟨by simp, acc, by simp [GetAssignInstructionFromBeaconBlock.instructions]⟩
  | cons l rest ih =>
    intro acc
    have hbad : ¬ readableInstruction l →
        ¬ (∀ x ∈ l :: rest, readableInstruction x) :=
      fun hn hall => hn (hall l (List.mem_cons_self _ _))
    have hgood : readableInstruction l → ∀ acc2,
        GetAssignInstructionFromBeaconBlock.instructions shardID (l :: rest) acc
          = GetAssignInstructionFromBeaconBlock.instructions shardID rest acc2 →
        ((∀ x ∈ l :: rest, readableInstruction x) ∧
          ∃ r, GetAssignInstructionFromBeaconBlock.instructions shardID (l :: rest) acc = .ok r) ∨
        (¬ (∀ x ∈ l :: rest, readableInstruction x) ∧
          GetAssignInstructionFromBeaconBlock.instructions shardID (l :: rest) acc
            = .outOfRange) := by
      intro hr acc2 he
      rw [he]
      rcases ih acc2 with ⟨hall, hok⟩ | ⟨hnall, hout⟩
      · refine Or.inl ⟨?_, hok⟩
        intro x hx
        rcases List.mem_cons.mp hx with rfl | hx
        · exact hr
        · exact hall x hx
      · exact Or.inr ⟨fun hall => hnall fun x hx => hall x (List.mem_cons_of_mem _ hx), hout⟩
    rcases h0 : l[0]? with _ | l0
    · refine Or.inr ⟨hbad ?_, ?_⟩
      · intro hr
        obtain ⟨l0, e, _⟩ := (readableInstruction_iff l).mp hr
        rw [h0] at e
        exact absurd e (by simp)
      · simp [GetAssignInstructionFromBeaconBlock.instructions, h0]
    · by_cases c0 : l0 = "assign"
      · rcases h2 : l[2]? with _ | l2
        · refine Or.inr ⟨hbad ?_, ?_⟩
          · intro hr
            obtain ⟨l0', e, h⟩ := (readableInstruction_iff l).mp hr
            rw [h0] at e
            obtain ⟨l2, e2, _⟩ := h ((Option.some.inj e) ▸ c0)
            rw [h2] at e2
            exact absurd e2 (by simp)
          · simp [GetAssignInstructionFromBeaconBlock.instructions, h0, h2, c0]
        · by_cases c2 : l2 = "shard"
          · rcases h3 : l[3]? with _ | l3
            · refine Or.inr ⟨hbad ?_, ?_⟩
              · intro hr
                obtain ⟨l0', e, h⟩ := (readableInstruction_iff l).mp hr
                rw [h0] at e
                obtain ⟨l2', e2, h'⟩ := h ((Option.some.inj e) ▸ c0)
                rw [h2] at e2
                obtain ⟨l3, e3⟩ := h' ((Option.some.inj e2) ▸ c2)
                rw [h3] at e3
                exact absurd e3 (by simp)
              · simp [GetAssignInstructionFromBeaconBlock.instructions, h0, h2, h3, c0, c2]
            · have hr : readableInstruction l :=
                (readableInstruction_iff l).mpr ⟨l0, h0, fun _ => ⟨l2, h2, fun _ => ⟨l3, h3⟩⟩⟩
              by_cases c3 : l3 = Itoa shardID
              · exact hgood hr (acc ++ [l]) (by
                  simp [GetAssignInstructionFromBeaconBlock.instructions, h0, h2, h3, c0, c2, c3])
              · exact hgood hr acc (by
                  simp [GetAssignInstructionFromBeaconBlock.instructions, h0, h2, h3, c0, c2, c3])
          · have hr : readableInstruction l :=
              (readableInstruction_iff l).mpr
                ⟨l0, h0, fun _ => ⟨l2, h2, fun e => absurd e c2⟩⟩
            exact hgood hr acc (by
              simp [GetAssignInstructionFromBeaconBlock.instructions, h0, h2, c0, c2])
      · have hr : readableInstruction l :=
          (readableInstruction_iff l).mpr ⟨l0, h0, fun e => absurd e c0⟩
        exact hgood hr acc (by
          simp [GetAssignInstructionFromBeaconBlock.instructions, h0, c0])

/-- The outer loop of `GetAssignInstructionFromBeaconBlock` returns when every
instruction of every block is readable and stops with an index out of range
otherwise. -/
theorem assign_blocks_run (shardID : Nat) :
    ∀ (bs : List BeaconBlock) (acc : List (List String)),
      ((∀ b ∈ bs, ∀ l ∈ b.Instructions, readableInstruction l) ∧
        ∃ r, GetAssignInstructionFromBeaconBlock.blocks shardID bs acc = .ok r) ∨
      (¬ (∀ b ∈ bs, ∀ l ∈ b.Instructions, readableInstruction l) ∧
        GetAssignInstructionFromBeaconBlock.blocks shardID bs acc = .outOfRange) := by
  intro bs
  induction bs with
  | nil =>
    intro acc
    exact Or.inl ⟨by simp, acc, by simp [GetAssignInstructionFromBeaconBlock.blocks]⟩
  | cons b rest ih =>
    intro acc
    rcases assign_instructions_run shardID b.Instructions acc with ⟨hall, r, hok⟩ | ⟨hnall, hout⟩
    · have he : GetAssignInstructionFromBeaconBlock.blocks shardID (b :: rest) acc
          = GetAssignInstructionFromBeaconBlock.blocks shardID rest r := by
        simp [GetAssignInstructionFromBeaconBlock.blocks, hok]
      rw [he]
      rcases ih r with ⟨hall2, hok2⟩ | ⟨hnall2, hout2⟩
      · refine Or.inl ⟨?_, hok2⟩
        intro x hx
        rcases List.mem_cons.mp hx with rfl | hx
        · exact hall
        · exact hall2 x hx
      · exact Or.inr ⟨fun h => hnall2 fun x hx => h x (List.mem_cons_of_mem _ hx), hout2⟩
    · refine Or.inr ⟨fun h => hnall (h b (List.mem_cons_self _ _)), ?_⟩
      simp [GetAssignInstructionFromBeaconBlock.blocks, hout]

/-- The keys of the staking transactions of one kind are the keys of the
transactions of that kind, one for each, in order. -/
theorem stake_keys_eq_map {Hash : Type} (ins : InsLib) (kind : Nat) :
    ∀ (txs : List (Transaction Hash)),
      (∀ tx ∈ txs, tx.MetadataType = kind → ∃ key, stakeKeyOf ins tx = some key) →
      (txs.filterMap fun tx => if tx.MetadataType = kind then stakeKeyOf ins tx else none).map some
        = (txs.filter fun tx => decide (tx.MetadataType = kind)).map (stakeKeyOf ins) := by
  intro txs
  induction txs with
  | nil => intro _; rfl
  | cons tx rest ih =>
    intro h
    have hrest := ih fun x hx => h x (List.mem_cons_of_mem _ hx)
    by_cases c : tx.MetadataType = kind
    · obtain ⟨key, hkey⟩ := h tx (List.mem_cons_self _ _) c
      rw [List.filterMap_cons, if_pos c, hkey]
      rw [List.filter_cons_of_pos (by simpa using c)]
      simp only [List.map_cons, hkey, hrest]
    · rw [List.filterMap_cons, if_neg c]
      rw [List.filter_cons_of_neg (by simpa using c)]
      exact hrest

/-- The key of a staking transaction with a first input coin is the encoding
of the public key of that coin. -/
theorem stakeKeyOf_some {Hash : Type} (ins : InsLib) (tx : Transaction Hash) (p : PaymentProof)
    (c : InputCoin) (cs : List InputCoin) (hp : tx.Proof = some p) (hc : p.InputCoins = c :: cs) :
    stakeKeyOf ins tx = some (ins.Base58CheckEncode c.PublicKey ins.ZeroByte) := by
  simp [stakeKeyOf, firstInputCoinKey, hp, hc]

/-! ## The range fetch -/

/-- A successful iteration: the three steps succeeded, and the iteration made
the lookup and the fetch. -/
theorem body_ok_cases {Hash E J : Type} (db : BeaconStore Hash E J) (i : Nat)
    (beaconBlock : BeaconBlock) (made : List (StoreAccess Hash))
    (h : FetchBeaconBlockFromHeight.body db i = .ok (beaconBlock, made)) :
    ∃ hash bytes, db.GetBeaconBlockHashByIndex i = .ok hash ∧
      db.FetchBeaconBlock hash = .ok bytes ∧ db.Unmarshal bytes = .ok beaconBlock ∧
      made = [.GetBeaconBlockHashByIndex i, .FetchBeaconBlock hash] := by
  unfold FetchBeaconBlockFromHeight.body at h
  rcases h1 : db.GetBeaconBlockHashByIndex i with e | hash
  · simp [h1] at h
  · rcases h2 : db.FetchBeaconBlock hash with e | bytes
    · simp [h1, h2] at h
    · rcases h3 : db.Unmarshal bytes with e | b
      · simp [h1, h2, h3] at h
      · simp only [h1, h2, h3, Except.ok.injEq, Prod.mk.injEq] at h
        exact ⟨hash, bytes, rfl, h2, by rw [h3, h.1], h.2.symm⟩

/-- A failed iteration: the step that failed, the error returned and the
calls made. -/
theorem body_error_cases {Hash E J : Type} (db : BeaconStore Hash E J) (i : Nat)
    (err : FetchError E J) (made : List (StoreAccess Hash))
    (h : FetchBeaconBlockFromHeight.body db i = .error (err, made)) :
    (∃ e, db.GetBeaconBlockHashByIndex i = .error e ∧ err = .storage e ∧
      made = [.GetBeaconBlockHashByIndex i]) ∨
    (∃ hash e, db.GetBeaconBlockHashByIndex i = .ok hash ∧
      db.FetchBeaconBlock hash = .error e ∧ err = .storage e ∧
      made = [.GetBeaconBlockHashByIndex i, .FetchBeaconBlock hash]) ∨
    (∃ hash bytes e, db.GetBeaconBlockHashByIndex i = .ok hash ∧
      db.FetchBeaconBlock hash = .ok bytes ∧ db.Unmarshal bytes = .error e ∧
      err = .UnmashallJsonBlockError e ∧
      made = [.GetBeaconBlockHashByIndex i, .FetchBeaconBlock hash]) := by
  unfold FetchBeaconBlockFromHeight.body at h
  rcases h1 : db.GetBeaconBlockHashByIndex i with e | hash
  · simp only [h1, Except.error.injEq, Prod.mk.injEq] at h
    exact Or.inl ⟨e, rfl, h.1.symm, h.2.symm⟩
  · rcases h2 : db.FetchBeaconBlock hash with e | bytes
    · simp only [h1, h2, Except.error.injEq, Prod.mk.injEq] at h
      exact Or.inr (Or.inl ⟨hash, e, rfl, h2, h.1.symm, h.2.symm⟩)
    · rcases h3 : db.Unmarshal bytes with e | b
      · simp only [h1, h2, h3, Except.error.injEq, Prod.mk.injEq] at h
        exact Or.inr (Or.inr ⟨hash, bytes, e, rfl, h2, h3, h.1.symm, h.2.symm⟩)
      · simp [h1, h2, h3] at h

/-- Every iteration looks up its own height, once, and no other. -/
theorem callsAt_heights {Hash E J : Type} (db : BeaconStore Hash E J) (i : Nat) :
    (callsAt db i).filterMap lookedUpHeight = [i] := by
  unfold callsAt
  rcases h : FetchBeaconBlockFromHeight.body db i with ⟨err, made⟩ | ⟨b, made⟩
  · rcases body_error_cases db i err made h with ⟨e, _, _, hm⟩ | ⟨hash, e, _, _, _, hm⟩ |
      ⟨hash, bytes, e, _, _, _, _, hm⟩ <;> simp [hm, lookedUpHeight]
  · obtain ⟨hash, bytes, _, _, _, hm⟩ := body_ok_cases db i b made h
    simp [hm, lookedUpHeight]

/-- The heights looked up by the iterations of a range of heights are the
heights of the range, in order. -/
theorem calls_heights_range {Hash E J : Type} (db : BeaconStore Hash E J) :
    ∀ (n i : Nat),
      ((List.range' i n).flatMap (callsAt db)).filterMap lookedUpHeight = List.range' i n := by
  intro n
  induction n with
  | zero => intro i; rfl
  | succ n ih =>
    intro i
    rw [List.range'_succ, List.flatMap_cons, List.filterMap_append, callsAt_heights, ih]
    rfl

/-- The loop of `FetchBeaconBlockFromHeight` over `n` heights at which the
three steps succeed: `n` iterations append the decoded blocks and the calls
of these heights. -/
theorem fetch_loop_prefix {Hash E J : Type} (db : BeaconStore Hash E J) (to_ : Nat) :
    ∀ (n i fuel : Nat) (blocks : List BeaconBlock) (calls : List (StoreAccess Hash)),
      i + n ≤ to_ + 1 → i + n < 2 ^ 64 →
      (∀ j, j < n → ∃ r, FetchBeaconBlockFromHeight.body db (i + j) = .ok r) →
      FetchBeaconBlockFromHeight.loop db to_ (fuel + n) i blocks calls
        = FetchBeaconBlockFromHeight.loop db to_ fuel (i + n)
          (blocks ++ (List.range' i n).filterMap (decodedBlock db))
          (calls ++ (List.range' i n).flatMap (callsAt db)) := by
  intro n
  induction n with
  | zero => intro i fuel blocks calls _ _ _; simp
  | succ n ih =>
    intro i fuel blocks calls hle h64 hgood
    obtain ⟨⟨b, made⟩, hb⟩ := hgood 0 (by omega)
    rw [Nat.add_zero] at hb
    have hi : i ≤ to_ := by omega
    have hmod : (i + 1) % 2 ^ 64 = i + 1 := Nat.mod_eq_of_lt (by omega)
    have hstep : FetchBeaconBlockFromHeight.loop db to_ (fuel + (n + 1)) i blocks calls
        = FetchBeaconBlockFromHeight.loop db to_ (fuel + n) (i + 1) (blocks ++ [b])
          (calls ++ made) := by
      rw [show fuel + (n + 1) = (fuel + n) + 1 by omega]
      rw [FetchBeaconBlockFromHeight.loop, if_pos hi, hb, hmod]
    have hrec := ih (i + 1) fuel (blocks ++ [b]) (calls ++ made) (by omega) (by omega) (by
      intro j hj
      have := hgood (j + 1) (by omega)
      rwa [show i + (j + 1) = i + 1 + j by omega] at this)
    have hd : decodedBlock db i = some b := by simp [decodedBlock, hb]
    have hc : callsAt db i = made := by simp [callsAt, hb]
    rw [hstep, hrec, List.range'_succ, List.filterMap_cons, hd, List.flatMap_cons, hc]
    simp only [List.append_assoc, List.singleton_append]
    rw [show i + 1 + n = i + (n + 1) by omega]

/-- The blocks decoded over a range of heights at which the three steps
succeed: one block for each height. -/
theorem decoded_range {Hash E J : Type} (db : BeaconStore Hash E J) :
    ∀ (n i : Nat), (∀ j, j < n → ∃ r, FetchBeaconBlockFromHeight.body db (i + j) = .ok r) →
      ((List.range' i n).filterMap (decodedBlock db)).map some
        = (List.range' i n).map (decodedBlock db) := by
  intro n
  induction n with
  | zero => intro i _; rfl
  | succ n ih =>
    intro i hgood
    obtain ⟨⟨b, made⟩, hb⟩ := hgood 0 (by omega)
    rw [Nat.add_zero] at hb
    have hd : decodedBlock db i = some b := by simp [decodedBlock, hb]
    have hrec := ih (i + 1) (by
      intro j hj
      have := hgood (j + 1) (by omega)
      rwa [show i + (j + 1) = i + 1 + j by omega] at this)
    rw [List.range'_succ, List.filterMap_cons, hd, List.map_cons, List.map_cons, hrec, hd]

/-- With `to_` the largest `uint64` and a store that succeeds at every height,
the loop never returns: the counter wraps to 0 and the test `i <= to` holds
at every iteration, whatever the budget. -/
theorem fetch_loop_max {Hash E J : Type} (db : BeaconStore Hash E J) (hall : db.AllSucceed) :
    ∀ (fuel i : Nat) (blocks : List BeaconBlock) (calls : List (StoreAccess Hash)),
      i < 2 ^ 64 →
      FetchBeaconBlockFromHeight.loop db (2 ^ 64 - 1) fuel i blocks calls = .outOfFuel := by
  intro fuel
  induction fuel with
  | zero => intro i blocks calls _; rfl
  | succ fuel ih =>
    intro i blocks calls hi
    obtain ⟨⟨b, made⟩, hb⟩ := hall i hi
    rw [FetchBeaconBlockFromHeight.loop, if_pos (by omega), hb]
    exact ih _ _ _ (Nat.mod_lt _ (by positivity))

/-- The sample store in which every step succeeds. -/
theorem totalStore_all_succeed : totalStore.AllSucceed := by
  intro i _
  exact ⟨_, rfl⟩

/-! ## The destination shards -/

/-- Setting an entry of the byte map to 1 marks that entry and keeps the
others. -/
theorem set_one_marks (bm : List Nat) (idx k : Nat) (hidx : idx < bm.length) :
    (bm.set idx 1)[k]? = some 1 ↔ bm[k]? = some 1 ∨ k = idx := by
  rw [List.getElem?_set]
  by_cases c : idx = k
  · subst c
    simp [hidx]
  · rw [if_neg c]
    constructor
    · intro h; exact Or.inl h
    · rintro (h | h)
      · exact h
      · exact absurd h.symm c

/-- The coin loop of `CreateCrossShardByteArray` returns and marks the
destinations of the coins. -/
theorem byteArray_coins {Hash : Type} (lib : Lib Hash) :
    ∀ (cs : List OutputCoin) (bm : List Nat),
      (∀ b, lib.GetShardIDFromLastByte b < bm.length) →
      ∃ bm1, CreateCrossShardByteArray.coins lib cs bm = .ok bm1 ∧ bm1.length = bm.length ∧
        ∀ k, bm1[k]? = some 1 ↔
          bm[k]? = some 1 ∨ k ∈ cs.map fun c => routeTwice lib c.PubKeyLastByte := by
  intro cs
  induction cs with
  | nil => intro bm _; exact ⟨bm, rfl, rfl, by simp⟩
  | cons c rest ih =>
    intro bm hroute
    have hidx := hroute (lib.GetShardIDFromLastByte c.PubKeyLastByte)
    obtain ⟨bm1, h1, h2, h3⟩ := ih
      (bm.set (lib.GetShardIDFromLastByte (lib.GetShardIDFromLastByte c.PubKeyLastByte)) 1)
      (by rw [List.length_set]; exact hroute)
    refine ⟨bm1, ?_, by rw [h2, List.length_set], ?_⟩
    · rw [CreateCrossShardByteArray.coins]
      simp only [if_pos hidx]
      exact h1
    · intro k
      rw [h3 k, set_one_marks bm _ k hidx]
      simp only [List.map_cons, List.mem_cons, routeTwice]
      tauto

/-- The coins of an optional proof are marked. -/
theorem byteArray_proofCoins {Hash : Type} (lib : Lib Hash) (proof : Option PaymentProof)
    (bm : List Nat) (hroute : ∀ b, lib.GetShardIDFromLastByte b < bm.length) :
    ∃ bm1, CreateCrossShardByteArray.proofCoins lib proof bm = .ok bm1 ∧
      bm1.length = bm.length ∧
      ∀ k, bm1[k]? = some 1 ↔
        bm[k]? = some 1 ∨
          k ∈ (proofOutputCoins proof).map fun c => routeTwice lib c.PubKeyLastByte := by
  rcases proof with _ | p
  · exact ⟨bm, rfl, rfl, by simp [proofOutputCoins]⟩
  · exact byteArray_coins lib p.OutputCoins bm hroute

/-- The vout loop of `CreateCrossShardByteArray` returns on vouts with a
non-empty `Pk` and marks their destinations. -/
theorem byteArray_vouts {Hash : Type} (lib : Lib Hash) :
    ∀ (vs : List TxTokenVout) (bm : List Nat),
      (∀ b, lib.GetShardIDFromLastByte b < bm.length) → (∀ v ∈ vs, v.Pk ≠ []) →
      ∃ bm1, CreateCrossShardByteArray.vouts lib vs bm = .ok bm1 ∧ bm1.length = bm.length ∧
        ∀ k, bm1[k]? = some 1 ↔
          bm[k]? = some 1 ∨ k ∈ vs.filterMap fun v => v.Pk.getLast?.map (routeTwice lib) := by
  intro vs
  induction vs with
  | nil => intro bm _ _; exact ⟨bm, rfl, rfl, by simp⟩
  | cons v rest ih =>
    intro bm hroute hpk
    have hne := hpk v (List.mem_cons_self _ _)
    obtain ⟨b, hb⟩ : ∃ b, v.Pk.getLast? = some b :=
      ⟨v.Pk.getLast hne, List.getLast?_eq_getLast _ hne⟩
    have hidx := hroute (lib.GetShardIDFromLastByte b)
    obtain ⟨bm1, h1, h2, h3⟩ := ih
      (bm.set (lib.GetShardIDFromLastByte (lib.GetShardIDFromLastByte b)) 1)
      (by rw [List.length_set]; exact hroute) (fun w hw => hpk w (List.mem_cons_of_mem _ hw))
    refine ⟨bm1, ?_, by rw [h2, List.length_set], ?_⟩
    · rw [CreateCrossShardByteArray.vouts]
      simp only [hb, if_pos hidx]
      exact h1
    · intro k
      rw [h3 k, set_one_marks bm _ k hidx]
      simp only [List.filterMap_cons, hb, Option.map_some', List.mem_cons, routeTwice]
      tauto

/-- The transaction loop of `CreateCrossShardByteArray` returns and marks the
destinations of the batch. -/
theorem byteArray_txs {Hash : Type} (lib : Lib Hash) :
    ∀ (txs : List (Transaction Hash)) (bm : List Nat),
      (∀ b, lib.GetShardIDFromLastByte b < bm.length) →
      (∀ tx ∈ txs, tx.Type_ = .TxCustomTokenType → ∀ v ∈ tx.TxTokenData.Vouts, v.Pk ≠ []) →
      ∃ bm1, CreateCrossShardByteArray.txs lib txs bm = .ok bm1 ∧ bm1.length = bm.length ∧
        ∀ k, bm1[k]? = some 1 ↔ bm[k]? = some 1 ∨ k ∈ crossShardDestinations lib txs := by
  intro txs
  induction txs with
  | nil => intro bm _ _; exact ⟨bm, rfl, rfl, by simp [crossShardDestinations]⟩
  | cons tx rest ih =>
    intro bm hroute hpk
    have hrest : ∀ tx ∈ rest, tx.Type_ = .TxCustomTokenType →
        ∀ v ∈ tx.TxTokenData.Vouts, v.Pk ≠ [] :=
      fun x hx => hpk x (List.mem_cons_of_mem _ hx)
    have hstep : ∀ (ds : List Nat) (bm0 : List Nat),
        bm0.length = bm.length → (∀ k, bm0[k]? = some 1 ↔ bm[k]? = some 1 ∨ k ∈ ds) →
        crossShardDestinations lib (tx :: rest) = ds ++ crossShardDestinations lib rest →
        CreateCrossShardByteArray.txs lib (tx :: rest) bm
          = CreateCrossShardByteArray.txs lib rest bm0 →
        ∃ bm1, CreateCrossShardByteArray.txs lib (tx :: rest) bm = .ok bm1 ∧
          bm1.length = bm.length ∧
          ∀ k, bm1[k]? = some 1 ↔
            bm[k]? = some 1 ∨ k ∈ crossShardDestinations lib (tx :: rest) := by
      intro ds bm0 hl hm hd he
      obtain ⟨bm1, h1, h2, h3⟩ := ih bm0 (by rw [hl]; exact hroute) hrest
      refine ⟨bm1, by rw [he]; exact h1, by rw [h2, hl], ?_⟩
      intro k
      rw [h3 k, hm k, hd, List.mem_append]
      tauto
    rcases ht : tx.Type_ with _ | _ | _ | _
    · obtain ⟨bm0, e1, e2, e3⟩ := byteArray_proofCoins lib tx.Proof bm hroute
      exact hstep _ bm0 e2 e3 (by simp [crossShardDestinations, ht])
        (by rw [CreateCrossShardByteArray.txs]; simp only [ht, e1])
    · obtain ⟨bm0, e1, e2, e3⟩ := byteArray_proofCoins lib tx.Proof bm hroute
      exact hstep _ bm0 e2 e3 (by simp [crossShardDestinations, ht])
        (by rw [CreateCrossShardByteArray.txs]; simp only [ht, e1])
    · obtain ⟨bm0, e1, e2, e3⟩ := byteArray_vouts lib tx.TxTokenData.Vouts bm hroute
        (hpk tx (List.mem_cons_self _ _) ht)
      exact hstep _ bm0 e2 e3 (by simp [crossShardDestinations, ht])
        (by rw [CreateCrossShardByteArray.txs]; simp only [ht, e1])
    · obtain ⟨bm0, e1, e2, e3⟩ := byteArray_proofCoins lib tx.TxTokenPrivacyProof bm hroute
      exact hstep _ bm0 e2 e3 (by simp [crossShardDestinations, ht])
        (by rw [CreateCrossShardByteArray.txs]; simp only [ht, e1])

/-- Every destination of a batch is a result of the router. -/
theorem destinations_routed {Hash : Type} (lib : Lib Hash) (txs : List (Transaction Hash))
    (k : Nat) (hk : k ∈ crossShardDestinations lib txs) :
    ∃ b, k = lib.GetShardIDFromLastByte b := by
  unfold crossShardDestinations at hk
  obtain ⟨tx, _, hk⟩ := List.mem_flatMap.mp hk
  rcases ht : tx.Type_ with _ | _ | _ | _ <;> simp only [ht] at hk
  · obtain ⟨c, _, rfl⟩ := List.mem_map.mp hk
    exact ⟨_, rfl⟩
  · obtain ⟨c, _, rfl⟩ := List.mem_map.mp hk
    exact ⟨_, rfl⟩
  · obtain ⟨v, _, hv⟩ := List.mem_filterMap.mp hk
    rcases hb : v.Pk.getLast? with _ | b
    · simp [hb] at hv
    · simp only [hb, Option.map_some', Option.some.injEq] at hv
      exact ⟨_, hv.symm⟩
  · obtain ⟨c, _, rfl⟩ := List.mem_map.mp hk
    exact ⟨_, rfl⟩

/-- The collecting loop of `CreateCrossShardByteArray` on a byte map whose
marked entries are below 256: the marked indices other than `fromShardID`,
in ascending order. -/
theorem collect_eq_filter (bm : List Nat) (fromShardID : Nat)
    (hbyte : ∀ k, bm[k]? = some 1 → k < 256) :
    CreateCrossShardByteArray.collect bm fromShardID
      = (List.range bm.length).filter fun k => decide (bm[k]? = some 1 ∧ k ≠ fromShardID) := by
  unfold CreateCrossShardByteArray.collect
  generalize List.range bm.length = ks
  induction ks with
  | nil => rfl
  | cons k rest ih =>
    by_cases c : bm[k]? = some 1 ∧ k ≠ fromShardID
    · rw [List.filterMap_cons, if_pos c, List.filter_cons_of_pos (by simpa using c), ih,
        Nat.mod_eq_of_lt (hbyte k c.1)]
    · rw [List.filterMap_cons, if_neg c, List.filter_cons_of_neg (by simpa using c), ih]

/-! ## Contents of the token buckets -/

/-- Extending a bucket twice is extending it by the two lists of vouts. -/
theorem extendBucket_twice {Hash : Type} (lib : Lib Hash) (o : Option (TxTokenData Hash))
    (td : TxTokenData Hash) (a b : List TxTokenVout) :
    extendBucket lib (some (extendBucket lib o td a)) td b = extendBucket lib o td (a ++ b) := by
  rcases o with _ | e <;> simp [extendBucket, List.append_assoc]

/-- The bucket of a token in a map whose entries are updated without change of
key. -/
theorem bucketAt_map {Hash : Type} [DecidableEq Hash] (m : TokenMap Hash) (t : Hash)
    (f : Hash × TxTokenData Hash → Hash × TxTokenData Hash) (hf : ∀ e, (f e).1 = e.1) :
    bucketAt (m.map f) t = (m.find? fun e => decide (e.1 = t)).map fun e => (f e).2 := by
  unfold bucketAt
  induction m with
  | nil => rfl
  | cons e rest ih =>
    by_cases c : e.1 = t
    · simp [List.find?_cons, hf, c]
    · simp only [List.map_cons, List.find?_cons, hf, c, decide_False]
      exact ih

/-- A token without an entry has no bucket. -/
theorem bucketAt_absent {Hash : Type} [DecidableEq Hash] (m : TokenMap Hash) (t : Hash)
    (h : m.any (fun e => decide (e.1 = t)) = false) : bucketAt m t = none := by
  unfold bucketAt
  rw [Option.map_eq_none', List.find?_eq_none]
  intro e he
  have := List.any_eq_false.mp h e he
  simpa using this

/-- The entry found for a token has that token as key. -/
theorem find_key {Hash : Type} [DecidableEq Hash] (m : TokenMap Hash) (t : Hash)
    (x : Hash × TxTokenData Hash) (h : m.find? (fun e => decide (e.1 = t)) = some x) :
    x.1 = t := by
  have := List.find?_some h
  simpa using this

/-- A token with an entry has a bucket. -/
theorem bucketAt_present {Hash : Type} [DecidableEq Hash] (m : TokenMap Hash) (t : Hash)
    (h : m.any (fun e => decide (e.1 = t)) = true) :
    ∃ x, m.find? (fun e => decide (e.1 = t)) = some x := by
  obtain ⟨e, he, hk⟩ := List.any_eq_true.mp h
  cases hf : m.find? (fun e => decide (e.1 = t)) with
  | none =>
    rw [List.find?_eq_none] at hf
    exact absurd hk (hf e he)
  | some x => exact ⟨x, rfl⟩

/-- The buckets of a map after a vout has been added: the bucket of the
token of the transaction is extended by the vout, the others are kept. -/
theorem bucketAt_addVout {Hash : Type} [DecidableEq Hash] (lib : Lib Hash) (m : TokenMap Hash)
    (td : TxTokenData Hash) (v : TxTokenVout) (t : Hash) :
    bucketAt (addVout lib m td v) t
      = if td.PropertyID = t then some (extendBucket lib (bucketAt m t) td [v])
        else bucketAt m t := by
  have hkey : ∀ e : Hash × TxTokenData Hash,
      (if e.1 = td.PropertyID then (e.1, { e.2 with Vouts := e.2.Vouts ++ [v] }) else e).1
        = e.1 := by
    intro e
    by_cases c : e.1 = td.PropertyID <;> simp [c]
  unfold addVout
  simp only
  rw [bucketAt_map _ t _ hkey]
  by_cases hany : m.any (fun e => decide (e.1 = td.PropertyID)) = true
  · rw [if_pos hany]
    by_cases c : td.PropertyID = t
    · subst c
      rw [if_pos rfl]
      obtain ⟨x, hf⟩ := bucketAt_present m _ hany
      have hx := find_key m _ x hf
      have hb : bucketAt m td.PropertyID = some x.2 := by
        unfold bucketAt
        rw [hf]
        rfl
      rw [hb, hf]
      simp [hx, extendBucket]
    · rw [if_neg c]
      unfold bucketAt
      cases hf : m.find? (fun e => decide (e.1 = t)) with
      | none => rfl
      | some x =>
        have hx := find_key m _ x hf
        have hne : ¬ x.1 = td.PropertyID := fun h => c (h.symm.trans hx)
        simp [hne]
  · have hany2 : m.any (fun e => decide (e.1 = td.PropertyID)) = false :=
      (Bool.not_eq_true _).mp hany
    rw [if_neg hany]
    by_cases c : td.PropertyID = t
    · subst c
      rw [if_pos rfl, bucketAt_absent m _ hany2]
      have hnone : m.find? (fun e => decide (e.1 = td.PropertyID)) = none := by
        rw [List.find?_eq_none]
        intro e he
        have := List.any_eq_false.mp hany2 e he
        simpa using this
      rw [List.find?_append, hnone]
      simp [extendBucket, cloneTxTokenDataForCrossShard]
    · rw [if_neg c]
      unfold bucketAt
      rw [List.find?_append]
      cases hf : m.find? (fun e => decide (e.1 = t)) with
      | none => simp [c]
      | some x =>
        have hx := find_key m _ x hf
        have hne : ¬ x.1 = td.PropertyID := fun h => c (h.symm.trans hx)
        simp [hne]

/-- The buckets after the vout loop of `getTxTokenDataCrossShard`: the bucket
of the token of the transaction is extended by the vouts routed to `s`, if
there are any, and the others are kept. -/
theorem bucketAt_single_vouts {Hash : Type} [DecidableEq Hash] (lib : Lib Hash)
    (td : TxTokenData Hash) (s : Nat) (t : Hash) :
    ∀ (vs : List TxTokenVout) (m r : TokenMap Hash),
      getTxTokenDataCrossShard.vouts lib td s vs m = .ok r →
      bucketAt r t
        = if td.PropertyID = t ∧ routedVouts lib s vs ≠ [] then
            some (extendBucket lib (bucketAt m t) td (routedVouts lib s vs))
          else bucketAt m t := by
  intro vs
  induction vs with
  | nil =>
    intro m r hr
    simp only [getTxTokenDataCrossShard.vouts, Run.ok.injEq] at hr
    subst hr
    simp [routedVouts]
  | cons v rest ih =>
    intro m r hr
    unfold getTxTokenDataCrossShard.vouts at hr
    cases hl : v.Pk.getLast? with
    | none => simp [hl] at hr
    | some b =>
      simp only [hl] at hr
      by_cases hb : lib.GetShardIDFromLastByte b = s
      · rw [if_pos hb] at hr
        have hrv : routedVouts lib s (v :: rest) = v :: routedVouts lib s rest := by
          simp [routedVouts, hl, hb]
        rw [ih _ _ hr, bucketAt_addVout, hrv]
        by_cases c : td.PropertyID = t
        · by_cases c2 : routedVouts lib s rest = []
          · simp [c, c2]
          · simp only [c, c2, if_true, true_and, ne_eq, not_false_eq_true, extendBucket_twice,
              List.singleton_append, reduceCtorEq]
        · simp [c]
      · rw [if_neg hb] at hr
        have hrv : routedVouts lib s (v :: rest) = routedVouts lib s rest := by
          simp [routedVouts, hl, hb]
        rw [ih _ _ hr, hrv]

/-- The buckets after the transaction loop of `getTxTokenDataCrossShard`: the
bucket of each token is the result of the steps of the transactions. -/
theorem bucketAt_single_txs {Hash : Type} [DecidableEq Hash] (lib : Lib Hash) (s : Nat)
    (t : Hash) :
    ∀ (txs : List (Transaction Hash)) (m r : TokenMap Hash),
      getTxTokenDataCrossShard.txs lib s txs m = .ok r →
      bucketAt r t = txs.foldl (bucketStep lib s t) (bucketAt m t) := by
  intro txs
  induction txs with
  | nil =>
    intro m r hr
    simp only [getTxTokenDataCrossShard.txs, Run.ok.injEq] at hr
    subst hr
    rfl
  | cons tx rest ih =>
    intro m r hr
    unfold getTxTokenDataCrossShard.txs at hr
    by_cases ht : tx.Type_ = .TxCustomTokenType
    · rw [if_pos ht] at hr
      cases hv : getTxTokenDataCrossShard.vouts lib tx.TxTokenData s tx.TxTokenData.Vouts m with
      | ok m1 =>
        simp only [hv] at hr
        rw [ih _ _ hr, bucketAt_single_vouts lib tx.TxTokenData s t _ _ _ hv, List.foldl_cons]
        simp [bucketStep, ht]
      | outOfRange => simp [hv] at hr
      | outOfFuel => simp [hv] at hr
    · rw [if_neg ht] at hr
      rw [ih _ _ hr, List.foldl_cons]
      simp [bucketStep, ht]

/-- The vouts of token `t` routed to `s` in a batch, by its first
transaction. -/
theorem allRoutedVouts_cons {Hash : Type} [DecidableEq Hash] (lib : Lib Hash) (s : Nat) (t : Hash)
    (tx : Transaction Hash) (rest : List (Transaction Hash)) :
    allRoutedVouts lib s t (tx :: rest)
      = (if tx.Type_ = .TxCustomTokenType ∧ tx.TxTokenData.PropertyID = t then
          routedVouts lib s tx.TxTokenData.Vouts else [])
        ++ allRoutedVouts lib s t rest := by
  unfold allRoutedVouts
  by_cases c : tx.Type_ = .TxCustomTokenType ∧ tx.TxTokenData.PropertyID = t
  · rw [List.filter_cons_of_pos (by simpa using c), List.flatMap_cons, if_pos c]
  · rw [List.filter_cons_of_neg (by simpa using c), if_neg c, List.nil_append]

/-- The steps of a batch on an existing bucket append all vouts of the token
routed to the shard. -/
theorem foldl_bucketStep_some {Hash : Type} [DecidableEq Hash] (lib : Lib Hash) (s : Nat)
    (t : Hash) :
    ∀ (txs : List (Transaction Hash)) (e : TxTokenData Hash),
      txs.foldl (bucketStep lib s t) (some e)
        = some { e with Vouts := e.Vouts ++ allRoutedVouts lib s t txs } := by
  intro txs
  induction txs with
  | nil => intro e; simp [allRoutedVouts]
  | cons tx rest ih =>
    intro e
    rw [List.foldl_cons, allRoutedVouts_cons]
    by_cases c : tx.Type_ = .TxCustomTokenType ∧ tx.TxTokenData.PropertyID = t
    · by_cases c2 : routedVouts lib s tx.TxTokenData.Vouts = []
      · simp only [bucketStep, c, c2, ne_eq, not_true_eq_false, and_false, if_false, and_self,
          if_true, List.nil_append]
        exact ih e
      · have hstep : bucketStep lib s t (some e) tx
            = some { e with Vouts := e.Vouts ++ routedVouts lib s tx.TxTokenData.Vouts } := by
          simp [bucketStep, c, c2, extendBucket]
        rw [hstep, ih, if_pos c]
        simp [List.append_assoc]
    · have hstep : bucketStep lib s t (some e) tx = some e := by
        unfold bucketStep
        rw [if_neg (fun h => c ⟨h.1, h.2.1⟩)]
      rw [hstep, ih, if_neg c, List.nil_append]

/-- The steps of a batch on an absent bucket give the bucket the claim
describes. -/
theorem foldl_bucketStep_none {Hash : Type} [DecidableEq Hash] (lib : Lib Hash) (s : Nat)
    (t : Hash) :
    ∀ (txs : List (Transaction Hash)),
      txs.foldl (bucketStep lib s t) none = expectedBucket lib s t txs := by
  intro txs
  induction txs with
  | nil => rfl
  | cons tx rest ih =>
    rw [List.foldl_cons]
    by_cases c : tx.Type_ = .TxCustomTokenType ∧ tx.TxTokenData.PropertyID = t ∧
        routedVouts lib s tx.TxTokenData.Vouts ≠ []
    · have hstep : bucketStep lib s t none tx
          = some { cloneTxTokenDataForCrossShard lib tx.TxTokenData with
              Vouts := routedVouts lib s tx.TxTokenData.Vouts } := by
        simp [bucketStep, c, extendBucket]
      have hhead : contributingTxs lib s t (tx :: rest) = tx :: contributingTxs lib s t rest := by
        unfold contributingTxs
        rw [List.filter_cons_of_pos (by simpa using c)]
      rw [hstep, foldl_bucketStep_some]
      unfold expectedBucket
      rw [hhead, allRoutedVouts_cons, if_pos ⟨c.1, c.2.1⟩]
      simp [cloneTxTokenDataForCrossShard]
    · have hstep : bucketStep lib s t none tx = none := by
        unfold bucketStep
        rw [if_neg c]
      have hhead : contributingTxs lib s t (tx :: rest) = contributingTxs lib s t rest := by
        unfold contributingTxs
        rw [List.filter_cons_of_neg (by simpa using c)]
      have hall : allRoutedVouts lib s t (tx :: rest) = allRoutedVouts lib s t rest := by
        rw [allRoutedVouts_cons]
        by_cases c1 : tx.Type_ = .TxCustomTokenType ∧ tx.TxTokenData.PropertyID = t
        · have : routedVouts lib s tx.TxTokenData.Vouts = [] := by
            by_contra h
            exact c ⟨c1.1, c1.2, h⟩
          rw [if_pos c1, this, List.nil_append]
        · rw [if_neg c1, List.nil_append]
      rw [hstep, ih]
      unfold expectedBucket
      rw [hhead, hall]

/-- In a map with distinct keys the entries of a token are its bucket. -/
theorem mem_iff_bucketAt {Hash : Type} [DecidableEq Hash] (m : TokenMap Hash)
    (hnd : (m.map Prod.fst).Nodup) (t : Hash) (e : TxTokenData Hash) :
    (t, e) ∈ m ↔ bucketAt m t = some e := by
  unfold bucketAt
  induction m with
  | nil => simp
  | cons x rest ih =>
    rw [List.map_cons, List.nodup_cons] at hnd
    by_cases c : x.1 = t
    · have hx : ∀ e2, (t, e2) ∉ rest := by
        intro e2 h2
        exact hnd.1 (List.mem_map.mpr ⟨(t, e2), h2, c.symm⟩)
      simp only [List.mem_cons, List.find?_cons, c, decide_True, Option.map_some',
        Option.some.injEq]
      constructor
      · rintro (h | h)
        · rw [← h]
        · exact absurd h (hx e)
      · intro h
        left
        rw [← h, ← c]
    · simp only [List.mem_cons, List.find?_cons, c, decide_False]
      rw [← ih hnd.2]
      constructor
      · rintro (h | h)
        · exact absurd (by rw [← h]) c
        · exact h
      · exact Or.inr

/-! ## Token buckets and the order of transactions -/

/-- The vouts of token `t` routed to `s` are the routed vouts of the
transactions that contribute to the bucket, in order. -/
theorem allRoutedVouts_eq_contributing {Hash : Type} [DecidableEq Hash] (lib : Lib Hash)
    (s : Nat) (t : Hash) :
    ∀ (txs : List (Transaction Hash)),
      allRoutedVouts lib s t txs
        = (contributingTxs lib s t txs).flatMap
          fun tx => routedVouts lib s tx.TxTokenData.Vouts := by
  intro txs
  induction txs with
  | nil => rfl
  | cons tx rest ih =>
    rw [allRoutedVouts_cons, ih]
    unfold contributingTxs
    by_cases c : tx.Type_ = .TxCustomTokenType ∧ tx.TxTokenData.PropertyID = t
    · by_cases c2 : routedVouts lib s tx.TxTokenData.Vouts = []
      · rw [if_pos c, c2, List.nil_append,
          List.filter_cons_of_neg (by simp [c2])]
      · rw [if_pos c, List.filter_cons_of_pos (by simpa using ⟨c.1, c.2, c2⟩),
          List.flatMap_cons]
    · rw [if_neg c, List.nil_append,
        List.filter_cons_of_neg (by
          simp only [decide_eq_true_eq]
          exact fun h => c ⟨h.1, h.2.1⟩)]

/-- The bucket of a token is determined by the transactions that contribute to
it, in their order. -/
theorem expectedBucket_congr {Hash : Type} [DecidableEq Hash] (lib : Lib Hash) (s : Nat)
    (t : Hash) (txs1 txs2 : List (Transaction Hash))
    (h : contributingTxs lib s t txs1 = contributingTxs lib s t txs2) :
    expectedBucket lib s t txs1 = expectedBucket lib s t txs2 := by
  unfold expectedBucket
  rw [allRoutedVouts_eq_contributing lib s t txs1, allRoutedVouts_eq_contributing lib s t txs2, h]

/-- A permutation of a list of at most one element is the list. -/
theorem perm_eq_of_length_le_one {α : Type} (l1 l2 : List α) (hp : l1.Perm l2)
    (hl : l1.length ≤ 1) : l1 = l2 := by
  rcases l1 with _ | ⟨a, _ | ⟨b, rest⟩⟩
  · exact (List.nil_perm.mp hp).symm
  · exact List.singleton_perm.mp hp
  · simp at hl

/-- The bucket of a token with at most one contributing transaction does not
depend on the order of the batch. -/
theorem expectedBucket_perm {Hash : Type} [DecidableEq Hash] (lib : Lib Hash) (s : Nat)
    (t : Hash) (txs1 txs2 : List (Transaction Hash)) (hp : txs1.Perm txs2)
    (hl : (contributingTxs lib s t txs1).length ≤ 1) :
    expectedBucket lib s t txs1 = expectedBucket lib s t txs2 :=
  expectedBucket_congr lib s t txs1 txs2
    (perm_eq_of_length_le_one _ _ (by unfold contributingTxs; exact hp.filter _) hl)

/-- Two token maps with distinct keys and the same bucket for every token hold
the same entries, up to their order. -/
theorem maps_perm_of_bucketAt {Hash : Type} [DecidableEq Hash] (m1 m2 : TokenMap Hash)
    (h1 : (m1.map Prod.fst).Nodup) (h2 : (m2.map Prod.fst).Nodup)
    (h : ∀ t, bucketAt m1 t = bucketAt m2 t) : m1.Perm m2 := by
  rw [List.perm_ext_iff_of_nodup (List.Nodup.of_map _ h1) (List.Nodup.of_map _ h2)]
  rintro ⟨t, e⟩
  rw [mem_iff_bucketAt m1 h1 t e, mem_iff_bucketAt m2 h2 t e, h t]

/-- The transactions that contribute to a bucket of shard `s` are among the
custom-token transactions with a vout routed to `s`. -/
theorem contributing_length_le {Hash : Type} [DecidableEq Hash] (lib : Lib Hash) (s : Nat)
    (t : Hash) (txs : List (Transaction Hash)) :
    (contributingTxs lib s t txs).length
      ≤ (txs.filter fun tx => decide (tx.Type_ = .TxCustomTokenType ∧
          routedVouts lib s tx.TxTokenData.Vouts ≠ [])).length := by
  unfold contributingTxs
  apply List.Sublist.length_le
  apply List.monotone_filter_right
  intro tx h
  simp only [decide_eq_true_eq] at h ⊢
  exact ⟨h.1, h.2.2⟩

/-! ## The claims -/

/-- Claim C1 (Merkle round trip).  For a row of `N = 2^k` digests with
`k ≥ 1` and an index `s < N`, `GetMerklePathCrossShard` returns a path and a
root over the Merkle data that `CreateShardTxRoot` builds from the row, and
`VerifyMerkleTree` accepts `row[s]` with that path and root for `s`. -/
theorem merkle_round_trip {Hash : Type} (lib : Lib Hash) (row : List Hash) (k s : Nat)
    (hk : row.length = 2 ^ k) (hk1 : 1 ≤ k) (hs : s < row.length) :
    ∃ path root, GetMerklePathCrossShard.fromRow lib row s = .ok (path, root) ∧
      VerifyMerkleTree lib row[s] path root s = true := by
  obtain ⟨d, path, root, _, _, hrun, hpl, hpath, _, hroot⟩ :=
    fromRow_spec lib row k hk hk1 s (by omega)
  refine ⟨path, root, hrun, ?_⟩
  have hv := verify_of_path lib row k s path root row[s] hpl
    (fun l hl => by obtain ⟨h, a1, _, a3⟩ := hpath l hl; exact ⟨h, a1, a3⟩) (by omega) hroot
    (by simp [List.getElem?_eq_getElem hs])
  simp [VerifyMerkleTree, hv]

/-- Instance of C1 on a row of four digests and index 2. -/
theorem merkle_round_trip_witness :
    ([[1], [2], [3], [4]] : List (List Nat)).length = 2 ^ 2 ∧
    ∃ path root, GetMerklePathCrossShard.fromRow toyLib [[1], [2], [3], [4]] 2 = .ok (path, root) ∧
      VerifyMerkleTree toyLib [3] path root 2 = true :=
  ⟨rfl, merkle_round_trip toyLib [[1], [2], [3], [4]] 2 2 rfl (by decide) (by decide)⟩

/-- Claim C2 fails on the code.  With four shards and the router `b % 4`:
(1) a privacy-token transaction whose proof has an output coin with last
byte 1 is selected by `getOutCoinCrossShard` for shard 1 but is not grouped
by `getCrossShardDataHash`; (2) an output coin with last byte 5 of a normal
transaction is grouped under shard 1 by `getCrossShardDataHash`, while
`getOutCoinCrossShard`, which compares the unrouted byte, does not select it
for shard 1.  In both cases the two output-coin digests of shard 1 differ. -/
theorem outcoin_digest_diverges :
    (getCrossShardDataHash.grouped toyLib [samplePrivacyTx]
        = .ok ([[], [], [], []], [[], [], [], []]) ∧
      getOutCoinCrossShard [samplePrivacyTx] 1 = [⟨1, [9]⟩] ∧
      calHashOutCoinCrossShard toyLib (getOutCoinCrossShard [samplePrivacyTx] 1)
        ≠ calHashOutCoinCrossShard toyLib []) ∧
    (getCrossShardDataHash.grouped toyLib [sampleNormalTx]
        = .ok ([[], [⟨5, [9]⟩], [], []], [[], [], [], []]) ∧
      getOutCoinCrossShard [sampleNormalTx] 1 = [] ∧
      calHashOutCoinCrossShard toyLib (getOutCoinCrossShard [sampleNormalTx] 1)
        ≠ calHashOutCoinCrossShard toyLib [⟨5, [9]⟩]) :=
  ⟨⟨rfl, by decide, by decide⟩, ⟨rfl, by decide, by decide⟩⟩

/-- Claim C3 (token half of the leaf).  Assume the string encoding of digests
is canonical (injective), the router maps into `[0, MAX_SHARD_NUMBER)` and
every token vout of a custom-token transaction has a non-empty `Pk`.  Then
the grouping pass of `getCrossShardDataHash` returns, and for every shard
`s < MAX_SHARD_NUMBER` and all enumeration orders of the two maps,
`calHashTxTokenDataHashList` of `getTxTokenDataCrossShard(batch, s)` equals
`calHashTxTokenDataHashFromMap` of the token map of shard `s`; when no vout
is routed to `s` both are the hash of the empty string. -/
theorem token_digest_agrees {Hash : Type} [DecidableEq Hash] (lib : Lib Hash)
    (order1 order2 : MapOrder Hash) (hv1 : order1.Valid) (hv2 : order2.Valid)
    (hstr : Function.Injective lib.hashString)
    (hroute : ∀ b, lib.GetShardIDFromLastByte b < lib.MAX_SHARD_NUMBER)
    (txList : List (Transaction Hash))
    (hpk : ∀ tx ∈ txList, tx.Type_ = .TxCustomTokenType → ∀ v ∈ tx.TxTokenData.Vouts, v.Pk ≠ []) :
    ∃ outCoinEachShard txTokenDataEachShard,
      getCrossShardDataHash.grouped lib txList = .ok (outCoinEachShard, txTokenDataEachShard) ∧
      ∀ s, s < lib.MAX_SHARD_NUMBER →
        ∃ list m, getTxTokenDataCrossShard lib order1 txList s = .ok list ∧
          txTokenDataEachShard[s]? = some m ∧
          calHashTxTokenDataHashList lib list = calHashTxTokenDataHashFromMap lib order2 m ∧
          (m = [] → calHashTxTokenDataHashList lib list = lib.HashH []) := by
  obtain ⟨g, hg, _, hg2⟩ := group_ok lib lib.MAX_SHARD_NUMBER hroute txList hpk
    (List.replicate lib.MAX_SHARD_NUMBER []) (List.replicate lib.MAX_SHARD_NUMBER [])
    (List.length_replicate _ _) (List.length_replicate _ _)
  refine ⟨g.1, g.2, hg, ?_⟩
  intro s hs
  have h0 : (List.replicate lib.MAX_SHARD_NUMBER ([] : TokenMap Hash))[s]? = some [] := by
    rw [List.getElem?_replicate]; simp [hs]
  obtain ⟨m, hm1, hm2⟩ := group_sim lib s txList _ _ g hg [] h0
  have hinv : MapInv m := single_txs_inv lib s txList [] m ⟨by simp, by simp⟩ hm1
  by_cases hempty : m.length = 0
  · have hnil : m = [] := List.length_eq_zero.1 hempty
    refine ⟨[], m, ?_, hm2, ?_, fun _ => rfl⟩
    · simp [getTxTokenDataCrossShard, hm1, Run.bind, hnil]
    · simp [calHashTxTokenDataHashFromMap, hnil, calHashTxTokenDataHashList]
  · refine ⟨sortByPropertyID lib (order1 m), m, ?_, hm2, ?_, fun hc => absurd (by rw [hc]; rfl) hempty⟩
    · simp [getTxTokenDataCrossShard, hm1, Run.bind, hempty]
    · have hperm : (order1 m).Perm (order2 m) := (hv1 m).trans (hv2 m).symm
      have hkeys : ((m.map Prod.snd).map fun td => lib.hashString td.PropertyID).Nodup := by
        have e : ((m.map Prod.snd).map fun td => lib.hashString td.PropertyID)
            = (m.map Prod.fst).map lib.hashString := by
          rw [List.map_map, List.map_map]
          apply List.map_congr_left
          intro e he
          simp only [Function.comp]
          rw [hinv.2 e he]
        rw [e]
        exact hinv.1.map hstr
      have hn : ((order1 m).map fun td => lib.hashString td.PropertyID).Nodup :=
        ((hv1 m).map _).nodup_iff.2 hkeys
      simp only [calHashTxTokenDataHashFromMap, if_neg hempty]
      rw [sort_unique lib _ _ hperm hn]

/-- Instance of C3 on two custom-token transactions, with two different
enumeration orders of the token maps. -/
theorem token_digest_agrees_witness :
    ∃ outCoinEachShard txTokenDataEachShard,
      getCrossShardDataHash.grouped toyLib [sampleTxA, sampleTxB]
        = .ok (outCoinEachShard, txTokenDataEachShard) ∧
      ∀ s, s < 4 →
        ∃ list m, getTxTokenDataCrossShard toyLib insertionOrder [sampleTxA, sampleTxB] s = .ok list ∧
          txTokenDataEachShard[s]? = some m ∧
          calHashTxTokenDataHashList toyLib list
            = calHashTxTokenDataHashFromMap toyLib reverseOrder m ∧
          (m = [] → calHashTxTokenDataHashList toyLib list = toyLib.HashH []) :=
  token_digest_agrees toyLib insertionOrder reverseOrder
    (fun _ => List.Perm.refl _) (fun m => List.reverse_perm (m.map Prod.snd))
    (fun _ _ h => h) (fun b => Nat.mod_lt b (by decide))
    [sampleTxA, sampleTxB] (by decide)

/-- Claim C4 (tamper sensitivity of the inclusion check).  Assume the node
hash `H(a || b)` is injective and the string encoding of digests is
canonical (injective).  For a row of `N = 2^k` digests with `k ≥ 1` and an
index `s < N`, `VerifyMerkleTree` rejects every digest other than `row[s]`
against the path and root that `GetMerklePathCrossShard` derives for `s`. -/
theorem verify_rejects_other_leaf {Hash : Type} (lib : Lib Hash)
    (hH : ∀ a b c e, hashCat lib a b = hashCat lib c e → a = c ∧ b = e)
    (hstr : Function.Injective lib.hashString)
    (row : List Hash) (k s : Nat)
    (hk : row.length = 2 ^ k) (hk1 : 1 ≤ k) (hs : s < row.length) :
    ∃ path root, GetMerklePathCrossShard.fromRow lib row s = .ok (path, root) ∧
      ∀ dg, dg ≠ row[s] → VerifyMerkleTree lib dg path root s = false := by
  obtain ⟨d, path, root, _, _, hrun, hpl, hpath, _, hroot⟩ :=
    fromRow_spec lib row k hk hk1 s (by omega)
  refine ⟨path, root, hrun, ?_⟩
  intro dg hne
  have hv := verify_of_path lib row k s path root row[s] hpl
    (fun l hl => by obtain ⟨h, a1, _, a3⟩ := hpath l hl; exact ⟨h, a1, a3⟩) (by omega) hroot
    (by simp [List.getElem?_eq_getElem hs])
  have hdiff : VerifyMerkleTree.loop lib dg s path ≠ root := by
    intro hc
    exact hne (verify_loop_inj lib hH path s dg row[s] (by rw [hc, hv]))
  have hs2 : lib.hashString (VerifyMerkleTree.loop lib dg s path) ≠ lib.hashString root :=
    fun hc => hdiff (hstr hc)
  simp [VerifyMerkleTree, hs2]

/-- Instance of C4 for the toy library, whose node hash and string encoding
are injective. -/
theorem verify_rejects_other_leaf_witness :
    ∃ path root, GetMerklePathCrossShard.fromRow toyLib [[1], [2], [3], [4]] 2 = .ok (path, root) ∧
      ∀ dg, dg ≠ [3] → VerifyMerkleTree toyLib dg path root 2 = false :=
  verify_rejects_other_leaf toyLib toyLib_hashCat_inj (fun _ _ h => h)
    [[1], [2], [3], [4]] 2 2 rfl (by decide) (by decide)

/-- Claim C5, as stated, fails for `N = 1 = 2^0`: on a row of one digest the
first iteration of the build loop reads `merkleData[1]`, which is out of
range, so no sequence is returned. -/
theorem build_single_leaf_out_of_range :
    ([[1]] : List (List Nat)).length = 2 ^ 0 ∧
    CreateShardTxRoot.fromRow toyLib [[1]] = .outOfRange := by
  decide

/-- Claim C5, amended.  For a row of `N = 2^k` digests with `k ≥ 1` (so
`N ≥ 2`), the build loop of `CreateShardTxRoot` completes and returns a
flattened sequence of exactly `2N - 1` digests. -/
theorem build_length {Hash : Type} (lib : Lib Hash) (row : List Hash) (k : Nat)
    (hk : row.length = 2 ^ k) (hk1 : 1 ≤ k) :
    ∃ merkleData, CreateShardTxRoot.fromRow lib row = .ok (row, merkleData) ∧
      merkleData.length = 2 * row.length - 1 := by
  obtain ⟨d, _, _, hrun, hd, _⟩ :=
    fromRow_spec lib row k hk hk1 0 (by positivity)
  exact ⟨d, hrun, hd.1⟩

/-- Instance of the amended C5 on a row of four digests. -/
theorem build_length_witness :
    ∃ merkleData, CreateShardTxRoot.fromRow toyLib [[1], [2], [3], [4]]
        = .ok ([[1], [2], [3], [4]], merkleData) ∧
      merkleData.length = 2 * 4 - 1 :=
  build_length toyLib [[1], [2], [3], [4]] 2 rfl (by decide)

/-- Claim C6 (the root is the recursive Merkle root).  For a row of `N = 2^k`
digests with `k ≥ 1`, the last element of the sequence built by
`CreateShardTxRoot` is the root returned by `GetMerklePathCrossShard` for
every index `s < N`, and it equals `merkleRootSpec`, the root defined by
`root [x] = x` and `root (l ++ r) = H(root l || root r)` for halves of equal
length (the last two conjuncts state these two equations). -/
theorem root_is_recursive_root {Hash : Type} (lib : Lib Hash) (row : List Hash) (k : Nat)
    (hk : row.length = 2 ^ k) (hk1 : 1 ≤ k) :
    (∃ merkleData root, CreateShardTxRoot.fromRow lib row = .ok (row, merkleData) ∧
      merkleData.getLast? = some root ∧
      (∀ s, s < row.length →
        ∃ path, GetMerklePathCrossShard.fromRow lib row s = .ok (path, root)) ∧
      merkleRootSpec lib k row = some root) ∧
    (∀ x, merkleRootSpec lib 0 [x] = some x) ∧
    (∀ (j : Nat) (l r : List Hash) (a b : Hash), l.length = 2 ^ j →
      merkleRootSpec lib j l = some a → merkleRootSpec lib j r = some b →
      merkleRootSpec lib (j + 1) (l ++ r) = some (hashCat lib a b)) := by
  refine ⟨?_, fun x => rfl, ?_⟩
  · obtain ⟨d, _, root, hrun, hd, _, _, _, hlast, hroot⟩ :=
      fromRow_spec lib row k hk hk1 0 (by positivity)
    refine ⟨d, root, hrun, ?_, ?_, ?_⟩
    · rw [List.getLast?_eq_getElem?]; exact hlast
    · intro s hs
      obtain ⟨d2, path, root2, hrun2, _, hp, _, _, _, hroot2⟩ :=
        fromRow_spec lib row k hk hk1 s (by omega)
      rw [hroot] at hroot2
      cases hroot2
      exact ⟨path, hp⟩
    · have h := node_eq_spec lib row k 0 (by simp [hk])
      rw [hroot] at h
      have e : (row.drop (0 * 2 ^ k)).take (2 ^ k) = row := by
        rw [Nat.zero_mul, List.drop_zero, ← hk, List.take_length]
      rw [e] at h
      exact h.symm
  · intro j l r a b hl ha hb
    have e1 : (l ++ r).take (2 ^ j) = l := by rw [← hl, List.take_left]
    have e2 : (l ++ r).drop (2 ^ j) = r := by rw [← hl, List.drop_left]
    simp only [merkleRootSpec, e1, e2, ha, hb]

/-- Instance of C6 on a row of two digests. -/
theorem root_is_recursive_root_witness :
    (∃ merkleData root, CreateShardTxRoot.fromRow toyLib [[1], [2]] = .ok ([[1], [2]], merkleData) ∧
      merkleData.getLast? = some root ∧
      (∀ s, s < 2 → ∃ path, GetMerklePathCrossShard.fromRow toyLib [[1], [2]] s = .ok (path, root)) ∧
      merkleRootSpec toyLib 1 [[1], [2]] = some root) ∧
    (∀ x, merkleRootSpec toyLib 0 [x] = some x) ∧
    (∀ (j : Nat) (l r : List (List Nat)) (a b : List Nat), l.length = 2 ^ j →
      merkleRootSpec toyLib j l = some a → merkleRootSpec toyLib j r = some b →
      merkleRootSpec toyLib (j + 1) (l ++ r) = some (hashCat toyLib a b)) :=
  root_is_recursive_root toyLib [[1], [2]] 1 rfl (by decide)

/-- Claim C7 (path length and bounds).  For a row of `N = 2^k` digests with
`k ≥ 1` and an index `s < N`, the walk of `GetMerklePathCrossShard` returns
(it never reads outside the flattened sequence and never runs out of its
budget) and the sibling list has exactly `k` elements. -/
theorem path_length {Hash : Type} (lib : Lib Hash) (row : List Hash) (k s : Nat)
    (hk : row.length = 2 ^ k) (hk1 : 1 ≤ k) (hs : s < row.length) :
    GetMerklePathCrossShard.fromRow lib row s ≠ .outOfRange ∧
    GetMerklePathCrossShard.fromRow lib row s ≠ .outOfFuel ∧
    ∃ path root, GetMerklePathCrossShard.fromRow lib row s = .ok (path, root) ∧
      path.length = k := by
  obtain ⟨d, path, root, _, _, hrun, hpl, _⟩ := fromRow_spec lib row k hk hk1 s (by omega)
  rw [hrun]
  exact ⟨by simp, by simp, path, root, rfl, hpl⟩

/-- Instance of C7 on a row of four digests and index 3. -/
theorem path_length_witness :
    GetMerklePathCrossShard.fromRow toyLib [[1], [2], [3], [4]] 3 ≠ .outOfRange ∧
    GetMerklePathCrossShard.fromRow toyLib [[1], [2], [3], [4]] 3 ≠ .outOfFuel ∧
    ∃ path root, GetMerklePathCrossShard.fromRow toyLib [[1], [2], [3], [4]] 3 = .ok (path, root) ∧
      path.length = 2 :=
  path_length toyLib [[1], [2], [3], [4]] 2 3 rfl (by decide) (by decide)

/-- Claim C8 (proof content).  For a row of `N = 2^k` digests with `k ≥ 1`, an
index `s < N` and a level `j < k`, the `j`-th sibling returned by
`GetMerklePathCrossShard` is the element of the flattened sequence at the
absolute position `levelOffset N j + (s / 2^j XOR 1)`, where
`levelOffset N 0 = 0` and `levelOffset N (j+1) = levelOffset N j + N / 2^j`. -/
theorem sibling_position {Hash : Type} (lib : Lib Hash) (row : List Hash) (k s : Nat)
    (hk : row.length = 2 ^ k) (hk1 : 1 ≤ k) (hs : s < row.length) :
    ∃ merkleData path root, CreateShardTxRoot.fromRow lib row = .ok (row, merkleData) ∧
      GetMerklePathCrossShard.fromRow lib row s = .ok (path, root) ∧
      ∀ j, j < k → ∃ h, path[j]? = some h ∧
        merkleData[levelOffset row.length j + ((s / 2 ^ j) ^^^ 1)]? = some h := by
  obtain ⟨d, path, root, hc, _, hrun, _, hpath, _⟩ := fromRow_spec lib row k hk hk1 s (by omega)
  refine ⟨d, path, root, hc, hrun, ?_⟩
  intro j hj
  obtain ⟨h, a1, a2, _⟩ := hpath j hj
  rw [hk]
  exact ⟨h, a1, a2⟩

/-- Instance of C8 on a row of four digests and index 2. -/
theorem sibling_position_witness :
    ∃ merkleData path root,
      CreateShardTxRoot.fromRow toyLib [[1], [2], [3], [4]] = .ok ([[1], [2], [3], [4]], merkleData) ∧
      GetMerklePathCrossShard.fromRow toyLib [[1], [2], [3], [4]] 2 = .ok (path, root) ∧
      ∀ j, j < 2 → ∃ h, path[j]? = some h ∧
        merkleData[levelOffset 4 j + ((2 / 2 ^ j) ^^^ 1)]? = some h :=
  sibling_position toyLib [[1], [2], [3], [4]] 2 2 rfl (by decide) (by decide)

/-- Claim C9 (layer layout).  For a row of `N ≥ 2` digests, the sequence built
by `CreateShardTxRoot` starts with the row, unchanged and in order, and its
element at position `N + u`, for `u < N - 1`, is `H(element 2u || element
2u+1)`; for a row `[a, b, c, e]` it is
`[a, b, c, e, H(a||b), H(c||e), H(H(a||b)||H(c||e))]`. -/
theorem layer_layout {Hash : Type} (lib : Lib Hash) (row : List Hash) (hN : 2 ≤ row.length) :
    (∃ merkleData, CreateShardTxRoot.fromRow lib row = .ok (row, merkleData) ∧
      merkleData.take row.length = row ∧
      ∀ u, u < row.length - 1 →
        ∃ x y, merkleData[2 * u]? = some x ∧ merkleData[2 * u + 1]? = some y ∧
          merkleData[row.length + u]? = some (hashCat lib x y)) ∧
    ∀ a b c e : Hash, CreateShardTxRoot.fromRow lib [a, b, c, e] =
      .ok ([a, b, c, e], [a, b, c, e, hashCat lib a b, hashCat lib c e,
        hashCat lib (hashCat lib a b) (hashCat lib c e)]) := by
  refine ⟨?_, fun a b c e => rfl⟩
  obtain ⟨d, hrun, hlen, hrow, hpair⟩ := build_layout lib row hN
  refine ⟨d, by simp [CreateShardTxRoot.fromRow, hrun, Run.bind], ?_, fun u hu => hpair u (by omega)⟩
  apply List.ext_getElem?
  intro i
  by_cases hi : i < row.length
  · rw [List.getElem?_take_of_lt hi, hrow i hi]
  · rw [List.getElem?_eq_none (by simp; omega), List.getElem?_eq_none (by omega)]

/-- Instance of C9 on a row of three digests. -/
theorem layer_layout_witness :
    (∃ merkleData, CreateShardTxRoot.fromRow toyLib [[1], [2], [3]] = .ok ([[1], [2], [3]], merkleData) ∧
      merkleData.take 3 = [[1], [2], [3]] ∧
      ∀ u, u < 3 - 1 →
        ∃ x y, merkleData[2 * u]? = some x ∧ merkleData[2 * u + 1]? = some y ∧
          merkleData[3 + u]? = some (hashCat toyLib x y)) ∧
    ∀ a b c e : List Nat, CreateShardTxRoot.fromRow toyLib [a, b, c, e] =
      .ok ([a, b, c, e], [a, b, c, e, hashCat toyLib a b, hashCat toyLib c e,
        hashCat toyLib (hashCat toyLib a b) (hashCat toyLib c e)]) :=
  layer_layout toyLib [[1], [2], [3]] (by decide)

/-- Claim C10, as stated, fails: the rows `[[1], [2]]` and `[[1], [3]]` differ
only at index 1, yet the sibling list of index 0 is `[[2]]` for the first and
`[[3]]` for the second, because the sibling of leaf 0 is leaf 1. -/
theorem sibling_list_changes :
    ([[1], [3]] : List (List Nat)) = ([[1], [2]] : List (List Nat)).set 1 [3] ∧
    GetMerklePathCrossShard.fromRow toyLib [[1], [2]] 0 = .ok ([[2]], [1, 1, 1, 2]) ∧
    GetMerklePathCrossShard.fromRow toyLib [[1], [3]] 0 = .ok ([[3]], [1, 1, 1, 3]) := by
  decide

/-- Claim C10, amended.  For two rows of `N = 2^k` digests, `k ≥ 1`, that
differ only at index `s`, and every index `t < N`, the sibling lists that
`GetMerklePathCrossShard` returns for `t` have the same length and the same
sibling at every level `j` at which the sibling of `t` is not the ancestor
of leaf `s`, that is whenever `(t / 2^j) XOR 1 ≠ s / 2^j`. -/
theorem sibling_list_frame {Hash : Type} (lib : Lib Hash) (row1 row2 : List Hash) (k s t : Nat)
    (hk : row1.length = 2 ^ k) (hk1 : 1 ≤ k) (hlen : row2.length = row1.length)
    (hdiff : ∀ i, i ≠ s → row1[i]? = row2[i]?) (ht : t < row1.length) :
    ∃ path1 root1 path2 root2,
      GetMerklePathCrossShard.fromRow lib row1 t = .ok (path1, root1) ∧
      GetMerklePathCrossShard.fromRow lib row2 t = .ok (path2, root2) ∧
      path1.length = path2.length ∧
      ∀ j, (t / 2 ^ j) ^^^ 1 ≠ s / 2 ^ j → path1[j]? = path2[j]? := by
  obtain ⟨_, p1, r1, _, _, hrun1, hl1, hp1, _⟩ := fromRow_spec lib row1 k hk hk1 t (by omega)
  obtain ⟨_, p2, r2, _, _, hrun2, hl2, hp2, _⟩ :=
    fromRow_spec lib row2 k (by rw [hlen, hk]) hk1 t (by omega)
  refine ⟨p1, r1, p2, r2, hrun1, hrun2, by rw [hl1, hl2], ?_⟩
  intro j hj
  by_cases hjk : j < k
  · obtain ⟨h1, a1, _, a3⟩ := hp1 j hjk
    obtain ⟨h2, b1, _, b3⟩ := hp2 j hjk
    have hc := node_congr lib row1 row2 j ((t / 2 ^ j) ^^^ 1) (fun x hx => hdiff x (by
      intro hxs
      rw [hxs] at hx
      exact hj hx.symm))
    rw [a3, b3] at hc
    rw [a1, b1, hc]
  · rw [List.getElem?_eq_none (by omega), List.getElem?_eq_none (by omega)]

/-- Instance of the amended C10: two rows of four digests that differ at
index 3, and the sibling lists of index 0. -/
theorem sibling_list_frame_witness :
    ∃ path1 root1 path2 root2,
      GetMerklePathCrossShard.fromRow toyLib [[1], [2], [3], [4]] 0 = .ok (path1, root1) ∧
      GetMerklePathCrossShard.fromRow toyLib [[1], [2], [3], [5]] 0 = .ok (path2, root2) ∧
      path1.length = path2.length ∧
      ∀ j, (0 / 2 ^ j) ^^^ 1 ≠ 3 / 2 ^ j → path1[j]? = path2[j]? :=
  sibling_list_frame toyLib [[1], [2], [3], [4]] [[1], [2], [3], [5]] 2 3 0 rfl (by decide) rfl
    (by
      intro i hi
      match i with
      | 0 => rfl
      | 1 => rfl
      | 2 => rfl
      | 3 => exact absurd rfl hi
      | _ + 4 => rfl)
    (by decide)

/-- Claim C11 (empty-shard determinism).  Assume the router maps into
`[0, MAX_SHARD_NUMBER)` and every token vout of a custom-token transaction
has a non-empty `Pk`, so that `getCrossShardDataHash` returns.  For a shard
`s < MAX_SHARD_NUMBER` to which the batch routes no output coin (of a
normal, salary or custom-token transaction) and no token vout, entry `s` of
the returned row is `H(H("") || H(""))`; this value is the same for every
batch and every such shard. -/
theorem empty_shard_digest {Hash : Type} [DecidableEq Hash] (lib : Lib Hash)
    (order : MapOrder Hash) (txList : List (Transaction Hash)) (s : Nat)
    (hroute : ∀ b, lib.GetShardIDFromLastByte b < lib.MAX_SHARD_NUMBER)
    (hpk : ∀ tx ∈ txList, tx.Type_ = .TxCustomTokenType → ∀ v ∈ tx.TxTokenData.Vouts, v.Pk ≠ [])
    (hs : s < lib.MAX_SHARD_NUMBER)
    (hcoins : ∀ tx ∈ txList, tx.Type_ ≠ .TxCustomTokenPrivacyType → ∀ p, tx.Proof = some p →
      ∀ c ∈ p.OutputCoins, lib.GetShardIDFromLastByte c.PubKeyLastByte ≠ s)
    (hvouts : ∀ tx ∈ txList, tx.Type_ = .TxCustomTokenType → ∀ v ∈ tx.TxTokenData.Vouts,
      ∀ b, v.Pk.getLast? = some b → lib.GetShardIDFromLastByte b ≠ s) :
    ∃ row, getCrossShardDataHash lib order txList = .ok row ∧
      row[s]? = some (hashCat lib (lib.HashH []) (lib.HashH [])) := by
  obtain ⟨g, hg, _, _⟩ := group_ok lib lib.MAX_SHARD_NUMBER hroute txList hpk
    (List.replicate lib.MAX_SHARD_NUMBER []) (List.replicate lib.MAX_SHARD_NUMBER [])
    (List.length_replicate _ _) (List.length_replicate _ _)
  obtain ⟨k1, k2⟩ := group_keep lib s txList _ _ g hg hcoins hvouts
  obtain ⟨row, hrow, _, hent⟩ := row_of_grouped lib order txList g hg
  obtain ⟨coins, m, h1, h2, h3⟩ := hent s hs
  refine ⟨row, hrow, ?_⟩
  rw [k1, List.getElem?_replicate] at h1
  rw [k2, List.getElem?_replicate] at h2
  simp only [hs, if_true, Option.some.injEq] at h1 h2
  subst h1; subst h2
  rw [h3]
  rfl

/-- Instance of C11: the sample batch routes nothing to shard 0 and nothing to
shard 3. -/
theorem empty_shard_digest_witness :
    ∃ row, getCrossShardDataHash toyLib insertionOrder [sampleTxA, sampleTxB] = .ok row ∧
      row[3]? = some (hashCat toyLib (toyLib.HashH []) (toyLib.HashH [])) :=
  empty_shard_digest toyLib insertionOrder [sampleTxA, sampleTxB] 3
    (fun b => Nat.mod_lt b (by decide)) (by decide) (by decide) (by decide) (by decide)

/-- Claim C12 (privacy-token transactions are not folded in).  Two batches
that differ only by transactions of kind `TxCustomTokenPrivacyType`, inserted
or removed at any position, give the same run of `getCrossShardDataHash`,
hence the same row. -/
theorem privacy_tx_ignored {Hash : Type} [DecidableEq Hash] (lib : Lib Hash)
    (order : MapOrder Hash) (txList1 txList2 : List (Transaction Hash))
    (h : txList1.filter (fun tx => decide (tx.Type_ ≠ .TxCustomTokenPrivacyType))
      = txList2.filter (fun tx => decide (tx.Type_ ≠ .TxCustomTokenPrivacyType))) :
    getCrossShardDataHash lib order txList1 = getCrossShardDataHash lib order txList2 := by
  have hg : getCrossShardDataHash.grouped lib txList1 = getCrossShardDataHash.grouped lib txList2 := by
    unfold getCrossShardDataHash.grouped
    rw [← group_filter lib txList1, ← group_filter lib txList2, h]
  unfold getCrossShardDataHash
  rw [hg]

/-- Instance of C12: a privacy-token transaction inserted between two
custom-token transactions, and the row both batches give. -/
theorem privacy_tx_ignored_witness :
    getCrossShardDataHash toyLib insertionOrder [sampleTxA, samplePrivacyTx, sampleTxB]
      = getCrossShardDataHash toyLib insertionOrder [sampleTxA, sampleTxB] ∧
    getCrossShardDataHash toyLib insertionOrder [sampleTxA, sampleTxB]
      = .ok [[0, 0], [3, 1, 2, 3, 9, 3, 3, 20, 3, 4, 7, 10, 3, 4], [0, 8, 3, 3, 20, 4, 3, 7, 10, 5],
          [0, 0]] :=
  ⟨privacy_tx_ignored toyLib insertionOrder [sampleTxA, samplePrivacyTx, sampleTxB]
    [sampleTxA, sampleTxB] (by decide), by decide⟩

/-- Claim C15 (the row has one digest per shard).  Whenever
`getCrossShardDataHash` returns, the row has exactly `MAX_SHARD_NUMBER`
entries and entry `i` is `H(outputDigest i || tokenDigest i)` for the coins
and the token map that the grouping pass holds for shard `i`; it does return
when the router maps into `[0, MAX_SHARD_NUMBER)` and every token vout of a
custom-token transaction has a non-empty `Pk`; and on the empty batch it
returns `MAX_SHARD_NUMBER` times `H(H("") || H(""))`. -/
theorem row_one_digest_per_shard {Hash : Type} [DecidableEq Hash] (lib : Lib Hash)
    (order : MapOrder Hash) (txList : List (Transaction Hash)) :
    (∀ row, getCrossShardDataHash lib order txList = .ok row →
      row.length = lib.MAX_SHARD_NUMBER ∧
      ∃ g, getCrossShardDataHash.grouped lib txList = .ok g ∧
        ∀ i, i < lib.MAX_SHARD_NUMBER →
          ∃ coins m, g.1[i]? = some coins ∧ g.2[i]? = some m ∧
            row[i]? = some (hashCat lib (calHashOutCoinCrossShard lib coins)
              (calHashTxTokenDataHashFromMap lib order m))) ∧
    ((∀ b, lib.GetShardIDFromLastByte b < lib.MAX_SHARD_NUMBER) →
      (∀ tx ∈ txList, tx.Type_ = .TxCustomTokenType → ∀ v ∈ tx.TxTokenData.Vouts, v.Pk ≠ []) →
      ∃ row, getCrossShardDataHash lib order txList = .ok row) ∧
    getCrossShardDataHash lib order []
      = .ok (List.replicate lib.MAX_SHARD_NUMBER (hashCat lib (lib.HashH []) (lib.HashH []))) := by
  refine ⟨?_, ?_, ?_⟩
  · intro row hrow
    cases hg : getCrossShardDataHash.grouped lib txList with
    | ok g =>
      obtain ⟨row2, h2, hl, hent⟩ := row_of_grouped lib order txList g hg
      rw [hrow] at h2
      cases h2
      exact ⟨hl, g, rfl, hent⟩
    | outOfRange => simp [getCrossShardDataHash, hg, Run.bind] at hrow
    | outOfFuel => simp [getCrossShardDataHash, hg, Run.bind] at hrow
  · intro hroute hpk
    obtain ⟨g, hg, _, _⟩ := group_ok lib lib.MAX_SHARD_NUMBER hroute txList hpk
      (List.replicate lib.MAX_SHARD_NUMBER []) (List.replicate lib.MAX_SHARD_NUMBER [])
      (List.length_replicate _ _) (List.length_replicate _ _)
    obtain ⟨row, hrow, _⟩ := row_of_grouped lib order txList g hg
    exact ⟨row, hrow⟩
  · obtain ⟨row, hrow, hl, hent⟩ := row_of_grouped lib order []
      (List.replicate lib.MAX_SHARD_NUMBER [], List.replicate lib.MAX_SHARD_NUMBER []) rfl
    rw [hrow]
    congr 1
    apply List.ext_getElem?
    intro i
    by_cases hi : i < lib.MAX_SHARD_NUMBER
    · obtain ⟨coins, m, h1, h2, h3⟩ := hent i hi
      rw [List.getElem?_replicate] at h1 h2
      simp only [hi, if_true, Option.some.injEq] at h1 h2
      subst h1; subst h2
      rw [h3, List.getElem?_replicate, if_pos hi]
      rfl
    · rw [List.getElem?_eq_none (by omega), List.getElem?_eq_none (by simp; omega)]

/-- Instance of C15 on the sample batch: it returns a row of four digests. -/
theorem row_one_digest_per_shard_witness :
    ∃ row, getCrossShardDataHash toyLib insertionOrder [sampleTxA, sampleTxB] = .ok row ∧
      row.length = 4 := by
  obtain ⟨h1, h2, _⟩ := row_one_digest_per_shard toyLib insertionOrder [sampleTxA, sampleTxB]
  obtain ⟨row, hrow⟩ := h2 (fun b => Nat.mod_lt b (by decide)) (by decide)
  exact ⟨row, hrow, (h1 row hrow).1⟩

/-- Claim C13, as stated, fails, in both halves.  (1) Two custom-token
transactions of the same token, each with one vout to shard 1, give token
digest `[4, 7, 10, 3, 4]` for shard 1 in one order and `[4, 7, 10, 4, 3]` in
the other, because the vouts of one token are appended to its bucket in
encounter order; the rows differ at entry 1.  (2) Two normal transactions,
each with one output coin to shard 1, form a batch without any token bucket,
and the token digest of every shard is the same in both orders; the rows
differ at entry 1 all the same, because the output coins of a shard are
hashed in encounter order.  So the row depends on the order of the
transactions even where the token digest does not. -/
theorem token_digest_depends_on_tx_order :
    ([sampleSameTokenTx 3, sampleSameTokenTx 4].Perm [sampleSameTokenTx 4, sampleSameTokenTx 3] ∧
      getCrossShardDataHash toyLib insertionOrder [sampleSameTokenTx 3, sampleSameTokenTx 4]
        = .ok [[0, 0], [0, 5, 4, 7, 10, 3, 4], [0, 0], [0, 0]] ∧
      getCrossShardDataHash toyLib insertionOrder [sampleSameTokenTx 4, sampleSameTokenTx 3]
        = .ok [[0, 0], [0, 5, 4, 7, 10, 4, 3], [0, 0], [0, 0]] ∧
      (getCrossShardDataHash.grouped toyLib [sampleSameTokenTx 3, sampleSameTokenTx 4]).bind
          (fun g => (Run.index g.2 1).bind fun m =>
            .ok (calHashTxTokenDataHashFromMap toyLib insertionOrder m))
        = .ok [4, 7, 10, 3, 4] ∧
      (getCrossShardDataHash.grouped toyLib [sampleSameTokenTx 4, sampleSameTokenTx 3]).bind
          (fun g => (Run.index g.2 1).bind fun m =>
            .ok (calHashTxTokenDataHashFromMap toyLib insertionOrder m))
        = .ok [4, 7, 10, 4, 3]) ∧
    ([sampleNormalTx, sampleNormalTx2].Perm [sampleNormalTx2, sampleNormalTx] ∧
      (∀ s t, contributingTxs toyLib s t [sampleNormalTx, sampleNormalTx2] = []) ∧
      getCrossShardDataHash.grouped toyLib [sampleNormalTx, sampleNormalTx2]
        = .ok ([[], [⟨5, [9]⟩, ⟨1, [7]⟩], [], []], [[], [], [], []]) ∧
      getCrossShardDataHash.grouped toyLib [sampleNormalTx2, sampleNormalTx]
        = .ok ([[], [⟨1, [7]⟩, ⟨5, [9]⟩], [], []], [[], [], [], []]) ∧
      getCrossShardDataHash toyLib insertionOrder [sampleNormalTx, sampleNormalTx2]
        = .ok [[0, 0], [2, 9, 7, 0], [0, 0], [0, 0]] ∧
      getCrossShardDataHash toyLib insertionOrder [sampleNormalTx2, sampleNormalTx]
        = .ok [[0, 0], [2, 7, 9, 0], [0, 0], [0, 0]]) :=
  ⟨⟨List.Perm.swap _ _ _, by decide, by decide, by decide, by decide⟩,
    ⟨List.Perm.swap _ _ _, fun _ _ => rfl, rfl, rfl, by decide, by decide⟩⟩

/-- Claim C13, amended.  Assume the string encoding of digests is canonical
(injective), the router maps into `[0, MAX_SHARD_NUMBER)` and every token
vout of a custom-token transaction has a non-empty `Pk`.  Take a batch, a
permutation of it and a shard `s` such that, for every token identifier,
either at most one custom-token transaction of the batch with that token has
a vout routed to `s`, or the bucket of that token for `s` (the identifying
fields of the first such transaction and the vouts routed to `s` in
encounter order) is the same for the two orders, as it is when these
transactions occur in the same order in both.  Then the grouping pass of
`getCrossShardDataHash` returns for both, and the token digest of `s` is the
same for the batch and the permuted batch, whatever the enumeration orders
of the maps; the entry of `s` in the row is then the same as well whenever
the output coins grouped for `s` are the same list in both orders.
Transactions of one token that route their vouts to different shards are
not restricted. -/
theorem token_digest_perm_invariant {Hash : Type} [DecidableEq Hash] (lib : Lib Hash)
    (order1 order2 : MapOrder Hash) (hv1 : order1.Valid) (hv2 : order2.Valid)
    (hstr : Function.Injective lib.hashString)
    (hroute : ∀ b, lib.GetShardIDFromLastByte b < lib.MAX_SHARD_NUMBER)
    (txList1 txList2 : List (Transaction Hash)) (hperm : txList1.Perm txList2)
    (hpk : ∀ tx ∈ txList1, tx.Type_ = .TxCustomTokenType →
      ∀ v ∈ tx.TxTokenData.Vouts, v.Pk ≠ [])
    (s : Nat) (hs : s < lib.MAX_SHARD_NUMBER)
    (hsame : ∀ t, (contributingTxs lib s t txList1).length ≤ 1 ∨
      expectedBucket lib s t txList1 = expectedBucket lib s t txList2) :
    (∀ t, contributingTxs lib s t txList1 = contributingTxs lib s t txList2 →
      expectedBucket lib s t txList1 = expectedBucket lib s t txList2) ∧
    ∃ g1 g2, getCrossShardDataHash.grouped lib txList1 = .ok g1 ∧
      getCrossShardDataHash.grouped lib txList2 = .ok g2 ∧
      (∃ m1 m2, g1.2[s]? = some m1 ∧ g2.2[s]? = some m2 ∧
        calHashTxTokenDataHashFromMap lib order1 m1
          = calHashTxTokenDataHashFromMap lib order2 m2) ∧
      ∃ row1 row2, getCrossShardDataHash lib order1 txList1 = .ok row1 ∧
        getCrossShardDataHash lib order2 txList2 = .ok row2 ∧
        (g1.1[s]? = g2.1[s]? → row1[s]? = row2[s]?) := by
  refine ⟨fun t h => expectedBucket_congr lib s t txList1 txList2 h, ?_⟩
  have hpk2 : ∀ tx ∈ txList2, tx.Type_ = .TxCustomTokenType →
      ∀ v ∈ tx.TxTokenData.Vouts, v.Pk ≠ [] :=
    fun tx htx => hpk tx (hperm.symm.subset htx)
  obtain ⟨g1, hg1, _, _⟩ := group_ok lib lib.MAX_SHARD_NUMBER hroute txList1 hpk
    (List.replicate lib.MAX_SHARD_NUMBER []) (List.replicate lib.MAX_SHARD_NUMBER [])
    (List.length_replicate _ _) (List.length_replicate _ _)
  obtain ⟨g2, hg2, _, _⟩ := group_ok lib lib.MAX_SHARD_NUMBER hroute txList2 hpk2
    (List.replicate lib.MAX_SHARD_NUMBER []) (List.replicate lib.MAX_SHARD_NUMBER [])
    (List.length_replicate _ _) (List.length_replicate _ _)
  have h0 : (List.replicate lib.MAX_SHARD_NUMBER ([] : TokenMap Hash))[s]? = some [] := by
    rw [List.getElem?_replicate]; simp [hs]
  obtain ⟨m1, ha1, ha2⟩ := group_sim lib s txList1 _ _ g1 hg1 [] h0
  obtain ⟨m2, hb1, hb2⟩ := group_sim lib s txList2 _ _ g2 hg2 [] h0
  have hdigest : calHashTxTokenDataHashFromMap lib order1 m1
      = calHashTxTokenDataHashFromMap lib order2 m2 := by
    have hinv1 : MapInv m1 := single_txs_inv lib s txList1 [] m1 ⟨by simp, by simp⟩ ha1
    have hinv2 : MapInv m2 := single_txs_inv lib s txList2 [] m2 ⟨by simp, by simp⟩ hb1
    have hbucket : ∀ t, bucketAt m1 t = bucketAt m2 t := by
      intro t
      rw [bucketAt_single_txs lib s t txList1 [] m1 ha1,
        bucketAt_single_txs lib s t txList2 [] m2 hb1]
      have e1 : bucketAt ([] : TokenMap Hash) t = none := rfl
      rw [e1, foldl_bucketStep_none, foldl_bucketStep_none]
      rcases hsame t with h | h
      · exact expectedBucket_perm lib s t txList1 txList2 hperm h
      · exact h
    have hpm : m1.Perm m2 := maps_perm_of_bucketAt m1 m2 hinv1.1 hinv2.1 hbucket
    have hlen : m1.length = m2.length := hpm.length_eq
    unfold calHashTxTokenDataHashFromMap
    by_cases hz : m1.length = 0
    · rw [if_pos hz, if_pos (by rw [← hlen]; exact hz)]
    · rw [if_neg hz, if_neg (by rw [← hlen]; exact hz)]
      have hp : (order1 m1).Perm (order2 m2) :=
        (hv1 m1).trans ((hpm.map Prod.snd).trans (hv2 m2).symm)
      have hn : ((order1 m1).map fun td => lib.hashString td.PropertyID).Nodup :=
        ((hv1 m1).map _).nodup_iff.2 (map_keys_nodup lib m1 hinv1 hstr)
      rw [sort_unique lib _ _ hp hn]
  refine ⟨g1, g2, hg1, hg2, ⟨m1, m2, ha2, hb2, hdigest⟩, ?_⟩
  obtain ⟨row1, hr1, _, hrow1⟩ := row_of_grouped lib order1 txList1 g1 hg1
  obtain ⟨row2, hr2, _, hrow2⟩ := row_of_grouped lib order2 txList2 g2 hg2
  refine ⟨row1, row2, hr1, hr2, ?_⟩
  intro hcoins
  obtain ⟨c1, n1, hc1, hn1, e1⟩ := hrow1 s hs
  obtain ⟨c2, n2, hc2, hn2, e2⟩ := hrow2 s hs
  rw [ha2] at hn1
  rw [hb2] at hn2
  rw [hc1, hc2] at hcoins
  rw [e1, e2, ← Option.some.inj hn1, ← Option.some.inj hn2, Option.some.inj hcoins, hdigest]

/-- Instance of the amended C13: two transactions of the same token `[7]`, one
with a vout to shard 1 and one with a vout to shard 2, in both orders; the
token digests of shard 1 and of shard 2 are the same for the two orders. -/
theorem token_digest_perm_invariant_witness :
    (∃ g1 g2, getCrossShardDataHash.grouped toyLib [sampleTokenTxTo 3 1, sampleTokenTxTo 4 2]
        = .ok g1 ∧
      getCrossShardDataHash.grouped toyLib [sampleTokenTxTo 4 2, sampleTokenTxTo 3 1] = .ok g2 ∧
      (∃ m1 m2, g1.2[1]? = some m1 ∧ g2.2[1]? = some m2 ∧
        calHashTxTokenDataHashFromMap toyLib insertionOrder m1
          = calHashTxTokenDataHashFromMap toyLib reverseOrder m2) ∧
      ∃ row1 row2, getCrossShardDataHash toyLib insertionOrder
          [sampleTokenTxTo 3 1, sampleTokenTxTo 4 2] = .ok row1 ∧
        getCrossShardDataHash toyLib reverseOrder
          [sampleTokenTxTo 4 2, sampleTokenTxTo 3 1] = .ok row2 ∧
        (g1.1[1]? = g2.1[1]? → row1[1]? = row2[1]?)) ∧
    (∃ g1 g2, getCrossShardDataHash.grouped toyLib [sampleTokenTxTo 3 1, sampleTokenTxTo 4 2]
        = .ok g1 ∧
      getCrossShardDataHash.grouped toyLib [sampleTokenTxTo 4 2, sampleTokenTxTo 3 1] = .ok g2 ∧
      (∃ m1 m2, g1.2[2]? = some m1 ∧ g2.2[2]? = some m2 ∧
        calHashTxTokenDataHashFromMap toyLib insertionOrder m1
          = calHashTxTokenDataHashFromMap toyLib reverseOrder m2) ∧
      ∃ row1 row2, getCrossShardDataHash toyLib insertionOrder
          [sampleTokenTxTo 3 1, sampleTokenTxTo 4 2] = .ok row1 ∧
        getCrossShardDataHash toyLib reverseOrder
          [sampleTokenTxTo 4 2, sampleTokenTxTo 3 1] = .ok row2 ∧
        (g1.1[2]? = g2.1[2]? → row1[2]? = row2[2]?)) :=
  ⟨(token_digest_perm_invariant toyLib insertionOrder reverseOrder
      (fun _ => List.Perm.refl _) (fun m => List.reverse_perm (m.map Prod.snd))
      (fun _ _ h => h) (fun b => Nat.mod_lt b (by decide))
      [sampleTokenTxTo 3 1, sampleTokenTxTo 4 2] [sampleTokenTxTo 4 2, sampleTokenTxTo 3 1]
      (List.Perm.swap _ _ _) (by decide) 1 (by decide)
      (fun t => Or.inl (le_trans (contributing_length_le toyLib 1 t _) (by decide)))).2,
    (token_digest_perm_invariant toyLib insertionOrder reverseOrder
      (fun _ => List.Perm.refl _) (fun m => List.reverse_perm (m.map Prod.snd))
      (fun _ _ h => h) (fun b => Nat.mod_lt b (by decide))
      [sampleTokenTxTo 3 1, sampleTokenTxTo 4 2] [sampleTokenTxTo 4 2, sampleTokenTxTo 3 1]
      (List.Perm.swap _ _ _) (by decide) 2 (by decide)
      (fun t => Or.inl (le_trans (contributing_length_le toyLib 2 t _) (by decide)))).2⟩

/-- Claim C14 (canonical token ordering).  Assume the string encoding of
digests is canonical (injective).  For a non-empty token map (keys distinct,
every bucket carrying its key as `PropertyID`) there is an arrangement of
its buckets in strictly ascending order of the string of the token
identifier, and for every order in which the map's entries are enumerated
`calHashTxTokenDataHashFromMap` returns `H` of the concatenation of the
bytes of the buckets' hashes taken in that ascending order. -/
theorem canonical_token_order {Hash : Type} (lib : Lib Hash) (m : TokenMap Hash)
    (hne : m ≠ []) (hinv : MapInv m) (hstr : Function.Injective lib.hashString) :
    ∃ sorted : List (TxTokenData Hash), sorted.Perm (m.map Prod.snd) ∧
      List.Pairwise (fun a b => lib.hashString a.PropertyID < lib.hashString b.PropertyID)
        sorted ∧
      ∀ order : MapOrder Hash, order.Valid →
        calHashTxTokenDataHashFromMap lib order m
          = lib.HashH (sorted.map fun td => lib.GetBytes (lib.tokenDataHash td)).flatten := by
  have hkeys := map_keys_nodup lib m hinv hstr
  obtain ⟨hp, hs⟩ := sort_strict lib (m.map Prod.snd) hkeys
  refine ⟨sortByPropertyID lib (m.map Prod.snd), hp, hs, ?_⟩
  intro order hv
  have hlen : ¬ m.length = 0 := fun h => hne (List.length_eq_zero.1 h)
  have hn : ((order m).map fun td => lib.hashString td.PropertyID).Nodup :=
    ((hv m).map _).nodup_iff.2 hkeys
  simp only [calHashTxTokenDataHashFromMap, if_neg hlen]
  rw [sort_unique lib _ _ (hv m) hn]
  simp only [calHashTxTokenDataHashList]
  rw [foldl_append_eq_flatten, List.nil_append]

/-- Instance of C14: a map of the two sample tokens, entered in descending
order of their identifiers. -/
theorem canonical_token_order_witness :
    ∃ sorted : List (TxTokenData (List Nat)),
      sorted.Perm ([([7], sampleTokenA), ([3], sampleTokenB)].map Prod.snd) ∧
      List.Pairwise (fun a b => toyLib.hashString a.PropertyID < toyLib.hashString b.PropertyID)
        sorted ∧
      ∀ order : MapOrder (List Nat), order.Valid →
        calHashTxTokenDataHashFromMap toyLib order [([7], sampleTokenA), ([3], sampleTokenB)]
          = toyLib.HashH (sorted.map fun td => toyLib.GetBytes (toyLib.tokenDataHash td)).flatten :=
  canonical_token_order toyLib [([7], sampleTokenA), ([3], sampleTokenB)] (by simp)
    ⟨by decide, by decide⟩ (fun _ _ h => h)

/-- Claim C16 (assign instructions of a shard).  For beacon blocks in which
every instruction has at least four fields, `GetAssignInstructionFromBeaconBlock`
returns exactly the instructions whose first field is `"assign"`, third
field `"shard"` and fourth field the decimal string of the shard id: the
instructions of the blocks, in block order and then in their order inside
each block, filtered by that test, so nothing is reordered, dropped or
deduplicated. -/
theorem assign_instructions_exact (beaconBlocks : List BeaconBlock) (shardID : Nat)
    (h : ∀ b ∈ beaconBlocks, ∀ l ∈ b.Instructions, 4 ≤ l.length) :
    GetAssignInstructionFromBeaconBlock beaconBlocks shardID
      = .ok ((beaconBlocks.flatMap fun b => b.Instructions).filter fun l =>
          decide (l[0]? = some "assign" ∧ l[2]? = some "shard" ∧ l[3]? = some (Itoa shardID))) := by
  unfold GetAssignInstructionFromBeaconBlock
  rw [assign_blocks_loop shardID beaconBlocks [] h, List.nil_append]
  rfl

/-- Instance of C16: two blocks, shard 3; the duplicate assign instruction is
kept. -/
theorem assign_instructions_exact_witness :
    GetAssignInstructionFromBeaconBlock
        [⟨[["assign", "k1", "shard", "3"], ["swap", "a", "b", "shard", "3"],
            ["assign", "k2", "beacon", "3"]]⟩,
          ⟨[["assign", "k3", "shard", "2"], ["assign", "k1", "shard", "3"]]⟩] 3
      = .ok [["assign", "k1", "shard", "3"], ["assign", "k1", "shard", "3"]] :=
  (assign_instructions_exact _ 3 (by decide)).trans (by decide)

/-- Claim C17 (swap instruction).  When the swap-selection collaborator
succeeds and returns the new pending queue, the new committee, the evicted
and the promoted members, `CreateSwapAction` returns no error, the
instruction `["swap", promoted joined with ",", evicted joined with ",",
"shard", decimal shard id]`, and exactly that pending queue and committee. -/
theorem swap_action_on_success {Err : Type} (ins : InsLib)
    (SwapValidator : List String → List String → Int → Int →
      List String × List String × List String × List String × Option Err)
    (pendingValidator commitees : List String) (committeeSize : Int) (shardID : Nat)
    (newPending newCommittee evicted promoted : List String)
    (h : SwapValidator pendingValidator commitees committeeSize ins.OFFSET
      = (newPending, newCommittee, evicted, promoted, none)) :
    CreateSwapAction ins SwapValidator pendingValidator commitees committeeSize shardID
      = (["swap", String.intercalate "," promoted, String.intercalate "," evicted, "shard",
          Itoa shardID], newPending, newCommittee, none) := by
  simp [CreateSwapAction, h]

/-- Instance of C17 with the sample collaborator. -/
theorem swap_action_on_success_witness :
    CreateSwapAction sampleIns sampleSwapValidator ["p1", "p2"] ["c1", "c2", "c3"] 3 7
      = (["swap", "p1", "c1", "shard", "7"], ["p2"], ["c2", "c3", "p1"], none) :=
  (swap_action_on_success sampleIns sampleSwapValidator ["p1", "p2"] ["c1", "c2", "c3"] 3 7
    ["p2"] ["c2", "c3", "p1"] ["c1"] ["p1"] (by decide)).trans (by decide)

/-- Claim C18 (failure of the swap).  `CreateSwapAction` returns an error if
and only if the swap-selection collaborator does, and then it returns that
error unchanged with a `nil` instruction, `nil` pending queue and `nil`
committee, whatever the collaborator returned beside the error. -/
theorem swap_action_fails_iff {Err : Type} (ins : InsLib)
    (SwapValidator : List String → List String → Int → Int →
      List String × List String × List String × List String × Option Err)
    (pendingValidator commitees : List String) (committeeSize : Int) (shardID : Nat) :
    ((CreateSwapAction ins SwapValidator pendingValidator commitees committeeSize shardID).2.2.2
        ≠ none ↔
      (SwapValidator pendingValidator commitees committeeSize ins.OFFSET).2.2.2.2 ≠ none) ∧
    ∀ e, (SwapValidator pendingValidator commitees committeeSize ins.OFFSET).2.2.2.2 = some e →
      CreateSwapAction ins SwapValidator pendingValidator commitees committeeSize shardID
        = ([], [], [], some e) := by
  rcases hsv : SwapValidator pendingValidator commitees committeeSize ins.OFFSET with
    ⟨a, b, c, d, err⟩
  cases err with
  | none => simp [CreateSwapAction, hsv]
  | some e => simp [CreateSwapAction, hsv]

/-- Instance of C18: the sample collaborator fails on an empty pending queue,
although it returns the old lists beside the error. -/
theorem swap_action_fails_iff_witness :
    sampleSwapValidator [] ["c1", "c2", "c3"] 3 sampleIns.OFFSET
      = ([], ["c1", "c2", "c3"], [], [], some "cannot swap") ∧
    CreateSwapAction sampleIns sampleSwapValidator [] ["c1", "c2", "c3"] 3 7
      = ([], [], [], some "cannot swap") :=
  ⟨by decide, (swap_action_fails_iff sampleIns sampleSwapValidator [] ["c1", "c2", "c3"] 3 7).2
    "cannot swap" (by decide)⟩

/-- Claim C19 (committee size after a swap).  Let the swap-selection
collaborator satisfy its postcondition: on success the committee it returns
has `committeeSize` members.  Whenever `CreateSwapAction` succeeds, the
committee it returns has exactly `committeeSize` members. -/
theorem swap_action_committee_size {Err : Type} (ins : InsLib)
    (SwapValidator : List String → List String → Int → Int →
      List String × List String × List String × List String × Option Err)
    (hpost : SwapValidatorKeepsSize SwapValidator)
    (pendingValidator commitees : List String) (committeeSize : Int) (shardID : Nat)
    (hok : (CreateSwapAction ins SwapValidator pendingValidator commitees committeeSize
      shardID).2.2.2 = none) :
    ((CreateSwapAction ins SwapValidator pendingValidator commitees committeeSize
      shardID).2.2.1.length : Int) = committeeSize := by
  rcases hsv : SwapValidator pendingValidator commitees committeeSize ins.OFFSET with
    ⟨a, b, c, d, err⟩
  cases err with
  | some e => simp [CreateSwapAction, hsv] at hok
  | none =>
    have := hpost _ _ _ _ _ _ _ _ hsv
    simp [CreateSwapAction, hsv, this]

/-- Instance of C19 with the sample collaborator. -/
theorem swap_action_committee_size_witness :
    (CreateSwapAction sampleIns sampleSwapValidator ["p1", "p2"] ["c1", "c2", "c3"] 3 7).2.2.2
      = none ∧
    ((CreateSwapAction sampleIns sampleSwapValidator ["p1", "p2"] ["c1", "c2", "c3"] 3
      7).2.2.1.length : Int) = 3 :=
  ⟨by decide, swap_action_committee_size sampleIns sampleSwapValidator
    sampleSwapValidator_keeps_size ["p1", "p2"] ["c1", "c2", "c3"] 3 7 (by decide)⟩

/-- Claim C20, as stated, fails: on a list holding a shard-staking
transaction without a proof, the key of the first input coin cannot be read
and the run stops, so no instruction list is returned. -/
theorem stake_instructions_need_input_coin :
    sampleStakeTxNoProof.MetadataType = sampleIns.ShardStakingMeta ∧
    sampleStakeTxNoProof.Proof = none ∧
    CreateShardInstructionsFromTransactionAndIns sampleIns sampleStability
      [sampleStakeTxNoProof] 0 0 [] = .outOfRange := by
  decide

/-- Claim C20, amended.  For a transaction list in which every staking
transaction has a proof with at least one input coin,
`CreateShardInstructionsFromTransactionAndIns` returns the delegated
builder's instruction list, unchanged and first, followed by one
`["stake", keys, "shard"]` instruction if and only if some transaction has
shard-staking metadata, followed by one `["stake", keys, "beacon"]`
instruction if and only if some transaction has beacon-staking metadata; so
the shard instruction precedes the beacon one and at most two instructions
are appended. -/
theorem stake_instructions_shape {Hash : Type} (ins : InsLib)
    (buildStabilityActions : List (Transaction Hash) → Nat → Nat → List BeaconBlock →
      List (List String))
    (transactions : List (Transaction Hash)) (shardID shardBlockHeight : Nat)
    (beaconBlocks : List BeaconBlock)
    (hne : ins.ShardStakingMeta ≠ ins.BeaconStakingMeta)
    (hcoin : ∀ tx ∈ transactions, tx.MetadataType = ins.ShardStakingMeta ∨
        tx.MetadataType = ins.BeaconStakingMeta →
      ∃ p c cs, tx.Proof = some p ∧ p.InputCoins = c :: cs) :
    ∃ result, CreateShardInstructionsFromTransactionAndIns ins buildStabilityActions transactions
        shardID shardBlockHeight beaconBlocks = .ok result ∧
      result = buildStabilityActions transactions shardID shardBlockHeight beaconBlocks
        ++ (if transactions.any (fun tx => decide (tx.MetadataType = ins.ShardStakingMeta)) then
            [["stake", String.intercalate "," (shardStakeKeys ins transactions), "shard"]]
          else [])
        ++ (if transactions.any (fun tx => decide (tx.MetadataType = ins.BeaconStakingMeta)) then
            [["stake", String.intercalate "," (beaconStakeKeys ins transactions), "beacon"]]
          else []) ∧
      result.length ≤
        (buildStabilityActions transactions shardID shardBlockHeight beaconBlocks).length + 2 := by
  have hkeys := stake_keys_loop ins hne transactions [] [] hcoin
  have hs : shardStakeKeys ins transactions ≠ [] ↔
      transactions.any (fun tx => decide (tx.MetadataType = ins.ShardStakingMeta)) = true :=
    stake_keys_empty_iff ins ins.ShardStakingMeta transactions
      (fun tx htx hm => hcoin tx htx (Or.inl hm))
  have hb : beaconStakeKeys ins transactions ≠ [] ↔
      transactions.any (fun tx => decide (tx.MetadataType = ins.BeaconStakingMeta)) = true :=
    stake_keys_empty_iff ins ins.BeaconStakingMeta transactions
      (fun tx htx hm => hcoin tx htx (Or.inr hm))
  have hrun : CreateShardInstructionsFromTransactionAndIns ins buildStabilityActions transactions
      shardID shardBlockHeight beaconBlocks
      = .ok (buildStabilityActions transactions shardID shardBlockHeight beaconBlocks
        ++ (if transactions.any (fun tx => decide (tx.MetadataType = ins.ShardStakingMeta)) then
            [["stake", String.intercalate "," (shardStakeKeys ins transactions), "shard"]]
          else [])
        ++ (if transactions.any (fun tx => decide (tx.MetadataType = ins.BeaconStakingMeta)) then
            [["stake", String.intercalate "," (beaconStakeKeys ins transactions), "beacon"]]
          else [])) := by
    unfold CreateShardInstructionsFromTransactionAndIns
    rw [hkeys]
    simp only [bind_ok, List.nil_append]
    by_cases c1 : transactions.any (fun tx => decide (tx.MetadataType = ins.ShardStakingMeta)) = true
    · by_cases c2 :
          transactions.any (fun tx => decide (tx.MetadataType = ins.BeaconStakingMeta)) = true
      · rw [if_pos (hs.2 c1), if_pos (hb.2 c2), if_pos c1, if_pos c2]
        rfl
      · rw [if_pos (hs.2 c1), if_neg (fun h => c2 (hb.1 h)), if_pos c1, if_neg c2,
          List.append_nil]
        rfl
    · by_cases c2 :
          transactions.any (fun tx => decide (tx.MetadataType = ins.BeaconStakingMeta)) = true
      · rw [if_neg (fun h => c1 (hs.1 h)), if_pos (hb.2 c2), if_neg c1, if_pos c2,
          List.append_nil]
        rfl
      · rw [if_neg (fun h => c1 (hs.1 h)), if_neg (fun h => c2 (hb.1 h)), if_neg c1, if_neg c2,
          List.append_nil, List.append_nil]
  refine ⟨_, hrun, rfl, ?_⟩
  simp only [List.length_append]
  split <;> split <;> simp

/-- Instance of the amended C20: two shard-staking transactions, one
beacon-staking transaction and one transaction without staking metadata. -/
theorem stake_instructions_shape_witness :
    ∃ result, CreateShardInstructionsFromTransactionAndIns sampleIns sampleStability
        [sampleShardStakeTx, sampleBeaconStakeTx, sampleNormalTx, sampleShardStakeTx] 0 0 []
        = .ok result ∧
      result = sampleStability
          [sampleShardStakeTx, sampleBeaconStakeTx, sampleNormalTx, sampleShardStakeTx] 0 0 []
        ++ (if [sampleShardStakeTx, sampleBeaconStakeTx, sampleNormalTx, sampleShardStakeTx].any
              (fun tx => decide (tx.MetadataType = sampleIns.ShardStakingMeta)) then
            [["stake", String.intercalate "," (shardStakeKeys sampleIns
              [sampleShardStakeTx, sampleBeaconStakeTx, sampleNormalTx, sampleShardStakeTx]),
              "shard"]]
          else [])
        ++ (if [sampleShardStakeTx, sampleBeaconStakeTx, sampleNormalTx, sampleShardStakeTx].any
              (fun tx => decide (tx.MetadataType = sampleIns.BeaconStakingMeta)) then
            [["stake", String.intercalate "," (beaconStakeKeys sampleIns
              [sampleShardStakeTx, sampleBeaconStakeTx, sampleNormalTx, sampleShardStakeTx]),
              "beacon"]]
          else []) ∧
      result.length ≤ (sampleStability
        [sampleShardStakeTx, sampleBeaconStakeTx, sampleNormalTx, sampleShardStakeTx] 0 0
        []).length + 2 :=
  stake_instructions_shape sampleIns sampleStability
    [sampleShardStakeTx, sampleBeaconStakeTx, sampleNormalTx, sampleShardStakeTx] 0 0 []
    (by decide) (by
      intro tx htx hm
      simp only [List.mem_cons, List.mem_singleton, List.not_mem_nil, or_false] at htx
      rcases htx with h | h | h | h
      · exact ⟨_, _, _, by rw [h]; rfl, rfl⟩
      · exact ⟨_, _, _, by rw [h]; rfl, rfl⟩
      · subst h
        exact absurd hm (by decide)
      · exact ⟨_, _, _, by rw [h]; rfl, rfl⟩)

/-- Claim C21 (keys of the stake instructions).  For a transaction list in
which every staking transaction has a proof with at least one input coin,
the key loop of `CreateShardInstructionsFromTransactionAndIns` returns two key
lists: the shard (resp. beacon) list holds, for each shard-staking (resp.
beacon-staking) transaction in order, the encoding of the public key of its
first input coin, so it has as many keys as there are transactions of that
kind and repeated keys are kept; and the key field of the shard (resp.
beacon) stake instruction of the result is the join with `","` of that
list. -/
theorem stake_instruction_keys {Hash : Type} (ins : InsLib)
    (buildStabilityActions : List (Transaction Hash) → Nat → Nat → List BeaconBlock →
      List (List String))
    (transactions : List (Transaction Hash)) (shardID shardBlockHeight : Nat)
    (beaconBlocks : List BeaconBlock)
    (hne : ins.ShardStakingMeta ≠ ins.BeaconStakingMeta)
    (hcoin : ∀ tx ∈ transactions, tx.MetadataType = ins.ShardStakingMeta ∨
        tx.MetadataType = ins.BeaconStakingMeta →
      ∃ p c cs, tx.Proof = some p ∧ p.InputCoins = c :: cs) :
    ∃ shardKeys beaconKeys,
      CreateShardInstructionsFromTransactionAndIns.keys ins transactions [] []
        = .ok (shardKeys, beaconKeys) ∧
      shardKeys.map some
        = (transactions.filter fun tx => decide (tx.MetadataType = ins.ShardStakingMeta)).map
          (fun tx => (tx.Proof.bind fun p => p.InputCoins.head?).map
            fun c => ins.Base58CheckEncode c.PublicKey ins.ZeroByte) ∧
      beaconKeys.map some
        = (transactions.filter fun tx => decide (tx.MetadataType = ins.BeaconStakingMeta)).map
          (fun tx => (tx.Proof.bind fun p => p.InputCoins.head?).map
            fun c => ins.Base58CheckEncode c.PublicKey ins.ZeroByte) ∧
      shardKeys.length
        = (transactions.filter fun tx => decide (tx.MetadataType = ins.ShardStakingMeta)).length ∧
      beaconKeys.length
        = (transactions.filter fun tx => decide (tx.MetadataType = ins.BeaconStakingMeta)).length ∧
      CreateShardInstructionsFromTransactionAndIns ins buildStabilityActions transactions
          shardID shardBlockHeight beaconBlocks
        = .ok (buildStabilityActions transactions shardID shardBlockHeight beaconBlocks
          ++ (if shardKeys ≠ [] then [["stake", String.intercalate "," shardKeys, "shard"]]
            else [])
          ++ (if beaconKeys ≠ [] then [["stake", String.intercalate "," beaconKeys, "beacon"]]
            else [])) := by
  have hkeys := stake_keys_loop ins hne transactions [] [] hcoin
  simp only [List.nil_append] at hkeys
  have hkey : ∀ tx ∈ transactions, tx.MetadataType = ins.ShardStakingMeta ∨
      tx.MetadataType = ins.BeaconStakingMeta →
      ∃ key, stakeKeyOf ins tx = some key := by
    intro tx htx hm
    obtain ⟨p, c, cs, hp, hc⟩ := hcoin tx htx hm
    exact ⟨_, stakeKeyOf_some ins tx p c cs hp hc⟩
  have hfun : (fun tx : Transaction Hash => (tx.Proof.bind fun p => p.InputCoins.head?).map
      fun c => ins.Base58CheckEncode c.PublicKey ins.ZeroByte) = stakeKeyOf ins := by
    funext tx
    unfold stakeKeyOf firstInputCoinKey
    rcases tx.Proof with _ | p
    · rfl
    · rcases hp : p.InputCoins with _ | ⟨c, cs⟩
      · simp [hp]
      · simp [hp]
  have hs := stake_keys_eq_map ins ins.ShardStakingMeta transactions
    (fun tx htx hm => hkey tx htx (Or.inl hm))
  have hb := stake_keys_eq_map ins ins.BeaconStakingMeta transactions
    (fun tx htx hm => hkey tx htx (Or.inr hm))
  refine ⟨shardStakeKeys ins transactions, beaconStakeKeys ins transactions, hkeys, ?_, ?_, ?_, ?_,
    ?_⟩
  · rw [hfun]; exact hs
  · rw [hfun]; exact hb
  · have := congrArg List.length hs
    simpa using this
  · have := congrArg List.length hb
    simpa using this
  · unfold CreateShardInstructionsFromTransactionAndIns
    rw [hkeys]
    simp only [bind_ok, StakeAction]
    by_cases c1 : shardStakeKeys ins transactions = [] <;>
      by_cases c2 : beaconStakeKeys ins transactions = [] <;> simp [c1, c2]

/-- Instance of C21 with the sample constants: two shard-staking transactions
with the same first input coin and one beacon-staking transaction give the
shard key twice and the beacon key once. -/
theorem stake_instruction_keys_witness :
    ∃ shardKeys beaconKeys,
      CreateShardInstructionsFromTransactionAndIns.keys sampleIns
          [sampleShardStakeTx, sampleBeaconStakeTx, sampleNormalTx, sampleShardStakeTx] [] []
        = .ok (shardKeys, beaconKeys) ∧
      shardKeys.length = 2 ∧ beaconKeys.length = 1 ∧
      CreateShardInstructionsFromTransactionAndIns sampleIns sampleStability
          [sampleShardStakeTx, sampleBeaconStakeTx, sampleNormalTx, sampleShardStakeTx] 0 0 []
        = .ok (sampleStability
            [sampleShardStakeTx, sampleBeaconStakeTx, sampleNormalTx, sampleShardStakeTx] 0 0 []
          ++ (if shardKeys ≠ [] then [["stake", String.intercalate "," shardKeys, "shard"]]
            else [])
          ++ (if beaconKeys ≠ [] then [["stake", String.intercalate "," beaconKeys, "beacon"]]
            else [])) := by
  obtain ⟨shardKeys, beaconKeys, h1, _, _, h4, h5, h6⟩ :=
    stake_instruction_keys sampleIns sampleStability
      [sampleShardStakeTx, sampleBeaconStakeTx, sampleNormalTx, sampleShardStakeTx] 0 0 []
      (by decide) (by
        intro tx htx hm
        simp only [List.mem_cons, List.mem_singleton, List.not_mem_nil, or_false] at htx
        rcases htx with h | h | h | h
        · exact ⟨_, _, _, by rw [h]; rfl, rfl⟩
        · exact ⟨_, _, _, by rw [h]; rfl, rfl⟩
        · subst h
          exact absurd hm (by decide)
        · exact ⟨_, _, _, by rw [h]; rfl, rfl⟩)
  exact ⟨shardKeys, beaconKeys, h1, h4.trans (by decide), h5.trans (by decide), h6⟩

/-- Claim C22 (abort at the first failure).  Let `h` with `from ≤ h ≤ to` be
the first height at which the lookup, the fetch or the decode fails.  Then
`FetchBeaconBlockFromHeight` returns with an error: the storage error as it
is when the lookup or the fetch failed, the decode error wrapped as
`UnmashallJsonBlockError` otherwise.  It returns exactly the `h - from` blocks
decoded at the heights `from, ..., h - 1`, in order.  The storage calls it
makes are those of the iterations at `from, ..., h - 1` followed by those of
the failed iteration, so the heights looked up are `from, ..., h`, each
once, and nothing is fetched after the failure. -/
theorem fetch_aborts_at_first_failure {Hash E J : Type} (db : BeaconStore Hash E J)
    (from_ to_ h : Nat) (err : FetchError E J) (made : List (StoreAccess Hash))
    (hfrom : from_ ≤ h) (hto : h ≤ to_) (h64 : to_ < 2 ^ 64)
    (hgood : ∀ i, from_ ≤ i → i < h → ∃ r, FetchBeaconBlockFromHeight.body db i = .ok r)
    (hbad : FetchBeaconBlockFromHeight.body db h = .error (err, made)) :
    ∃ blocks calls, FetchBeaconBlockFromHeight db from_ to_ = .ok (blocks, some err, calls) ∧
      blocks.length = h - from_ ∧
      blocks.map some = (List.range' from_ (h - from_)).map (decodedBlock db) ∧
      calls = (List.range' from_ (h - from_)).flatMap (callsAt db) ++ made ∧
      calls.filterMap lookedUpHeight = List.range' from_ (h - from_ + 1) ∧
      ((∃ e, db.GetBeaconBlockHashByIndex h = .error e ∧ err = .storage e ∧
          made = [.GetBeaconBlockHashByIndex h]) ∨
        (∃ hash e, db.GetBeaconBlockHashByIndex h = .ok hash ∧
          db.FetchBeaconBlock hash = .error e ∧ err = .storage e ∧
          made = [.GetBeaconBlockHashByIndex h, .FetchBeaconBlock hash]) ∨
        (∃ hash bytes e, db.GetBeaconBlockHashByIndex h = .ok hash ∧
          db.FetchBeaconBlock hash = .ok bytes ∧ db.Unmarshal bytes = .error e ∧
          err = .UnmashallJsonBlockError e ∧
          made = [.GetBeaconBlockHashByIndex h, .FetchBeaconBlock hash])) := by
  have hg : ∀ j, j < h - from_ →
      ∃ r, FetchBeaconBlockFromHeight.body db (from_ + j) = .ok r :=
    fun j hj => hgood (from_ + j) (by omega) (by omega)
  have hfuel : 2 ^ 64 + 1 = (2 ^ 64 - (h - from_)) + 1 + (h - from_) := by omega
  have hrun : FetchBeaconBlockFromHeight db from_ to_
      = .ok ((List.range' from_ (h - from_)).filterMap (decodedBlock db), some err,
        (List.range' from_ (h - from_)).flatMap (callsAt db) ++ made) := by
    unfold FetchBeaconBlockFromHeight
    rw [hfuel, fetch_loop_prefix db to_ (h - from_) from_ _ [] [] (by omega) (by omega) hg]
    rw [show from_ + (h - from_) = h by omega]
    rw [FetchBeaconBlockFromHeight.loop, if_pos hto, hbad]
    simp
  have hmap := decoded_range db (h - from_) from_ hg
  have hmade : made = callsAt db h := by simp [callsAt, hbad]
  refine ⟨_, _, hrun, ?_, hmap, rfl, ?_, body_error_cases db h err made hbad⟩
  · have := congrArg List.length hmap
    simpa using this
  · rw [List.filterMap_append, calls_heights_range, hmade, callsAt_heights,
      List.range'_concat]
    simp only [Nat.one_mul]
    rw [show from_ + (h - from_) = h by omega]

/-- Instance of C22 on the sample store, whose bytes of height 3 do not
decode: the fetch of the heights 1 to 4 returns the blocks of heights 1 and
2 and the wrapped decode error, and looks up the heights 1, 2 and 3. -/
theorem fetch_aborts_at_first_failure_witness :
    ∃ blocks calls, FetchBeaconBlockFromHeight sampleStore 1 4
        = .ok (blocks, some (.UnmashallJsonBlockError "bad json"), calls) ∧
      blocks = [⟨[["h", "1"]]⟩, ⟨[["h", "2"]]⟩] ∧
      calls = [.GetBeaconBlockHashByIndex 1, .FetchBeaconBlock 101,
        .GetBeaconBlockHashByIndex 2, .FetchBeaconBlock 102,
        .GetBeaconBlockHashByIndex 3, .FetchBeaconBlock 103] := by
  obtain ⟨blocks, calls, hrun, _, hb, hc, _, _⟩ :=
    fetch_aborts_at_first_failure sampleStore 1 4 3 (.UnmashallJsonBlockError "bad json")
      [.GetBeaconBlockHashByIndex 3, .FetchBeaconBlock 103] (by decide) (by decide)
      (by norm_num) (by
        intro i h1 h3
        have hi : i = 1 ∨ i = 2 := by omega
        rcases hi with rfl | rfl
        · exact ⟨_, rfl⟩
        · exact ⟨_, rfl⟩) rfl
  refine ⟨blocks, calls, hrun, ?_, hc.trans (by decide)⟩
  have hb2 : blocks.map some = [some ⟨[["h", "1"]]⟩, some ⟨[["h", "2"]]⟩] :=
    hb.trans (by decide)
  exact List.map_injective_iff.mpr (Option.some_injective _) (hb2.trans rfl)

/-- Claim C23 (contents of the token buckets).  Assume the router maps into
`[0, MAX_SHARD_NUMBER)` and every token vout of a custom-token transaction
has a non-empty `Pk`.  Then the grouping pass of `getCrossShardDataHash`
returns, and the token map `m` it holds for a shard `s` has distinct keys,
so at most one bucket for each token `t`.  A bucket for `t` exists if and
only if some custom-token transaction with token `t` has a vout routed to
`s`.  The bucket holds exactly the vouts routed to `s` of the custom-token
transactions with token `t`, in encounter order; its `PropertyID`, name,
symbol, `Mintable` and `Amount` are those of the first such transaction
that has a vout routed to `s`, its type is `CustomTokenCrossShard` and it has
no vin. -/
theorem token_bucket_contents {Hash : Type} [DecidableEq Hash] (lib : Lib Hash)
    (hroute : ∀ b, lib.GetShardIDFromLastByte b < lib.MAX_SHARD_NUMBER)
    (txList : List (Transaction Hash))
    (hpk : ∀ tx ∈ txList, tx.Type_ = .TxCustomTokenType → ∀ v ∈ tx.TxTokenData.Vouts, v.Pk ≠ []) :
    ∃ outCoinEachShard txTokenDataEachShard,
      getCrossShardDataHash.grouped lib txList = .ok (outCoinEachShard, txTokenDataEachShard) ∧
      ∀ s, s < lib.MAX_SHARD_NUMBER →
        ∃ m, txTokenDataEachShard[s]? = some m ∧ (m.map Prod.fst).Nodup ∧
          ∀ t,
            ((∃ e, (t, e) ∈ m) ↔
              ∃ tx ∈ txList, tx.Type_ = .TxCustomTokenType ∧ tx.TxTokenData.PropertyID = t ∧
                ∃ v ∈ tx.TxTokenData.Vouts,
                  v.Pk.getLast?.map lib.GetShardIDFromLastByte = some s) ∧
            ∀ e, (t, e) ∈ m →
              e.PropertyID = t ∧
              e.Vouts = allRoutedVouts lib s t txList ∧
              e.Type_ = lib.CustomTokenCrossShard ∧ e.Vins = [] ∧
              ∃ first, (contributingTxs lib s t txList).head? = some first ∧
                e.PropertyID = first.TxTokenData.PropertyID ∧
                e.PropertyName = first.TxTokenData.PropertyName ∧
                e.PropertySymbol = first.TxTokenData.PropertySymbol ∧
                e.Mintable = first.TxTokenData.Mintable ∧
                e.Amount = first.TxTokenData.Amount := by
  obtain ⟨g, hg, _, hg2⟩ := group_ok lib lib.MAX_SHARD_NUMBER hroute txList hpk
    (List.replicate lib.MAX_SHARD_NUMBER []) (List.replicate lib.MAX_SHARD_NUMBER [])
    (by simp) (by simp)
  refine ⟨g.1, g.2, hg, ?_⟩
  intro s hs
  obtain ⟨m, hm1, hm2⟩ := group_sim lib s txList _ _ g hg []
    (by simp [List.getElem?_replicate, hs])
  have hinv : MapInv m := single_txs_inv lib s txList [] m ⟨by simp, by simp⟩ hm1
  have hbucket : ∀ t, bucketAt m t = expectedBucket lib s t txList := by
    intro t
    rw [bucketAt_single_txs lib s t txList [] m hm1]
    exact foldl_bucketStep_none lib s t txList
  refine ⟨m, hm2, hinv.1, ?_⟩
  intro t
  have hexp : ∀ e, (t, e) ∈ m ↔ expectedBucket lib s t txList = some e := by
    intro e
    rw [mem_iff_bucketAt m hinv.1 t e, hbucket t]
  constructor
  · constructor
    · rintro ⟨e, he⟩
      have h := (hexp e).mp he
      unfold expectedBucket at h
      cases hc : (contributingTxs lib s t txList).head? with
      | none => simp [hc] at h
      | some first =>
        have hmem : first ∈ contributingTxs lib s t txList := List.mem_of_mem_head? hc
        unfold contributingTxs at hmem
        obtain ⟨h1, h2⟩ := List.mem_filter.mp hmem
        simp only [decide_eq_true_eq] at h2
        obtain ⟨v, hv⟩ := List.exists_mem_of_ne_nil _ h2.2.2
        unfold routedVouts at hv
        obtain ⟨hv1, hv2⟩ := List.mem_filter.mp hv
        exact ⟨first, h1, h2.1, h2.2.1, v, hv1, by simpa using hv2⟩
    · rintro ⟨tx, htx, h1, h2, v, hv1, hv2⟩
      have hmem : tx ∈ contributingTxs lib s t txList := by
        unfold contributingTxs
        refine List.mem_filter.mpr ⟨htx, ?_⟩
        simp only [decide_eq_true_eq]
        refine ⟨h1, h2, ?_⟩
        have : v ∈ routedVouts lib s tx.TxTokenData.Vouts := by
          unfold routedVouts
          exact List.mem_filter.mpr ⟨hv1, by simpa using hv2⟩
        exact List.ne_nil_of_mem this
      cases hc : (contributingTxs lib s t txList).head? with
      | none =>
        rw [List.head?_eq_none_iff] at hc
        rw [hc] at hmem
        exact absurd hmem (List.not_mem_nil _)
      | some first =>
        have hsome : ∃ e, expectedBucket lib s t txList = some e := by
          unfold expectedBucket
          rw [hc]
          exact ⟨_, rfl⟩
        obtain ⟨e, he⟩ := hsome
        exact ⟨e, (hexp e).mpr he⟩
  · intro e he
    have h := (hexp e).mp he
    unfold expectedBucket at h
    cases hc : (contributingTxs lib s t txList).head? with
    | none => simp [hc] at h
    | some first =>
      simp only [hc, Option.some.injEq] at h
      have hmem : first ∈ contributingTxs lib s t txList := List.mem_of_mem_head? hc
      unfold contributingTxs at hmem
      obtain ⟨_, h2⟩ := List.mem_filter.mp hmem
      simp only [decide_eq_true_eq] at h2
      subst h
      exact ⟨h2.2.1, rfl, rfl, rfl, first, rfl, rfl, rfl, rfl, rfl, rfl⟩

/-- Instance of C23 with four shards and the router `b % 4`: two transactions
of the token `[7]`, each with one vout routed to shard 1, give one bucket
for shard 1 that holds the two vouts in order. -/
theorem token_bucket_contents_witness :
    ∃ outCoinEachShard txTokenDataEachShard,
      getCrossShardDataHash.grouped toyLib [sampleSameTokenTx 3, sampleSameTokenTx 4]
        = .ok (outCoinEachShard, txTokenDataEachShard) ∧
      ∃ m, txTokenDataEachShard[1]? = some m ∧ (m.map Prod.fst).Nodup ∧
        ∀ e, ([7], e) ∈ m →
          e.Vouts = [⟨3, [9, 1]⟩, ⟨4, [9, 1]⟩] ∧ e.Type_ = toyLib.CustomTokenCrossShard ∧
            e.Vins = [] := by
  obtain ⟨oc, tm, hrun, h⟩ := token_bucket_contents toyLib (fun b => Nat.mod_lt b (by decide))
    [sampleSameTokenTx 3, sampleSameTokenTx 4] (by decide)
  obtain ⟨m, hm, hnd, hb⟩ := h 1 (by decide)
  refine ⟨oc, tm, hrun, m, hm, hnd, ?_⟩
  intro e he
  obtain ⟨_, h2, h3, h4, _⟩ := (hb [7]).2 e he
  exact ⟨h2.trans (by decide), h3, h4⟩

/-- Claim C24 (destination list).  Assume the router returns a byte below
`MAX_SHARD_NUMBER` and every token vout of a custom-token transaction has a
non-empty `Pk`.  Then `CreateCrossShardByteArray` returns a list that is
strictly ascending, hence without duplicates, and holds exactly the shard
ids other than `fromShardID` that are the destination (the router applied
twice to the last byte) of an output coin of a normal, salary or
privacy-token transaction with a proof, or of a token vout of a custom-token
transaction.  So `fromShardID` is never listed and the destinations of
privacy-token output coins are. -/
theorem cross_shard_byte_array_exact {Hash : Type} (lib : Lib Hash)
    (txList : List (Transaction Hash)) (fromShardID : Nat)
    (hroute : ∀ b, lib.GetShardIDFromLastByte b < lib.MAX_SHARD_NUMBER)
    (hbyte : ∀ b, lib.GetShardIDFromLastByte b < 256)
    (hpk : ∀ tx ∈ txList, tx.Type_ = .TxCustomTokenType → ∀ v ∈ tx.TxTokenData.Vouts, v.Pk ≠ []) :
    ∃ crossIDs, CreateCrossShardByteArray lib txList fromShardID = .ok crossIDs ∧
      crossIDs.Pairwise (fun a b => a < b) ∧ crossIDs.Nodup ∧
      (∀ k, k ∈ crossIDs ↔ k ≠ fromShardID ∧ k ∈ crossShardDestinations lib txList) ∧
      fromShardID ∉ crossIDs ∧
      ∀ tx ∈ txList, tx.Type_ = .TxCustomTokenPrivacyType →
        ∀ p, tx.TxTokenPrivacyProof = some p → ∀ c ∈ p.OutputCoins,
          lib.GetShardIDFromLastByte (lib.GetShardIDFromLastByte c.PubKeyLastByte) ≠ fromShardID →
          lib.GetShardIDFromLastByte (lib.GetShardIDFromLastByte c.PubKeyLastByte) ∈ crossIDs := by
  obtain ⟨bm, hrun, hlen, hmark⟩ := byteArray_txs lib txList
    (List.replicate lib.MAX_SHARD_NUMBER 0) (by simpa using hroute) hpk
  have hzero : ∀ k : Nat, ¬ (List.replicate lib.MAX_SHARD_NUMBER 0)[k]? = some 1 := by
    intro k h
    rw [List.getElem?_replicate] at h
    by_cases c : k < lib.MAX_SHARD_NUMBER
    · rw [if_pos c] at h
      exact absurd (Option.some.inj h) (by decide)
    · rw [if_neg c] at h
      exact absurd h (by simp)
  have hmark2 : ∀ k : Nat, bm[k]? = some 1 ↔ k ∈ crossShardDestinations lib txList := by
    intro k
    rw [hmark k]
    exact ⟨fun h => h.resolve_left (hzero k), Or.inr⟩
  have hb : ∀ k : Nat, bm[k]? = some 1 → k < 256 := by
    intro k hk
    obtain ⟨b, rfl⟩ := destinations_routed lib txList k ((hmark2 k).mp hk)
    exact hbyte b
  have hcollect := collect_eq_filter bm fromShardID hb
  have hmem : ∀ k, k ∈ CreateCrossShardByteArray.collect bm fromShardID ↔
      k ≠ fromShardID ∧ k ∈ crossShardDestinations lib txList := by
    intro k
    rw [hcollect, List.mem_filter, List.mem_range, decide_eq_true_eq, hmark2 k]
    constructor
    · rintro ⟨_, h1, h2⟩
      exact ⟨h2, h1⟩
    · rintro ⟨h2, h1⟩
      refine ⟨?_, h1, h2⟩
      obtain ⟨hk, _⟩ := List.getElem?_eq_some_iff.mp ((hmark2 k).mpr h1)
      exact hk
  have hsorted : (CreateCrossShardByteArray.collect bm fromShardID).Pairwise
      (fun a b => a < b) := by
    rw [hcollect]
    exact List.Pairwise.filter _ (List.pairwise_lt_range _)
  refine ⟨CreateCrossShardByteArray.collect bm fromShardID, ?_, hsorted, ?_, hmem, ?_, ?_⟩
  · unfold CreateCrossShardByteArray
    rw [hrun, bind_ok]
  · exact hsorted.imp (fun h => Nat.ne_of_lt h)
  · intro h
    exact ((hmem fromShardID).mp h).1 rfl
  · intro tx htx ht p hp c hc hne
    refine (hmem _).mpr ⟨hne, ?_⟩
    unfold crossShardDestinations
    refine List.mem_flatMap.mpr ⟨tx, htx, ?_⟩
    simp only [ht, hp, proofOutputCoins]
    exact List.mem_map.mpr ⟨c, hc, rfl⟩

/-- Instance of C24 with four shards and the router `b % 4`: for a batch with
two custom-token, a privacy-token and a normal transaction sent from shard
1, the list is `[2, 3]`. -/
theorem cross_shard_byte_array_exact_witness :
    ∃ crossIDs, CreateCrossShardByteArray toyLib
        [sampleTxA, sampleTxB, samplePrivacyTokenTx, sampleNormalTx] 1 = .ok crossIDs ∧
      crossIDs = [2, 3] ∧
      (∀ k, k ∈ crossIDs ↔ k ≠ 1 ∧ k ∈ crossShardDestinations toyLib
        [sampleTxA, sampleTxB, samplePrivacyTokenTx, sampleNormalTx]) := by
  obtain ⟨crossIDs, hrun, _, _, hmem, _, _⟩ :=
    cross_shard_byte_array_exact toyLib
      [sampleTxA, sampleTxB, samplePrivacyTokenTx, sampleNormalTx] 1
      (fun b => Nat.mod_lt b (by decide))
      (fun b => Nat.lt_trans (Nat.mod_lt b (by decide)) (by decide)) (by decide)
  refine ⟨crossIDs, hrun, ?_, hmem⟩
  have h2 : CreateCrossShardByteArray toyLib
      [sampleTxA, sampleTxB, samplePrivacyTokenTx, sampleNormalTx] 1 = .ok [2, 3] := by decide
  rw [hrun] at h2
  exact Run.ok.inj h2

/-- Claim C25 (no check of the path length).  For a row of `N = 2^k` digests
with `k ≥ 1`, an index `s < N` and a level `j ≤ k`, the node of level `j`
above leaf `s` exists, and `VerifyMerkleTree` accepts it against the root
that `GetMerklePathCrossShard` returns for `s`, when it is presented with the
last `k - j` siblings of the path of `s` and the receiver id `s / 2^j`; the
root itself is accepted with the empty path for every receiver id. -/
theorem verify_accepts_inner_node {Hash : Type} (lib : Lib Hash) (row : List Hash) (k s j : Nat)
    (hk : row.length = 2 ^ k) (hk1 : 1 ≤ k) (hs : s < row.length) (hj : j ≤ k) :
    ∃ path root x, GetMerklePathCrossShard.fromRow lib row s = .ok (path, root) ∧
      path.length = k ∧ (path.drop j).length = k - j ∧
      node lib row j (s / 2 ^ j) = some x ∧
      VerifyMerkleTree lib x (path.drop j) root (s / 2 ^ j) = true ∧
      ∀ r, VerifyMerkleTree lib root [] root r = true := by
  obtain ⟨d, path, root, _, _, hrun, hpl, hpath, _, hroot⟩ :=
    fromRow_spec lib row k hk hk1 s (by omega)
  have hsj : (s / 2 ^ j + 1) * 2 ^ j ≤ row.length := by
    have h1 : s / 2 ^ j < 2 ^ (k - j) := div_pow_lt k j s hj (by omega)
    have h2 : 2 ^ (k - j) * 2 ^ j = 2 ^ k := by rw [← pow_add]; congr 1; omega
    calc (s / 2 ^ j + 1) * 2 ^ j ≤ 2 ^ (k - j) * 2 ^ j := Nat.mul_le_mul_right _ h1
      _ = row.length := by rw [h2, hk]
  obtain ⟨x, hx⟩ := node_some lib row j (s / 2 ^ j) hsj
  have hlen : (path.drop j).length = k - j := by simp [hpl]
  refine ⟨path, root, x, hrun, hpl, hlen, hx, ?_, ?_⟩
  · have h := verify_loop lib row s (path.drop j) j x hx (by
      intro l hl
      rw [hlen] at hl
      obtain ⟨h, a1, _, a3⟩ := hpath (j + l) (by omega)
      rw [List.getElem?_drop, a1, a3])
    rw [hlen] at h
    have e1 : j + (k - j) = k := by omega
    have e2 : s / 2 ^ k = 0 := Nat.div_eq_of_lt (by omega)
    rw [e1, e2, hroot] at h
    have hv := (Option.some.inj h).symm
    simp [VerifyMerkleTree, hv]
  · intro r
    simp [VerifyMerkleTree, VerifyMerkleTree.loop]

/-- Instance of C25 on a row of four digests: the node of level 1 above leaf
2 is accepted with the last sibling alone, for receiver id 1. -/
theorem verify_accepts_inner_node_witness :
    ([[1], [2], [3], [4]] : List (List Nat)).length = 2 ^ 2 ∧
    ∃ path root x, GetMerklePathCrossShard.fromRow toyLib [[1], [2], [3], [4]] 2
        = .ok (path, root) ∧
      path.length = 2 ∧ (path.drop 1).length = 2 - 1 ∧
      node toyLib [[1], [2], [3], [4]] 1 (2 / 2 ^ 1) = some x ∧
      VerifyMerkleTree toyLib x (path.drop 1) root (2 / 2 ^ 1) = true ∧
      ∀ r, VerifyMerkleTree toyLib root [] root r = true :=
  ⟨rfl, verify_accepts_inner_node toyLib [[1], [2], [3], [4]] 2 2 1 rfl (by decide) (by decide)
    (by decide)⟩

/-- Claim C26 fails on the code.  With four shards and the router `b % 4`,
which is idempotent and maps into `[0, 4)`, take the batch of one
custom-token transaction without token vouts whose proof has one output
coin with last public-key byte 3, sent from shard 0.  `getCrossShardDataHash`
groups the coin under shard 3, so the digest of shard 3 commits to it, while
`CreateCrossShardByteArray`, which reads only the token vouts of a
custom-token transaction, returns the empty list: shard 3 is not listed. -/
theorem destination_list_misses_custom_token_coin :
    (∀ b, toyLib.GetShardIDFromLastByte (toyLib.GetShardIDFromLastByte b)
        = toyLib.GetShardIDFromLastByte b) ∧
    (∀ b, toyLib.GetShardIDFromLastByte b < toyLib.MAX_SHARD_NUMBER) ∧
    getCrossShardDataHash.grouped toyLib [sampleCustomCoinTx]
      = .ok ([[], [], [], [⟨3, [8]⟩]], [[], [], [], []]) ∧
    (∃ row d, getCrossShardDataHash toyLib insertionOrder [sampleCustomCoinTx] = .ok row ∧
      row[3]? = some d ∧ d ≠ hashCat toyLib (toyLib.HashH []) (toyLib.HashH [])) ∧
    CreateCrossShardByteArray toyLib [sampleCustomCoinTx] 0 = .ok [] ∧
    (3 : Nat) ≠ 0 := by
  refine ⟨fun b => Nat.mod_mod b 4, fun b => Nat.mod_lt b (by decide), rfl, ?_, by decide,
    by decide⟩
  exact ⟨_, _, rfl, rfl, by decide⟩

/-- Claim C27 (reads of `GetAssignInstructionFromBeaconBlock`).  The run returns
a list if and only if every instruction of every block is non-empty, has at
least three fields when its first field is `"assign"`, and at least four when
also its third field is `"shard"`; otherwise it stops with an index out of
range.  An instruction of three fields whose first field is `"stake"` and an
instruction of five fields are readable, so they never stop the run. -/
theorem assign_run_completes_iff (beaconBlocks : List BeaconBlock) (shardID : Nat) :
    ((∃ r, GetAssignInstructionFromBeaconBlock beaconBlocks shardID = .ok r) ↔
      ∀ b ∈ beaconBlocks, ∀ l ∈ b.Instructions,
        l ≠ [] ∧ (l[0]? = some "assign" → 3 ≤ l.length) ∧
          (l[0]? = some "assign" → l[2]? = some "shard" → 4 ≤ l.length)) ∧
    (GetAssignInstructionFromBeaconBlock beaconBlocks shardID = .outOfRange ↔
      ¬ ∀ b ∈ beaconBlocks, ∀ l ∈ b.Instructions, readableInstruction l) ∧
    (∀ keys kind, readableInstruction ["stake", keys, kind]) ∧
    (∀ a b c d e, readableInstruction [a, b, c, d, e]) := by
  unfold GetAssignInstructionFromBeaconBlock
  refine ⟨?_, ?_, ?_, ?_⟩
  · rcases assign_blocks_run shardID beaconBlocks [] with ⟨hall, hok⟩ | ⟨hnall, hout⟩
    · exact ⟨fun _ => hall, fun _ => hok⟩
    · constructor
      · rintro ⟨r, hr⟩
        rw [hout] at hr
        exact absurd hr (by simp)
      · intro h
        exact absurd h hnall
  · rcases assign_blocks_run shardID beaconBlocks [] with ⟨hall, r, hok⟩ | ⟨hnall, hout⟩
    · constructor
      · intro h
        rw [hok] at h
        exact absurd h (by simp)
      · intro h
        exact absurd hall h
    · exact ⟨fun _ => hnall, fun _ => hout⟩
  · intro keys kind
    refine ⟨by simp, ?_, ?_⟩
    · intro h
      simp at h
    · intro h
      simp at h
  · intro a b c d e
    exact ⟨by simp, by simp, by simp⟩

/-- Instance of C27: a block with a stake, a swap and an assign instruction is
read without failure, and a two-field assign instruction stops the run. -/
theorem assign_run_completes_iff_witness :
    GetAssignInstructionFromBeaconBlock
        [⟨[["stake", "k1,k2", "shard"], ["swap", "a", "b", "shard", "3"],
            ["assign", "k1", "shard", "3"]]⟩] 3 = .ok [["assign", "k1", "shard", "3"]] ∧
      GetAssignInstructionFromBeaconBlock [⟨[["assign", "k1"]]⟩] 3 = .outOfRange ∧
      ¬ (∀ b ∈ [(⟨[["assign", "k1"]]⟩ : BeaconBlock)], ∀ l ∈ b.Instructions,
        readableInstruction l) :=
  ⟨by decide, by decide,
    ((assign_run_completes_iff [⟨[["assign", "k1"]]⟩] 3).2.1).mp (by decide)⟩

/-- Claim C28 fails when `to` is the largest `uint64`.  In the sample store
every lookup, fetch and decode succeeds; with `from = to = 2^64 - 1` the
counter wraps to 0 after the first iteration and the test `i <= to` holds
for every `uint64`, so the loop of `FetchBeaconBlockFromHeight` does not
return, whatever the number of iterations allowed. -/
theorem fetch_diverges_at_max_height :
    totalStore.AllSucceed ∧
    (∀ fuel, FetchBeaconBlockFromHeight.loop totalStore (2 ^ 64 - 1) fuel (2 ^ 64 - 1) [] []
      = .outOfFuel) ∧
    FetchBeaconBlockFromHeight totalStore (2 ^ 64 - 1) (2 ^ 64 - 1) = .outOfFuel :=
  ⟨totalStore_all_succeed,
    fun fuel => fetch_loop_max totalStore totalStore_all_succeed fuel _ _ _ (by norm_num),
    fetch_loop_max totalStore totalStore_all_succeed _ _ _ _ (by norm_num)⟩

/-- Claim C28, amended.  For heights `from` and `to` with `to < 2^64 - 1` and
a store whose lookups, fetches and decodes all succeed,
`FetchBeaconBlockFromHeight` returns without error: when `from ≤ to` exactly
the `to - from + 1` blocks decoded at the heights `from, ..., to`, in that
order, and when `from > to` the empty list, without any storage call. -/
theorem fetch_total_below_max_height {Hash E J : Type} (db : BeaconStore Hash E J)
    (from_ to_ : Nat) (hall : db.AllSucceed) (hto : to_ < 2 ^ 64 - 1) :
    (from_ ≤ to_ →
      ∃ blocks calls, FetchBeaconBlockFromHeight db from_ to_ = .ok (blocks, none, calls) ∧
        blocks.length = to_ - from_ + 1 ∧
        blocks.map some = (List.range' from_ (to_ - from_ + 1)).map (decodedBlock db) ∧
        calls.filterMap lookedUpHeight = List.range' from_ (to_ - from_ + 1)) ∧
    (to_ < from_ → FetchBeaconBlockFromHeight db from_ to_ = .ok ([], none, [])) := by
  constructor
  · intro hle
    have hg : ∀ j, j < to_ - from_ + 1 →
        ∃ r, FetchBeaconBlockFromHeight.body db (from_ + j) = .ok r :=
      fun j hj => hall (from_ + j) (by omega)
    have hfuel : 2 ^ 64 + 1 = (2 ^ 64 - (to_ - from_ + 1)) + 1 + (to_ - from_ + 1) := by omega
    have hrun : FetchBeaconBlockFromHeight db from_ to_
        = .ok ((List.range' from_ (to_ - from_ + 1)).filterMap (decodedBlock db), none,
          (List.range' from_ (to_ - from_ + 1)).flatMap (callsAt db)) := by
      unfold FetchBeaconBlockFromHeight
      rw [hfuel, fetch_loop_prefix db to_ (to_ - from_ + 1) from_ _ [] [] (by omega) (by omega) hg]
      rw [show from_ + (to_ - from_ + 1) = to_ + 1 by omega]
      rw [FetchBeaconBlockFromHeight.loop, if_neg (by omega)]
      simp
    have hmap := decoded_range db (to_ - from_ + 1) from_ hg
    refine ⟨_, _, hrun, ?_, hmap, calls_heights_range db _ _⟩
    have := congrArg List.length hmap
    simpa using this
  · intro hlt
    unfold FetchBeaconBlockFromHeight
    rw [FetchBeaconBlockFromHeight.loop, if_neg (by omega)]

/-- Instance of the amended C28 on the sample store in which every step
succeeds: the heights 2 to 4 give three blocks, the heights 4 to 2 none. -/
theorem fetch_total_below_max_height_witness :
    (∃ blocks calls, FetchBeaconBlockFromHeight totalStore 2 4 = .ok (blocks, none, calls) ∧
        blocks.length = 4 - 2 + 1 ∧
        blocks.map some = (List.range' 2 (4 - 2 + 1)).map (decodedBlock totalStore) ∧
        calls.filterMap lookedUpHeight = List.range' 2 (4 - 2 + 1)) ∧
    FetchBeaconBlockFromHeight totalStore 4 2 = .ok ([], none, []) :=
  ⟨(fetch_total_below_max_height totalStore 2 4 totalStore_all_succeed (by norm_num)).1
      (by decide),
    (fetch_total_below_max_height totalStore 4 2 totalStore_all_succeed (by norm_num)).2
      (by decide)⟩

end ShardUtils
